import Mathlib

/-!
# Proof-of-stake kernel (`src/kernel.cpp`)

A shallow embedding of the stake-modifier and kernel-hash code of `kernel.cpp`
and the properties proved about it.

Conventions of the embedding:

* unsigned integers (`unsigned int`, `uint64_t`, and the 256-bit `uint256`, whose
  class is declared outside `kernel.cpp`) are `Nat`, reduced `% 2^w` where the
  C++ type truncates; `int` / `int64_t` values are `Int`;
* a `const CBlockIndex*` that the code only reads fields of is an
  `Option CBlockIndex` (`none` is the null pointer); a pointer whose `pprev`
  links are followed is the list of the block and its ancestors, nearest first
  (`[]` is the null pointer, the tail is `pprev`);
* a call either returns (`Exec.ret`) or does not return normally
  (`Exec.fault`: null dereference, out-of-range index, failed `assert`,
  division by zero);
* log output (`LogPrintf`, `LogPrint`, `error`'s message) is not modelled, so the
  arguments `fVerify` and `fPrintProofOfStake`, which only select log output, are
  dropped.
-/

namespace PoSKernel

/-! ## Data model -/

/-- Outcome of a call: it returns a value, or it does not return normally. -/
inductive Exec (α : Type) where
  | ret (a : α)
  | fault
  deriving DecidableEq, Repr

/-- The fields and accessors of `CBlockIndex` read by `kernel.cpp`; the `pprev`
link is carried by the list representation of pointers. -/
structure CBlockIndex where
  /-- Value of `GetBlockHash()`, a `uint256`. -/
  hashBlock : Nat
  nHeight : Int
  /-- Field `nTime`, an `unsigned int`; `GetBlockTime()` is its `int64_t` value. -/
  nTime : Nat
  /-- Value of `GeneratedStakeModifier()`. -/
  fGeneratedStakeModifier : Bool := false
  /-- Value of `GetStakeEntropyBit()`, see `CBlockIndex.GetStakeEntropyBit`. -/
  fStakeEntropyBit : Bool := false
  /-- Value of `IsProofOfStake()`. -/
  fProofOfStake : Bool := false
  /-- Field `nStakeModifier`, a `uint64_t`. -/
  nStakeModifier : Nat := 0
  /-- Field `nStakeModifierV2`, a `uint256`. -/
  nStakeModifierV2 : Nat := 0
  nFlags : Nat := 0
  hashProofOfStake : Nat := 0
  nStakeModifierChecksum : Nat := 0
  deriving DecidableEq, Repr

/-- The value `pindex->GetBlockTime()`. -/
def CBlockIndex.GetBlockTime (b : CBlockIndex) : Int := (b.nTime : Int)

/-- Modelled from the spec: `GetStakeEntropyBit()` is declared in `chain.h`, which
is not among the sources; by the data model (section 3) the entropy bit of a
block is 0 or 1. -/
def CBlockIndex.GetStakeEntropyBit (b : CBlockIndex) : Nat :=
  if b.fStakeEntropyBit then 1 else 0

/-- The capability set of `CStakeInput` used by the kernel (`stakeinput.h` is not
among the sources): each field is the result of the method of the same name,
`none` standing for a null origin block and for `GetModifier` returning
`false`. -/
structure CStakeInput where
  GetIndexFrom : Option CBlockIndex
  /-- A `CAmount`, i.e. `int64_t`. -/
  GetValue : Int
  /-- The bytes of the `CDataStream` returned by `GetUniqueness()`. -/
  GetUniqueness : List Nat
  GetModifier : Option Nat
  deriving DecidableEq, Repr

structure CTxOut where
  nValue : Int
  scriptPubKey : List Nat
  deriving DecidableEq, Repr

structure COutPoint where
  hash : Nat
  n : Nat
  deriving DecidableEq, Repr

structure CTxIn where
  prevout : COutPoint
  scriptSig : List Nat
  deriving DecidableEq, Repr

structure CTransaction where
  vin : List CTxIn
  vout : List CTxOut
  /-- Modelled from the spec: section 4.7 speaks of the time of the coinstake
  transaction; `kernel.cpp` reads no such field of a transaction. -/
  nTime : Nat := 0
  deriving DecidableEq, Repr

structure CBlock where
  nTime : Nat
  nBits : Nat
  hashPrevBlock : Nat
  vtx : List CTransaction
  deriving DecidableEq, Repr

/-- The map `mapBlockIndex` from block hash to `CBlockIndex*`: `none` when the key
is absent, `some none` when the key is present with a null pointer. -/
abbrev BlockMap := Nat → Option (Option CBlockIndex)

/-- The globals, constants and external collaborators that `kernel.cpp` reads.
Their declarations (`kernel.h`, `chainparams.h`, `hash.h`, `main.h`,
`stakeinput.h`, the script interpreter) are not among the sources, so they are
parameters of the embedding. -/
structure Env where
  /-- The function `Hash(begin, end)` on the serialized bytes. -/
  hashFn : List Nat → Nat
  MODIFIER_INTERVAL : Int
  MODIFIER_INTERVAL_RATIO : Int
  /-- Value of `Params().ModifierUpgradeBlock()`. -/
  ModifierUpgradeBlock : Int
  /-- The predicate `Params().IsStakeModifierV2(nHeight)`. -/
  IsStakeModifierV2 : Int → Bool
  /-- The predicate `Params().HasStakeMinAgeOrDepth(height, time, heightFrom, timeFrom)`. -/
  HasStakeMinAgeOrDepth : Int → Nat → Int → Nat → Bool
  mapBlockIndex : BlockMap
  /-- The vector `chainActive.vChain`, indexed by height. -/
  chainActive : List CBlockIndex
  /-- The address at which the string literal `"stakemodifier"` is stored. -/
  pszStakeModifier : Nat
  /-- The method `CTransaction::IsCoinStake()`. -/
  IsCoinStake : CTransaction → Bool
  /-- The result of `GetTransaction(hash, txPrev, hashBlock, true)`: the previous
  transaction, `none` when the call returns `false`. -/
  GetTransaction : Nat → Option CTransaction
  /-- The result of `VerifyScript` for input 0 of the coinstake against the
  referenced output. -/
  VerifyScript : CTxIn → CTxOut → CTransaction → Bool
  /-- The stake input built by `CPhoreStake::SetInput(txPrev, n)`. -/
  SetInput : CTransaction → Nat → CStakeInput
  /-- Value of `Params().HashGenesisBlock()`. -/
  HashGenesisBlock : Nat := 0
  /-- Whether `Params().NetworkID()` is `CBaseChainParams::MAIN`. -/
  fMainNetwork : Bool := true

/-! ## Serialization and hashing -/

/-- Modelled from the spec: the serializer (`serialize.h`) is not among the
sources; by section 4.1 an integer is written as its bytes in little-endian
order, here the `nBytes` low bytes of `n`. -/
def serLE (nBytes n : Nat) : List Nat :=
  (List.range nBytes).map (fun i => n / 256 ^ i % 256)

/-- Serialization of an `unsigned int`. -/
def ser32 (n : Nat) : List Nat := serLE 4 n

/-- Serialization of a `uint64_t`. -/
def ser64 (n : Nat) : List Nat := serLE 8 n

/-- Serialization of a `uint256`. -/
def ser256 (n : Nat) : List Nat := serLE 32 n

/-- The call `Hash(ss.begin(), ss.end())`, a `uint256`. -/
def Hash (env : Env) (bytes : List Nat) : Nat := env.hashFn bytes % 2 ^ 256

/-- Modelled from the spec: `uint256::SetCompact` (`uint256.h`, not among the
sources) is the `decompress_compact` of section 4.5: the compact form's size byte
and 23-bit mantissa expanded to a 256-bit value. -/
def SetCompact (nCompact : Nat) : Nat :=
  let nSize := (nCompact % 2 ^ 32) >>> 24
  let nWord := (nCompact % 2 ^ 32) &&& 0x007fffff
  if nSize ≤ 3 then nWord >>> (8 * (3 - nSize))
  else (nWord <<< (8 * (nSize - 3))) % 2 ^ 256

/-- The conversion `uint256(nValueIn)` of a `CAmount` through `uint64_t`. -/
def uint256OfAmount (nValueIn : Int) : Nat := (nValueIn % 2 ^ 64).toNat

/-! ## Kernel hash and target check -/

/-- `GetHashProofOfStake`: `ret none` is the return value `false`, `ret (some h)`
is `true` with `hashProofOfStakeRet = h`. -/
def GetHashProofOfStake (env : Env) (pindexPrev : Option CBlockIndex)
    (stake : CStakeInput) (nTimeTx : Nat) : Exec (Option Nat) :=
  match stake.GetIndexFrom with
  | none => .ret none
  | some pindexfrom =>
    let ssUniqueID := stake.GetUniqueness
    let nTimeBlockFrom := pindexfrom.nTime
    match pindexPrev with
    | none => .fault
    | some prev =>
      if !env.IsStakeModifierV2 (prev.nHeight + 1) then
        match stake.GetModifier with
        | none => .ret none
        | some nStakeModifier =>
          .ret (some (Hash env
            (ser64 nStakeModifier ++ ser32 nTimeBlockFrom ++ ssUniqueID ++ ser32 nTimeTx)))
      else
        .ret (some (Hash env
          (ser256 prev.nStakeModifierV2 ++ ser32 nTimeBlockFrom ++ ssUniqueID ++ ser32 nTimeTx)))

/-- The value of `bnTarget` after `bnTarget.SetCompact(nBits)` and
`bnTarget *= uint256(nValueIn) / 100` in `CheckStakeKernelHash`. The operands are
`uint256` values, so the product is kept to 256 bits: it is reduced modulo
`2^256`, as for every unsigned integer type of the language. -/
def weightedTarget (nBits : Nat) (nValueIn : Int) : Nat :=
  let bnTarget := SetCompact nBits
  let bnWeight := uint256OfAmount nValueIn / 100
  (bnTarget * bnWeight) % 2 ^ 256

/-- `CheckStakeKernelHash`: the returned flag and the value written to
`hashProofOfStake` (`none` when it is not written). -/
def CheckStakeKernelHash (env : Env) (pindexPrev : Option CBlockIndex) (nBits : Nat)
    (stake : CStakeInput) (nTimeTx : Nat) : Exec (Bool × Option Nat) :=
  match GetHashProofOfStake env pindexPrev stake nTimeTx with
  | .fault => .fault
  | .ret none => .ret (false, none)
  | .ret (some hashProofOfStake) =>
    let nValueIn := stake.GetValue
    let bnTarget := weightedTarget nBits nValueIn
    let res := decide (hashProofOfStake < bnTarget)
    .ret (res, some hashProofOfStake)

/-! ## Stake modifier selection -/

/-- The constant `OLD_MODIFIER_INTERVAL`. -/
def OLD_MODIFIER_INTERVAL : Int := 2087

/-- `GetLastStakeModifier`: `none` is the return value `false`, `some (m, t)` is
`true` with `nStakeModifier = m` and `nModifierTime = t`. -/
def GetLastStakeModifier : List CBlockIndex → Option (Nat × Int)
  | [] => none
  | [pindex] =>
    if !pindex.fGeneratedStakeModifier then none
    else some (pindex.nStakeModifier, pindex.GetBlockTime)
  | pindex :: pprev :: rest =>
    if !pindex.fGeneratedStakeModifier then GetLastStakeModifier (pprev :: rest)
    else some (pindex.nStakeModifier, pindex.GetBlockTime)

/-- The divisor in `GetStakeModifierSelectionIntervalSection`. -/
def sectionDivisor (env : Env) (nSection : Int) : Int :=
  63 + ((63 - nSection) * ( Env.MODIFIER_INTERVAL_RATIO env - 1))

/-- The quotient computed by `GetStakeModifierSelectionIntervalSection`. -/
def sectionLength (env : Env) (nSection : Int) : Int :=
  (env.MODIFIER_INTERVAL * 63).tdiv (sectionDivisor env nSection)

/-- `GetStakeModifierSelectionIntervalSection`, with its `assert`. -/
def GetStakeModifierSelectionIntervalSection (env : Env) (nSection : Int) : Exec Int :=
  if ¬ (nSection ≥ 0 ∧ nSection < 64) then .fault
  else if sectionDivisor env nSection = 0 then .fault
  else .ret (sectionLength env nSection)

/-- The map `mapSelectedBlocks`, as the list of its entries in order of
insertion. -/
abbrev SelectedMap := List (Nat × CBlockIndex)

/-- The test `mapSelectedBlocks.count(hash) > 0`. -/
def SelectedMap.count (m : SelectedMap) (hash : Nat) : Bool :=
  m.any (fun e => e.1 == hash)

/-- The call `mapSelectedBlocks.insert(make_pair(hash, pindex))`, which leaves an
existing key untouched. -/
def SelectedMap.insert (m : SelectedMap) (hash : Nat) (pindex : CBlockIndex) : SelectedMap :=
  if m.count hash then m else m ++ [(hash, pindex)]

/-- The local variables of `SelectBlockFromCandidates`. -/
structure SelectState where
  fModifierV2 : Bool
  fFirstRun : Bool
  fSelected : Bool
  hashBest : Nat
  pindexSelected : Option CBlockIndex
  deriving DecidableEq, Repr

/-- The values of the locals before the loop of `SelectBlockFromCandidates`. -/
def SelectState.init : SelectState :=
  { fModifierV2 := false, fFirstRun := true, fSelected := false, hashBest := 0,
    pindexSelected := none }

/-- The selection hash of a candidate in `SelectBlockFromCandidates`. -/
def selectionHash (env : Env) (fModifierV2 : Bool) (nStakeModifierPrev : Nat)
    (pindex : CBlockIndex) : Nat :=
  let hashProof :=
    if fModifierV2 then pindex.hashBlock
    else (if pindex.fProofOfStake then 0 else pindex.hashBlock)
  let hashSelection := Hash env (ser256 hashProof ++ ser64 nStakeModifierPrev)
  if pindex.fProofOfStake then hashSelection >>> 32 else hashSelection

/-- The `if (fFirstRun)` statement of the loop body: the first block looked at
fixes `fModifierV2`. -/
def SelectState.firstRun (env : Env) (pindex : CBlockIndex) (s : SelectState) : SelectState :=
  if s.fFirstRun then
    { s with fModifierV2 := decide (pindex.nHeight ≥ env.ModifierUpgradeBlock),
             fFirstRun := false }
  else s

/-- The end of the loop body for a candidate that is not in `mapSelectedBlocks`:
its selection hash is computed and compared with `hashBest`. -/
def SelectState.consider (env : Env) (nStakeModifierPrev : Nat) (pindex : CBlockIndex)
    (s : SelectState) : SelectState :=
  let hashSelection := selectionHash env s.fModifierV2 nStakeModifierPrev pindex
  if s.fSelected && decide (hashSelection < s.hashBest) then
    { s with hashBest := hashSelection, pindexSelected := some pindex }
  else if !s.fSelected then
    { s with fSelected := true, hashBest := hashSelection, pindexSelected := some pindex }
  else s

/-- The `for` loop of `SelectBlockFromCandidates` over the remaining items. The
flag of the result is `false` when the loop is left by `return error(...)`, and
`true` when it ends or is left by `break`. -/
def selectLoop (env : Env) (mapSelectedBlocks : SelectedMap)
    (nSelectionIntervalStop : Int) (nStakeModifierPrev : Nat) :
    List (Int × Nat) → SelectState → Exec (Bool × SelectState)
  | [], s => .ret (true, s)
  | item :: rest, s =>
    match env.mapBlockIndex item.2 with
    | none => .ret (false, s)
    | some none => .fault
    | some (some pindex) =>
      if s.fSelected && decide (pindex.GetBlockTime > nSelectionIntervalStop) then
        .ret (true, s)
      else if mapSelectedBlocks.count pindex.hashBlock then
        selectLoop env mapSelectedBlocks nSelectionIntervalStop nStakeModifierPrev rest
          (s.firstRun env pindex)
      else
        selectLoop env mapSelectedBlocks nSelectionIntervalStop nStakeModifierPrev rest
          ((s.firstRun env pindex).consider env nStakeModifierPrev pindex)

/-- `SelectBlockFromCandidates`: the returned flag and `*pindexSelected`. -/
def SelectBlockFromCandidates (env : Env) (vSortedByTimestamp : List (Int × Nat))
    (mapSelectedBlocks : SelectedMap) (nSelectionIntervalStop : Int)
    (nStakeModifierPrev : Nat) : Exec (Bool × Option CBlockIndex) :=
  match selectLoop env mapSelectedBlocks nSelectionIntervalStop nStakeModifierPrev
      vSortedByTimestamp SelectState.init with
  | .fault => .fault
  | .ret (false, s) => .ret (false, s.pindexSelected)
  | .ret (true, s) => .ret (s.fSelected, s.pindexSelected)

/-- The candidate collection loop of `ComputeNextStakeModifier`: the pairs pushed
to `vSortedByTimestamp` while walking `pprev` from `pindexPrev`. -/
def collectCandidates (nSelectionIntervalStart : Int) : List CBlockIndex → List (Int × Nat)
  | [] => []
  | pindex :: pprev =>
    if pindex.GetBlockTime ≥ nSelectionIntervalStart then
      (pindex.GetBlockTime, pindex.hashBlock) :: collectCandidates nSelectionIntervalStart pprev
    else []

/-- The order `operator<=` on `pair<int64_t, uint256>`. -/
def pairLE (a b : Int × Nat) : Bool :=
  decide (a.1 < b.1) || (decide (a.1 = b.1) && decide (a.2 ≤ b.2))

/-- The call `sort(v.begin(), v.end())` on a vector of pairs: the order is total and
only identical pairs compare equal, so the sorted vector does not depend on the
sorting algorithm. -/
def sortPairs (v : List (Int × Nat)) : List (Int × Nat) :=
  v.insertionSort (fun a b => pairLE a b = true)

/-- The value of `nSelectionIntervalStart` in `ComputeNextStakeModifier`. -/
def selectionIntervalStart (env : Env) (pindexPrev : CBlockIndex) : Int :=
  (pindexPrev.GetBlockTime.tdiv env.MODIFIER_INTERVAL) * env.MODIFIER_INTERVAL
    - OLD_MODIFIER_INTERVAL

/-- The vector `vSortedByTimestamp` handed to the selection rounds. -/
def sortedCandidates (env : Env) (pindexPrev : CBlockIndex) (pprev : List CBlockIndex) :
    List (Int × Nat) :=
  sortPairs (collectCandidates (selectionIntervalStart env pindexPrev) (pindexPrev :: pprev)).reverse

/-- The selection loop of `ComputeNextStakeModifier`, with `nRounds` rounds left to
run from round `nRound`. `ret none` is `return error(...)`; `ret (some _)` carries
`nStakeModifierNew` and `mapSelectedBlocks` at the end of the loop. -/
def selectionRounds (env : Env) (vSortedByTimestamp : List (Int × Nat))
    (nStakeModifier : Nat) :
    (nRounds : Nat) → (nRound : Nat) → (nStakeModifierNew : Nat) →
    (nSelectionIntervalStop : Int) → (mapSelectedBlocks : SelectedMap) →
    Exec (Option (Nat × SelectedMap))
  | 0, _, nStakeModifierNew, _, mapSelectedBlocks =>
    .ret (some (nStakeModifierNew, mapSelectedBlocks))
  | nRounds + 1, nRound, nStakeModifierNew, nSelectionIntervalStop, mapSelectedBlocks =>
    match GetStakeModifierSelectionIntervalSection env nRound with
    | .fault => .fault
    | .ret nSection =>
      let nStop := nSelectionIntervalStop + nSection
      match SelectBlockFromCandidates env vSortedByTimestamp mapSelectedBlocks nStop
          nStakeModifier with
      | .fault => .fault
      | .ret (false, _) => .ret none
      | .ret (true, none) => .fault
      | .ret (true, some pindex) =>
        selectionRounds env vSortedByTimestamp nStakeModifier nRounds (nRound + 1)
          (nStakeModifierNew ||| ((pindex.GetStakeEntropyBit <<< nRound) % 2 ^ 64))
          nStop (mapSelectedBlocks.insert pindex.hashBlock pindex)

/-- The return value and out-parameters of `ComputeNextStakeModifier`. -/
structure ModifierResult where
  ret : Bool
  nStakeModifier : Nat
  fGeneratedStakeModifier : Bool
  deriving DecidableEq, Repr

/-- `ComputeNextStakeModifier`. The `reserve` call (a capacity hint) and the
selection map printed under `-printstakemodifier` have no effect on the result and
are left out. -/
def ComputeNextStakeModifier (env : Env) (pindexPrev : List CBlockIndex) :
    Exec ModifierResult :=
  match pindexPrev with
  | [] => .ret { ret := true, nStakeModifier := 0, fGeneratedStakeModifier := true }
  | prev :: pprev =>
    if prev.nHeight = 0 then
      .ret { ret := true, nStakeModifier := env.pszStakeModifier % 2 ^ 64,
             fGeneratedStakeModifier := true }
    else
      match GetLastStakeModifier (prev :: pprev) with
      | none => .ret { ret := false, nStakeModifier := 0, fGeneratedStakeModifier := false }
      | some (nStakeModifier, nModifierTime) =>
        if env.MODIFIER_INTERVAL = 0 then .fault
        else if nModifierTime.tdiv env.MODIFIER_INTERVAL
            ≥ prev.GetBlockTime.tdiv env.MODIFIER_INTERVAL then
          .ret { ret := true, nStakeModifier := nStakeModifier,
                 fGeneratedStakeModifier := false }
        else
          let vSortedByTimestamp := sortedCandidates env prev pprev
          let nSelectionIntervalStart := selectionIntervalStart env prev
          match selectionRounds env vSortedByTimestamp nStakeModifier
              (min 64 vSortedByTimestamp.length) 0 0 nSelectionIntervalStart [] with
          | .fault => .fault
          | .ret none =>
            .ret { ret := false, nStakeModifier := nStakeModifier,
                   fGeneratedStakeModifier := false }
          | .ret (some (nStakeModifierNew, _)) =>
            .ret { ret := true, nStakeModifier := nStakeModifierNew,
                   fGeneratedStakeModifier := true }

/-! ## Kernel stake modifier (v1) -/

/-- The lookup `chainActive[nHeight]` (`CChain::operator[]`): null outside
`0 .. size-1`. -/
def chainAt (env : Env) (nHeight : Int) : Option CBlockIndex :=
  if nHeight < 0 then none else env.chainActive[nHeight.toNat]?

/-- The return value and out-parameters of `GetKernelStakeModifier`; an
out-parameter that was not written is `none`. -/
structure KernelModifierResult where
  ret : Bool
  nStakeModifier : Nat
  nStakeModifierHeight : Option Int
  nStakeModifierTime : Option Int
  deriving DecidableEq, Repr

/-- A `while (cond);` statement whose condition reads no variable that changes:
each evaluation of a true condition uses one unit of `fuel`; `none` when the fuel
runs out before the loop is left. -/
def emptyWhile (cond : Bool) : (fuel : Nat) → Option Unit
  | 0 => none
  | fuel + 1 => if cond then emptyWhile cond fuel else some ()

/-- The statements of `GetKernelStakeModifier` that follow the `while (...);`
statement: the braced block, run once, and the final assignment. -/
def kernelModifierAfterLoop (env : Env) (pindexFrom : CBlockIndex) : KernelModifierResult :=
  let nStakeModifierHeight := pindexFrom.nHeight
  let nStakeModifierTime := pindexFrom.GetBlockTime
  let pindexNext := chainAt env (pindexFrom.nHeight + 1)
  match pindexNext with
  | none =>
    { ret := false, nStakeModifier := 0, nStakeModifierHeight := some nStakeModifierHeight,
      nStakeModifierTime := some nStakeModifierTime }
  | some pindex =>
    if pindex.fGeneratedStakeModifier then
      { ret := true, nStakeModifier := pindex.nStakeModifier,
        nStakeModifierHeight := some pindex.nHeight,
        nStakeModifierTime := some pindex.GetBlockTime }
    else
      { ret := true, nStakeModifier := pindex.nStakeModifier,
        nStakeModifierHeight := some nStakeModifierHeight,
        nStakeModifierTime := some nStakeModifierTime }

/-- `GetKernelStakeModifier`, statement by statement: the lookup of the origin
block, the `while (...);` statement with its empty body, then the block that
follows it. The result is `none` when `fuel` evaluations of the loop condition did
not leave the loop. -/
def GetKernelStakeModifier (env : Env) (hashBlockFrom : Nat) (fuel : Nat) :
    Option (Exec KernelModifierResult) :=
  match env.mapBlockIndex hashBlockFrom with
  | none =>
    some (.ret { ret := false, nStakeModifier := 0, nStakeModifierHeight := none,
                 nStakeModifierTime := none })
  | some none => some .fault
  | some (some pindexFrom) =>
    let nStakeModifierTime := pindexFrom.GetBlockTime
    match emptyWhile
        (decide (nStakeModifierTime < pindexFrom.GetBlockTime + OLD_MODIFIER_INTERVAL)) fuel with
    | none => none
    | some () => some (.ret (kernelModifierAfterLoop env pindexFrom))

/-- `GetKernelStakeModifier` as built by a compiler that removes the
`while (...);` statement, which has no side effect (the forward-progress rule of
the language allows this): the block that follows the loop runs once. -/
def GetKernelStakeModifierLoopRemoved (env : Env) (hashBlockFrom : Nat) :
    Exec KernelModifierResult :=
  match env.mapBlockIndex hashBlockFrom with
  | none =>
    .ret { ret := false, nStakeModifier := 0, nStakeModifierHeight := none,
           nStakeModifierTime := none }
  | some none => .fault
  | some (some pindexFrom) => .ret (kernelModifierAfterLoop env pindexFrom)

/-- The forward walk as the specification words it (section 4.4): among the blocks
`later` that follow the origin on the active chain, the first one that generated a
modifier and whose time is at least `OLD_MODIFIER_INTERVAL` after the origin's
time; `none` when the chain ends before such a block. -/
def specForwardWalk (nTimeFrom : Int) : (later : List CBlockIndex) → Option CBlockIndex
  | [] => none
  | pindex :: rest =>
    if pindex.fGeneratedStakeModifier
        ∧ pindex.GetBlockTime ≥ nTimeFrom + OLD_MODIFIER_INTERVAL then some pindex
    else specForwardWalk nTimeFrom rest

/-- The kernel stake modifier of section 4.4 for an origin block on the active
chain: the result of the forward walk from the block after the origin. -/
def specKernelStakeModifier (env : Env) (pindexFrom : CBlockIndex) : Option CBlockIndex :=
  specForwardWalk pindexFrom.GetBlockTime (env.chainActive.drop (pindexFrom.nHeight + 1).toNat)

/-! ## Block validation -/

/-- `initStakeInput`: `ret none` is the return value `false` (`stake` is not
written), `ret (some s)` is `true` with `stake` set to `s`. -/
def initStakeInput (env : Env) (block : CBlock) : Exec (Option CStakeInput) :=
  match block.vtx[1]? with
  | none => .fault
  | some tx =>
    if !env.IsCoinStake tx then .ret none
    else
      match tx.vin[0]? with
      | none => .fault
      | some txin =>
        match env.GetTransaction txin.prevout.hash with
        | none => .ret none
        | some txPrev =>
          match txPrev.vout[txin.prevout.n]? with
          | none => .fault
          | some txout =>
            if !env.VerifyScript txin txout tx then .ret none
            else .ret (some (env.SetInput txPrev txin.prevout.n))

/-- The return value of `CheckProofOfStake`, its out-parameters (`none` when not
written) and `mapBlockIndex` after the call. -/
structure ProofOfStakeResult where
  ret : Bool
  hashProofOfStake : Option Nat
  stake : Option CStakeInput
  mapBlockIndex : BlockMap

/-- The map after `mapBlockIndex[hash]`, which adds a null entry for an absent
key. -/
def BlockMap.touch (m : BlockMap) (hash : Nat) : BlockMap :=
  fun h => if h = hash then (match m hash with | none => some none | some p => some p) else m h

/-- The pointer returned by `mapBlockIndex[hash]`. -/
def BlockMap.subscript (m : BlockMap) (hash : Nat) : Option CBlockIndex :=
  match m hash with
  | none => none
  | some p => p

/-- The time up to which `CheckProofOfStake` accepts a block whose kernel check
failed. -/
def kernelCheckStartTime : Nat := 1505247602

/-- `CheckProofOfStake`. -/
def CheckProofOfStake (env : Env) (block : CBlock) (nPreviousBlockHeight : Int) :
    Exec ProofOfStakeResult :=
  match initStakeInput env block with
  | .fault => .fault
  | .ret none =>
    .ret { ret := false, hashProofOfStake := none, stake := none,
           mapBlockIndex := env.mapBlockIndex }
  | .ret (some stake) =>
    let pindexPrev := env.mapBlockIndex.subscript block.hashPrevBlock
    let mapAfter := env.mapBlockIndex.touch block.hashPrevBlock
    match stake.GetIndexFrom with
    | none =>
      .ret { ret := false, hashProofOfStake := none, stake := some stake,
             mapBlockIndex := mapAfter }
    | some pindexfrom =>
      let nBlockFromTime := pindexfrom.nTime
      let nTxTime := block.nTime
      let nBlockFromHeight := pindexfrom.nHeight
      if !env.HasStakeMinAgeOrDepth (nPreviousBlockHeight + 1) nTxTime nBlockFromHeight
          nBlockFromTime then
        .ret { ret := false, hashProofOfStake := none, stake := some stake,
               mapBlockIndex := mapAfter }
      else
        match CheckStakeKernelHash env pindexPrev block.nBits stake nTxTime with
        | .fault => .fault
        | .ret (res, hashProofOfStake) =>
          if !res && decide (nTxTime > kernelCheckStartTime) then
            .ret { ret := false, hashProofOfStake := hashProofOfStake, stake := some stake,
                   mapBlockIndex := mapAfter }
          else
            .ret { ret := true, hashProofOfStake := hashProofOfStake, stake := some stake,
                   mapBlockIndex := mapAfter }

/-- The return value of a call of `CheckProofOfStake`. -/
def ProofOfStakeResult.retOf : Exec ProofOfStakeResult → Exec Bool
  | .ret r => .ret r.ret
  | .fault => .fault

/-! ## Notions used in the statements -/

/-- The blocks recorded as selected are not in the excluded map. -/
def SelectState.Fresh (m : SelectedMap) (s : SelectState) : Prop :=
  ∀ b, s.pindexSelected = some b → m.count b.hashBlock = false

/-- Every candidate is indexed by a block that carries the candidate's hash. -/
def CandidatesIndexed (env : Env) (l : List (Int × Nat)) : Prop :=
  ∀ item ∈ l, ∃ b, env.mapBlockIndex item.2 = some (some b) ∧ b.hashBlock = item.2

/-- The value of `nSelectionIntervalStop` used by the `i`-th round after a state of
the selection loop with stop time `stop` and round counter `nRound`: `stop` plus
the section lengths of rounds `nRound .. nRound + i`. -/
def roundStop (env : Env) (stop : Int) (nRound : Nat) : Nat → Int
  | 0 => stop + sectionLength env nRound
  | i + 1 => roundStop env stop nRound i + sectionLength env ((nRound + i + 1 : Nat) : Int)

/-- The entry of `mapSelectedBlocks` made for a selected block. -/
def selectedEntry (b : CBlockIndex) : Nat × CBlockIndex := (b.hashBlock, b)

/-! ## Example inputs -/

/-- A function of the first byte and the length of its input, standing in for
`Hash` in the examples. -/
def exampleHash (bytes : List Nat) : Nat :=
  (bytes.headD 0 * 7919 + bytes.length * 31 + 7) % 1000003

/-- A stake input of 100 coins whose origin block is known. -/
def exampleStake : CStakeInput :=
  { GetIndexFrom := some { hashBlock := 11, nHeight := 10, nTime := 1000 },
    GetValue := 100 * 10 ^ 8, GetUniqueness := [1, 2, 3], GetModifier := some 7 }

/-- A parameter set with a modifier interval of 60 seconds, ratio 3, and the v2
rules from height 1000 on. -/
def exampleEnv : Env :=
  { hashFn := exampleHash, MODIFIER_INTERVAL := 60, MODIFIER_INTERVAL_RATIO := 3,
    ModifierUpgradeBlock := 1000, IsStakeModifierV2 := fun h => decide (h ≥ 1000),
    HasStakeMinAgeOrDepth := fun _ _ _ _ => true, mapBlockIndex := fun _ => none,
    chainActive := [], pszStakeModifier := 0x555555558004,
    IsCoinStake := fun tx => !tx.vin.isEmpty, GetTransaction := fun _ => none,
    VerifyScript := fun _ _ _ => true, SetInput := fun _ _ => exampleStake }

/-- A previous block below the v2 height. -/
def examplePrevV1 : CBlockIndex :=
  { hashBlock := 21, nHeight := 20, nTime := 5000, nStakeModifierV2 := 99 }

/-- A previous block above the v2 height. -/
def examplePrevV2 : CBlockIndex :=
  { hashBlock := 22, nHeight := 1500, nTime := 5000, nStakeModifierV2 := 99 }

/-- The map that indexes each block of a list under its hash. -/
def indexOf (blocks : List CBlockIndex) : BlockMap :=
  fun h => (blocks.find? (fun b => b.hashBlock == h)).map some

/-- The environment `exampleEnv` with a hash function that returns the same value
for every input. -/
def envWithHash (h : Nat) : Env := { exampleEnv with hashFn := fun _ => h }

/-- A stake input of value `v` whose origin block is known. -/
def stakeOfValue (v : Int) : CStakeInput := { exampleStake with GetValue := v }

/-- A previous transaction with one output. -/
def exampleTxPrev : CTransaction :=
  { vin := [], vout := [{ nValue := 50, scriptPubKey := [] }] }

/-- A coinstake transaction spending output 0 of transaction 5. -/
def exampleCoinStake : CTransaction :=
  { vin := [{ prevout := { hash := 5, n := 0 }, scriptSig := [] }], vout := [] }

/-- A block on top of `examplePrevV2` with a coinbase and a coinstake. -/
def exampleBlock (nTime : Nat) : CBlock :=
  { nTime := nTime, nBits := 0x1d00ffff, hashPrevBlock := 22,
    vtx := [{ vin := [], vout := [] }, exampleCoinStake] }

/-- An environment in which `exampleBlock` builds a stake input of value `v`. -/
def validationEnv (v : Int) : Env :=
  { exampleEnv with
    mapBlockIndex := indexOf [examplePrevV2]
    GetTransaction := fun h => if h = 5 then some exampleTxPrev else none
    SetInput := fun _ _ => stakeOfValue v }

/-- An active chain of three blocks that all generated a modifier; only the last
one is `OLD_MODIFIER_INTERVAL` later than the first. -/
def walkChain : List CBlockIndex :=
  [{ hashBlock := 100, nHeight := 0, nTime := 1000, fGeneratedStakeModifier := true,
     nStakeModifier := 10 },
   { hashBlock := 101, nHeight := 1, nTime := 1060, fGeneratedStakeModifier := true,
     nStakeModifier := 11 },
   { hashBlock := 102, nHeight := 2, nTime := 4000, fGeneratedStakeModifier := true,
     nStakeModifier := 12 }]

/-- The environment whose index and active chain are `walkChain`. -/
def walkEnv : Env :=
  { exampleEnv with mapBlockIndex := indexOf walkChain, chainActive := walkChain }

/-- The environment whose index and active chain are the first two blocks of
`walkChain`. -/
def shortWalkEnv : Env :=
  { exampleEnv with mapBlockIndex := indexOf (walkChain.take 2),
                    chainActive := walkChain.take 2 }

/-- A chain of four blocks, nearest first; the last generated modifier (77) is that
of the block of height 1. -/
def selectionChain : List CBlockIndex :=
  [{ hashBlock := 203, nHeight := 3, nTime := 4000, fStakeEntropyBit := true },
   { hashBlock := 202, nHeight := 2, nTime := 3990, fProofOfStake := true },
   { hashBlock := 201, nHeight := 1, nTime := 3000, fGeneratedStakeModifier := true,
     fStakeEntropyBit := true, nStakeModifier := 77 },
   { hashBlock := 200, nHeight := 0, nTime := 1000, fGeneratedStakeModifier := true }]

/-- The environment that indexes the blocks of `selectionChain`. -/
def selectionEnv : Env := { exampleEnv with mapBlockIndex := indexOf selectionChain }

/-- A chain whose last generated modifier (77) belongs to a block with a later
time than the tip. -/
def laterModifierChain : List CBlockIndex :=
  [{ hashBlock := 302, nHeight := 2, nTime := 100 },
   { hashBlock := 301, nHeight := 1, nTime := 200, fGeneratedStakeModifier := true,
     nStakeModifier := 77 },
   { hashBlock := 300, nHeight := 0, nTime := 0, fGeneratedStakeModifier := true }]

/-- The environment that indexes the blocks of `laterModifierChain`. -/
def laterModifierEnv : Env := { exampleEnv with mapBlockIndex := indexOf laterModifierChain }

/-- The blocks `bs` are the ones `mapBlockIndex` holds for the hashes of the
candidate vector `l`, in the same order. -/
def Resolves (env : Env) (l : List (Int × Nat)) (bs : List CBlockIndex) : Prop :=
  l.map (fun item => env.mapBlockIndex item.2) = bs.map (fun b => some (some b))

/-- The candidates whose selection hash the loop of `SelectBlockFromCandidates`
computes, in list order: the loop stops at a candidate later than `stop` once
`fSelected` is set, and skips the candidates in `mapSelectedBlocks`. -/
def examinedCandidates (m : SelectedMap) (stop : Int) :
    List CBlockIndex → (fSelected : Bool) → List CBlockIndex
  | [], _ => []
  | b :: rest, fSelected =>
    if fSelected && decide (b.GetBlockTime > stop) then []
    else if m.count b.hashBlock then examinedCandidates m stop rest fSelected
    else b :: examinedCandidates m stop rest true

/-- The value `fModifierV2` takes in `SelectBlockFromCandidates`: it is fixed by
the height of the first block of the vector. -/
def selectionRule (env : Env) : List CBlockIndex → Bool
  | [] => false
  | b :: _ => decide (b.nHeight ≥ env.ModifierUpgradeBlock)

/-- The hash `Hash(hashProof ‖ nStakeModifierPrev)` of a candidate, before the
shift applied to proof-of-stake blocks. -/
def unshiftedSelectionHash (env : Env) (fModifierV2 : Bool) (nStakeModifierPrev : Nat)
    (pindex : CBlockIndex) : Nat :=
  Hash env (ser256 (if fModifierV2 then pindex.hashBlock
      else (if pindex.fProofOfStake then 0 else pindex.hashBlock))
    ++ ser64 nStakeModifierPrev)

/-- Tracking the smallest value of `h` along a list, as section 4.3 words it: the
current best is replaced only by a strictly smaller candidate. -/
def keepBest (h : CBlockIndex → Nat) (best : CBlockIndex) : List CBlockIndex → CBlockIndex
  | [] => best
  | c :: rest => keepBest h (if h c < h best then c else best) rest

/-- The earliest candidate of a list with the smallest value of `h`. -/
def bestOf (h : CBlockIndex → Nat) : List CBlockIndex → Option CBlockIndex
  | [] => none
  | a :: rest => some (keepBest h a rest)

/-- The test that a block is not excluded and not later than the stop time. -/
def competes (m : SelectedMap) (stop : Int) (b : CBlockIndex) : Bool :=
  !m.count b.hashBlock && decide (b.GetBlockTime ≤ stop)

/-- The sorted candidate vector of `selectionChain`. -/
def selectionVector : List (Int × Nat) := [(3000, 201), (3990, 202), (4000, 203)]

/-- The blocks of `selectionVector`, in the same order. -/
def selectionBlocks : List CBlockIndex := (selectionChain.take 3).reverse

/-- A proof-of-work block followed by a later proof-of-stake block. -/
def tieBlocks : List CBlockIndex :=
  [{ hashBlock := 401, nHeight := 5, nTime := 3000 },
   { hashBlock := 402, nHeight := 6, nTime := 3010, fProofOfStake := true }]

/-- The candidate vector of `tieBlocks`. -/
def tieVector : List (Int × Nat) := [(3000, 401), (3010, 402)]

/-- An environment that indexes `tieBlocks` and whose hash function returns `h` for
every input. -/
def tieEnv (h : Nat) : Env :=
  { exampleEnv with hashFn := fun _ => h, mapBlockIndex := indexOf tieBlocks }

/-- A chain, nearest block first, in which the block before the tip is older than
the selection window and the block before that one is not. -/
def gapChain : List CBlockIndex :=
  [{ hashBlock := 503, nHeight := 3, nTime := 4000 },
   { hashBlock := 502, nHeight := 2, nTime := 1000 },
   { hashBlock := 501, nHeight := 1, nTime := 3000, fGeneratedStakeModifier := true },
   { hashBlock := 500, nHeight := 0, nTime := 900, fGeneratedStakeModifier := true }]

/-- `ComputeStakeModifier`. The value of `ss.GetHash()` of the `CHashWriter` is
`Hash` of the bytes written to it (`hash.h` is not among the sources; section 4.1
names one consensus hash). -/
def ComputeStakeModifier (env : Env) (pindexPrev : Option CBlockIndex) (kernel : Nat) : Nat :=
  match pindexPrev with
  | none => 0
  | some prev =>
    if !env.IsStakeModifierV2 (prev.nHeight + 1) then
      Hash env (ser256 kernel ++ ser64 prev.nStakeModifier)
    else
      Hash env (ser256 kernel ++ ser256 prev.nStakeModifierV2)

/-- `CheckCoinStakeTimestamp`. -/
def CheckCoinStakeTimestamp (nTimeBlock nTimeTx : Int) : Bool :=
  decide (nTimeBlock = nTimeTx)

/-- A block of time 1600000000 on top of `examplePrevV2` whose coinstake carries the
time 1599999990. -/
def mistimedBlock : CBlock :=
  { nTime := 1600000000, nBits := 0x1d00ffff, hashPrevBlock := 22,
    vtx := [{ vin := [], vout := [] }, { exampleCoinStake with nTime := 1599999990 }] }

/-- A block that holds a coinbase only. -/
def coinbaseOnlyBlock : CBlock :=
  { nTime := 1600000000, nBits := 0x1d00ffff, hashPrevBlock := 22,
    vtx := [{ vin := [], vout := [] }] }

/-- A block whose second transaction has no input, so that `exampleEnv.IsCoinStake`
rejects it. -/
def noCoinStakeBlock : CBlock :=
  { nTime := 1600000000, nBits := 0x1d00ffff, hashPrevBlock := 22,
    vtx := [{ vin := [], vout := [] }, { vin := [], vout := [] }] }

/-- A block whose coinstake spends output 3 of transaction 5, which has a single
output. -/
def badIndexBlock : CBlock :=
  { nTime := 1600000000, nBits := 0x1d00ffff, hashPrevBlock := 22,
    vtx := [{ vin := [], vout := [] },
            { vin := [{ prevout := { hash := 5, n := 3 }, scriptSig := [] }], vout := [] }] }

/-- A block whose coinstake spends an output of transaction 9, which
`validationEnv` does not know. -/
def unknownPrevBlock : CBlock :=
  { nTime := 1600000000, nBits := 0x1d00ffff, hashPrevBlock := 22,
    vtx := [{ vin := [], vout := [] },
            { vin := [{ prevout := { hash := 9, n := 0 }, scriptSig := [] }], vout := [] }] }

/-- The environment `validationEnv v` with a maturity rule that no stake meets. -/
def immatureEnv (v : Int) : Env :=
  { validationEnv v with HasStakeMinAgeOrDepth := fun _ _ _ _ => false }

/-- A block like `exampleBlock` whose previous block hash 999 is not indexed. -/
def orphanBlock : CBlock :=
  { nTime := 1600000000, nBits := 0x1d00ffff, hashPrevBlock := 999,
    vtx := [{ vin := [], vout := [] }, exampleCoinStake] }

/-- `GetStakeModifierChecksum` for a block given with its `pprev` chain. The fields
`nStakeModifierChecksum` and `nFlags` are `unsigned int` (4 bytes each), the value
returned is `hashChecksum.Get64()` converted to `unsigned int`. -/
def GetStakeModifierChecksum (env : Env) : List CBlockIndex → Exec Nat
  | [] => .fault
  | pindex :: pprev =>
    if ¬ (pprev ≠ [] ∨ pindex.hashBlock = env.HashGenesisBlock) then .fault
    else
      let ssPrev := match pprev with
        | [] => []
        | p :: _ => ser32 p.nStakeModifierChecksum
      let ss := ssPrev ++ ser32 pindex.nFlags ++ ser256 pindex.hashProofOfStake
        ++ ser64 pindex.nStakeModifier
      let hashChecksum := Hash env ss >>> (256 - 32)
      .ret (hashChecksum % 2 ^ 64 % 2 ^ 32)

/-- The initial value of the static map `mapStakeModifierCheckpoints`. -/
def mapStakeModifierCheckpoints : List (Int × Nat) := [(0, 0xfd11f4e7)]

/-- `CheckStakeModifierCheckpoints`, given the current value of the static map
`mapStakeModifierCheckpoints`: the returned flag and the map after the call
(`operator[]` adds a zero entry for an absent key). -/
def CheckStakeModifierCheckpoints (env : Env) (table : List (Int × Nat)) (nHeight : Int)
    (nStakeModifierChecksum : Nat) : Bool × List (Int × Nat) :=
  if !env.fMainNetwork then (true, table)
  else if table.any (fun e => e.1 == nHeight) then
    match table.find? (fun e => e.1 == nHeight) with
    | some e => (nStakeModifierChecksum == e.2, table)
    | none => (nStakeModifierChecksum == 0, table ++ [(nHeight, 0)])
  else (true, table)

/-- A chain, nearest block first, whose block times do not grow with the height:
the block of height 3 is five seconds older than the block of height 2. -/
def skewChain : List CBlockIndex :=
  [{ hashBlock := 30, nHeight := 4, nTime := 3000 },
   { hashBlock := 20, nHeight := 3, nTime := 920, fProofOfStake := true,
     fStakeEntropyBit := true },
   { hashBlock := 10, nHeight := 2, nTime := 925, fProofOfStake := true },
   { hashBlock := 5, nHeight := 1, nTime := 100, fGeneratedStakeModifier := true,
     nStakeModifier := 7 }]

/-- The candidates of `skewChain` in the order of the sorted vector. -/
def skewBlocks : List CBlockIndex :=
  [{ hashBlock := 20, nHeight := 3, nTime := 920, fProofOfStake := true,
     fStakeEntropyBit := true },
   { hashBlock := 10, nHeight := 2, nTime := 925, fProofOfStake := true },
   { hashBlock := 30, nHeight := 4, nTime := 3000 }]

/-- An environment that indexes `skewChain`, switches to the v2 rule at height 3
and hashes a byte string to a multiple of `2^40` fixed by its first byte. -/
def skewEnv : Env :=
  { exampleEnv with
    hashFn := fun bytes => (bytes.headD 0 + 1) * 2 ^ 40
    ModifierUpgradeBlock := 3
    mapBlockIndex := indexOf skewChain }

/-- The value of `GrindWindow` in `Stake`. -/
def GrindWindow : Nat := 1209600

/-- The number of entries of the vector `addresses` in `Stake`. -/
def addressCount : Nat := 200

/-- What `Stake` reads from the chain tip, the wallet, the coin view and the
mempool. The tip is read without a lock at every iteration, so the heights seen
over one call are a sequence. -/
structure StakeWorld where
  /-- The value of `chainActive.Height()` read before the loop. -/
  nHeightStart : Int
  /-- The value of `chainActive.Height()` read at the start of iteration `i`. -/
  Height : Nat → Int
  /-- The input filled in by `stakeInput->CreateTxIn(pwalletMain, in, hashTxOut)`. -/
  CreateTxIn : CStakeInput → CTxIn
  /-- The value returned by `rand()`. -/
  rand : Nat
  /-- The script `GetScriptForDestination(DecodeDestination(addresses[k]))`. -/
  addressScript : Nat → List Nat
  /-- The output `coins->vout[prevout.n]` when `view.AccessCoins(prevout.hash)` is
  not null and `IsAvailable(prevout.n)`, and `none` otherwise. -/
  AccessCoins : COutPoint → Option CTxOut
  /-- The `scriptSig` of input `nIn` after
  `SignSignature(keystore, prevPubKey, rawTx, nIn, cost, nHashType)`. -/
  SignSignature : CTxOut → CTransaction → Nat → List Nat
  /-- The transaction `tx` after `DecodeHexTx(tx, EncodeHexTx(rawTx, PROTOCOL_VERSION))`. -/
  DecodeHexTx : CTransaction → CTransaction
  /-- The test `mempool.exists(hashTx)`. -/
  fHaveMempool : CTransaction → Bool
  /-- The test `existingCoins && existingCoins->nHeight < 1000000000`. -/
  fHaveChain : CTransaction → Bool

/-- The calls `Stake` makes that reach the wallet, the mempool or the network. -/
inductive StakeEffect where
  | createTxIn (stake : CStakeInput)
  | signSignature (tx : CTransaction) (nIn : Nat)
  | acceptToMemoryPool (tx : CTransaction)
  | relayTransaction (tx : CTransaction)
  deriving DecidableEq, Repr

/-- The block of `Stake` guarded by `i == (GrindWindow - 1) && fSuccess == false`:
the calls it makes, in order. The raw transaction has the one input made by
`CreateTxIn` and one output of `nValueIn - 1000` to `addresses[rand() % size]`; the
input is signed when its coins are found; the decoded transaction is handed to
`AcceptToMemoryPool` unless it is in the mempool or the chain already, and to
`RelayTransaction` in every case (`fBroadcast` is `true`). The result of
`VerifyScript` is only logged. -/
def grindStaleInput (world : StakeWorld) (stake : CStakeInput) : List StakeEffect :=
  let txin := world.CreateTxIn stake
  let randomIndex := world.rand % addressCount
  let out : CTxOut :=
    { nValue := stake.GetValue - 1000, scriptPubKey := world.addressScript randomIndex }
  let rawTx : CTransaction := { vin := [txin], vout := [out] }
  let signed : CTransaction × List StakeEffect :=
    match world.AccessCoins txin.prevout with
    | none => (rawTx, [])
    | some coin =>
      let cleared : CTransaction := { rawTx with vin := [{ txin with scriptSig := [] }] }
      ({ cleared with vin := [{ txin with scriptSig := world.SignSignature coin cleared 0 }] },
       [StakeEffect.signSignature cleared 0])
  let tx := world.DecodeHexTx signed.1
  let accept : List StakeEffect :=
    if !world.fHaveMempool tx && !world.fHaveChain tx then [StakeEffect.acceptToMemoryPool tx]
    else []
  [StakeEffect.createTxIn stake] ++ signed.2 ++ accept ++ [StakeEffect.relayTransaction tx]

/-- The variables of `Stake` that its loop changes, and the calls made so far:
`hashProofOfStake` is `none` while the out-parameter has not been written. -/
structure StakeState where
  nTimeTx : Nat
  fSuccess : Bool
  hashProofOfStake : Option Nat
  effects : List StakeEffect
  deriving DecidableEq, Repr

/-- The loop `for (int i = 0; i < GrindWindow; i++)` of `Stake`, with `remaining`
iterations left before `i` reaches `GrindWindow`. `nTryTime` is an `unsigned int`. -/
def stakeLoop (env : Env) (world : StakeWorld) (pindexPrev : Option CBlockIndex) (nBits : Nat)
    (stake : CStakeInput) : (remaining : Nat) → (i : Nat) → StakeState → Exec StakeState
  | 0, _, s => .ret s
  | remaining + 1, i, s =>
    if world.Height i ≠ world.nHeightStart then .ret s
    else
      let nTryTime := (s.nTimeTx + GrindWindow - i) % 2 ^ 32
      match CheckStakeKernelHash env pindexPrev nBits stake nTryTime with
      | .fault => .fault
      | .ret (false, written) =>
        let s1 := { s with hashProofOfStake := written.orElse (fun _ => s.hashProofOfStake) }
        if i = GrindWindow - 1 ∧ s.fSuccess = false then
          stakeLoop env world pindexPrev nBits stake remaining (i + 1)
            { s1 with effects := s1.effects ++ grindStaleInput world stake }
        else stakeLoop env world pindexPrev nBits stake remaining (i + 1) s1
      | .ret (true, written) =>
        stakeLoop env world pindexPrev nBits stake remaining (i + 1)
          { s with hashProofOfStake := written.orElse (fun _ => s.hashProofOfStake),
                   fSuccess := true, nTimeTx := nTryTime }

/-- The return value of `Stake`, its out-parameters `nTimeTx` and
`hashProofOfStake` after the call, and the calls it made. -/
structure StakeResult where
  ret : Bool
  nTimeTx : Nat
  hashProofOfStake : Option Nat
  effects : List StakeEffect
  deriving DecidableEq, Repr

/-- `Stake`. A null `pindexPrev` is dereferenced by the first statement. -/
def Stake (env : Env) (world : StakeWorld) (pindexPrev : Option CBlockIndex)
    (stake : CStakeInput) (nBits : Nat) (nTimeTx : Nat) : Exec StakeResult :=
  match pindexPrev with
  | none => .fault
  | some prev =>
    let prevHeight := prev.nHeight
    match stake.GetIndexFrom with
    | none => .ret { ret := false, nTimeTx := nTimeTx, hashProofOfStake := none, effects := [] }
    | some pindexFrom =>
      if pindexFrom.nHeight < 1 then
        .ret { ret := false, nTimeTx := nTimeTx, hashProofOfStake := none, effects := [] }
      else if !env.HasStakeMinAgeOrDepth (prevHeight + 1) nTimeTx pindexFrom.nHeight
          pindexFrom.nTime then
        .ret { ret := false, nTimeTx := nTimeTx, hashProofOfStake := none, effects := [] }
      else
        match stake.GetModifier with
        | none =>
          .ret { ret := false, nTimeTx := nTimeTx, hashProofOfStake := none, effects := [] }
        | some _ =>
          match stakeLoop env world (some prev) nBits stake GrindWindow 0
              { nTimeTx := nTimeTx, fSuccess := false, hashProofOfStake := none,
                effects := [] } with
          | .fault => .fault
          | .ret s =>
            .ret { ret := false, nTimeTx := s.nTimeTx, hashProofOfStake := s.hashProofOfStake,
                   effects := s.effects }

/-- The test that `Stake` reaches its loop: the origin block exists at a height of
at least 1, the maturity rule holds and `GetModifier` succeeds. -/
def stakeSearches (env : Env) (prev : CBlockIndex) (stake : CStakeInput) (nTimeTx : Nat) :
    Bool :=
  match stake.GetIndexFrom with
  | none => false
  | some pindexFrom =>
    decide (1 ≤ pindexFrom.nHeight)
      && env.HasStakeMinAgeOrDepth (prev.nHeight + 1) nTimeTx pindexFrom.nHeight
          pindexFrom.nTime
      && stake.GetModifier.isSome

/-- A node whose tip stays at height 20 during the call, whose coin view holds the
staked output and whose mempool does not know the transaction. -/
def stillWorld : StakeWorld :=
  { nHeightStart := 20, Height := fun _ => 20,
    CreateTxIn := fun _ => { prevout := { hash := 77, n := 0 }, scriptSig := [] },
    rand := 12345, addressScript := fun k => [k],
    AccessCoins := fun _ => some { nValue := 100 * 10 ^ 8, scriptPubKey := [1] },
    SignSignature := fun _ _ _ => [9], DecodeHexTx := fun tx => tx,
    fHaveMempool := fun _ => false, fHaveChain := fun _ => false }

/-- The node of `stillWorld` with a tip that moves to height 21 before the third
iteration. -/
def movingWorld : StakeWorld :=
  { stillWorld with Height := fun i => if i < 2 then 20 else 21 }

/-- The example parameter set with a hash function that looks at the low byte of the
attempt time, the fourth byte from the end of the hashed stream: the hash is 0 when
that byte is `c` and the largest 256-bit number otherwise. -/
def timeByteEnv (c : Nat) : Env :=
  { exampleEnv with
    hashFn := fun bytes => if (bytes.reverse.drop 3).headD 0 = c then 0 else 2 ^ 256 - 1 }

/-! ## Kernel hash (C1) -/

theorem length_serLE (nBytes n : Nat) : (serLE nBytes n).length = nBytes := by
  simp [serLE]

/-- C1: for a non-null previous block and a stake input whose origin block is
known, `GetHashProofOfStake` returns the hash of the modifier bytes, the origin
block time, the uniqueness bytes and the attempt time; the modifier bytes are the
32 bytes of `prev.nStakeModifierV2` when `IsStakeModifierV2(prev.nHeight + 1)`
holds and otherwise the 8 bytes of the modifier given by `GetModifier`. -/
theorem getHashProofOfStake_spec (env : Env) (prev pindexfrom : CBlockIndex)
    (stake : CStakeInput) (nTimeTx : Nat)
    (hfrom : stake.GetIndexFrom = some pindexfrom) :
    (env.IsStakeModifierV2 (prev.nHeight + 1) = true →
      GetHashProofOfStake env (some prev) stake nTimeTx
        = .ret (some (Hash env (ser256 prev.nStakeModifierV2 ++ ser32 pindexfrom.nTime
            ++ stake.GetUniqueness ++ ser32 nTimeTx)))
      ∧ (ser256 prev.nStakeModifierV2).length = 32) ∧
    (env.IsStakeModifierV2 (prev.nHeight + 1) = false →
      ∀ m, stake.GetModifier = some m →
        GetHashProofOfStake env (some prev) stake nTimeTx
          = .ret (some (Hash env (ser64 m ++ ser32 pindexfrom.nTime
              ++ stake.GetUniqueness ++ ser32 nTimeTx)))
        ∧ (ser64 m).length = 8) := by
  refine ⟨fun hv2 => ⟨?_, length_serLE _ _⟩, fun hv1 m hm => ⟨?_, length_serLE _ _⟩⟩
  · simp [GetHashProofOfStake, hfrom, hv2]
  · simp [GetHashProofOfStake, hfrom, hv1, hm]

/-- Instance of C1 at `examplePrevV1` (v1 rule) and `exampleStake`. -/
theorem getHashProofOfStake_spec_witness :
    exampleStake.GetIndexFrom = some { hashBlock := 11, nHeight := 10, nTime := 1000 } ∧
    ((exampleEnv.IsStakeModifierV2 (examplePrevV1.nHeight + 1) = true →
      GetHashProofOfStake exampleEnv (some examplePrevV1) exampleStake 6000
        = .ret (some (Hash exampleEnv (ser256 examplePrevV1.nStakeModifierV2
            ++ ser32 (1000 : Nat) ++ exampleStake.GetUniqueness ++ ser32 6000)))
      ∧ (ser256 examplePrevV1.nStakeModifierV2).length = 32) ∧
    (exampleEnv.IsStakeModifierV2 (examplePrevV1.nHeight + 1) = false →
      ∀ m, exampleStake.GetModifier = some m →
        GetHashProofOfStake exampleEnv (some examplePrevV1) exampleStake 6000
          = .ret (some (Hash exampleEnv (ser64 m ++ ser32 (1000 : Nat)
              ++ exampleStake.GetUniqueness ++ ser32 6000)))
        ∧ (ser64 m).length = 8)) :=
  ⟨rfl, getHashProofOfStake_spec exampleEnv examplePrevV1
    { hashBlock := 11, nHeight := 10, nTime := 1000 } exampleStake 6000 rfl⟩

/-! ## Target check (C2, C3) -/

theorem uint256OfAmount_of_nonneg (v : Int) (hv0 : 0 ≤ v) (hv1 : v < 2 ^ 63) :
    uint256OfAmount v = v.toNat := by
  unfold uint256OfAmount
  rw [Int.emod_eq_of_lt hv0 (by omega)]

theorem checkStakeKernelHash_of_hash (env : Env) (pindexPrev : Option CBlockIndex)
    (nBits : Nat) (stake : CStakeInput) (nTimeTx h : Nat)
    (hh : GetHashProofOfStake env pindexPrev stake nTimeTx = .ret (some h)) :
    CheckStakeKernelHash env pindexPrev nBits stake nTimeTx
      = .ret (decide (h < weightedTarget nBits stake.GetValue), some h) := by
  simp [CheckStakeKernelHash, hh]

theorem setCompact_1d00ffff : SetCompact 0x1d00ffff = 0xffff * 2 ^ 208 := by decide

/-- C2 (counterexample): with `nBits = 0x1e00ffff` and a stake of `100 * 2^40`
satoshis the kernel hash 0 is computed and is below
`decompress_compact(bits) * floor(value / 100)`, yet the check fails. -/
theorem checkStakeKernelHash_product_counterexample :
    GetHashProofOfStake (envWithHash 0) (some examplePrevV2) (stakeOfValue (100 * 2 ^ 40)) 6000
      = .ret (some 0) ∧
    ((0 : Nat) : Int) < (SetCompact 0x1e00ffff : Int) * ((stakeOfValue (100 * 2 ^ 40)).GetValue / 100) ∧
    CheckStakeKernelHash (envWithHash 0) (some examplePrevV2) 0x1e00ffff
      (stakeOfValue (100 * 2 ^ 40)) 6000 = .ret (false, some 0) := by
  refine ⟨by decide, by decide, by decide⟩

/-- C2 (amended): when the kernel hash `h` is computed and the stake value is a
non-negative `int64_t`, `CheckStakeKernelHash` passes if and only if `h` is below
`decompress_compact(bits) * floor(value / 100)` reduced modulo `2^256`; for
`bits = 0x1d00ffff` and a value of `100 * 10^8` the hash `base_target * 10^8 - 1`
passes and the hash `base_target * 10^8` does not. -/
theorem checkStakeKernelHash_iff (env : Env) (pindexPrev : Option CBlockIndex)
    (nBits : Nat) (stake : CStakeInput) (nTimeTx h : Nat)
    (hh : GetHashProofOfStake env pindexPrev stake nTimeTx = .ret (some h))
    (hv0 : 0 ≤ stake.GetValue) (hv1 : stake.GetValue < 2 ^ 63) :
    (CheckStakeKernelHash env pindexPrev nBits stake nTimeTx = .ret (true, some h)
      ↔ h < (SetCompact nBits * (stake.GetValue.toNat / 100)) % 2 ^ 256) ∧
    (CheckStakeKernelHash env pindexPrev nBits stake nTimeTx = .ret (false, some h)
      ↔ ¬ h < (SetCompact nBits * (stake.GetValue.toNat / 100)) % 2 ^ 256) ∧
    (nBits = 0x1d00ffff → stake.GetValue = 100 * 10 ^ 8 →
      (h = SetCompact 0x1d00ffff * 10 ^ 8 - 1 →
        CheckStakeKernelHash env pindexPrev nBits stake nTimeTx = .ret (true, some h)) ∧
      (h = SetCompact 0x1d00ffff * 10 ^ 8 →
        CheckStakeKernelHash env pindexPrev nBits stake nTimeTx = .ret (false, some h))) := by
  have hc := checkStakeKernelHash_of_hash env pindexPrev nBits stake nTimeTx h hh
  have hw : weightedTarget nBits stake.GetValue
      = (SetCompact nBits * (stake.GetValue.toNat / 100)) % 2 ^ 256 := by
    simp [weightedTarget, uint256OfAmount_of_nonneg _ hv0 hv1]
  rw [hw] at hc
  refine ⟨?_, ?_, ?_⟩
  · rw [hc]; simp
  · rw [hc]; simp
  · intro hb hv
    have hwt : (SetCompact nBits * (stake.GetValue.toNat / 100)) % 2 ^ 256
        = SetCompact 0x1d00ffff * 10 ^ 8 := by
      rw [hb, hv, setCompact_1d00ffff]; decide
    rw [hc, hwt, setCompact_1d00ffff]
    constructor
    · intro h1; subst h1; decide
    · intro h1; subst h1; simp

/-- Instance of C2 (amended) at `bits = 0x1d00ffff`, a stake of `100 * 10^8` and the kernel hash `base_target * 10^8 - 1`. -/
theorem checkStakeKernelHash_iff_witness :
    GetHashProofOfStake (envWithHash (SetCompact 0x1d00ffff * 10 ^ 8 - 1)) (some examplePrevV2)
        exampleStake 6000 = .ret (some (SetCompact 0x1d00ffff * 10 ^ 8 - 1)) ∧
    CheckStakeKernelHash (envWithHash (SetCompact 0x1d00ffff * 10 ^ 8 - 1)) (some examplePrevV2)
        0x1d00ffff exampleStake 6000 = .ret (true, some (SetCompact 0x1d00ffff * 10 ^ 8 - 1)) :=
  ⟨by decide,
   ((checkStakeKernelHash_iff (envWithHash (SetCompact 0x1d00ffff * 10 ^ 8 - 1))
      (some examplePrevV2) 0x1d00ffff exampleStake 6000 (SetCompact 0x1d00ffff * 10 ^ 8 - 1)
      (by decide) (by decide) (by decide)).2.2 rfl rfl).1 rfl⟩

/-- C3 (counterexample): with `nBits = 0x207fffff` and a stake of 300 satoshis the
product `decompress_compact(bits) * floor(value / 100)` is at least `2^256`, the
weighted target is `0x7ffffd * 2^232` and not `2^256 - 1`, and the kernel hash
`0x7ffffe * 2^232` does not pass. -/
theorem weightedTarget_saturation_counterexample :
    2 ^ 256 ≤ SetCompact 0x207fffff * ((300 : Int).toNat / 100) ∧
    weightedTarget 0x207fffff 300 = 0x7ffffd * 2 ^ 232 ∧
    weightedTarget 0x207fffff 300 ≠ 2 ^ 256 - 1 ∧
    0x7ffffe * 2 ^ 232 ≠ 2 ^ 256 - 1 ∧
    CheckStakeKernelHash (envWithHash (0x7ffffe * 2 ^ 232)) (some examplePrevV2) 0x207fffff
      (stakeOfValue 300) 6000 = .ret (false, some (0x7ffffe * 2 ^ 232)) := by
  refine ⟨by decide, by decide, by decide, by decide, by decide⟩

/-- C3 (amended): the weighted target is computed modulo `2^256`: for every bits
and non-negative `int64_t` value with
`decompress_compact(bits) * floor(value / 100) ≥ 2^256` the weighted target is
that product reduced modulo `2^256`, and a kernel hash at or above the reduced
value does not pass. -/
theorem weightedTarget_wraps (nBits : Nat) (nValueIn : Int)
    (hv0 : 0 ≤ nValueIn) (hv1 : nValueIn < 2 ^ 63)
    (hbig : 2 ^ 256 ≤ SetCompact nBits * (nValueIn.toNat / 100)) :
    weightedTarget nBits nValueIn = (SetCompact nBits * (nValueIn.toNat / 100)) % 2 ^ 256 ∧
    weightedTarget nBits nValueIn < SetCompact nBits * (nValueIn.toNat / 100) ∧
    ∀ (env : Env) (pindexPrev : Option CBlockIndex) (stake : CStakeInput) (nTimeTx h : Nat),
      stake.GetValue = nValueIn →
      GetHashProofOfStake env pindexPrev stake nTimeTx = .ret (some h) →
      weightedTarget nBits nValueIn ≤ h →
      CheckStakeKernelHash env pindexPrev nBits stake nTimeTx = .ret (false, some h) := by
  have hw : weightedTarget nBits nValueIn
      = (SetCompact nBits * (nValueIn.toNat / 100)) % 2 ^ 256 := by
    simp [weightedTarget, uint256OfAmount_of_nonneg _ hv0 hv1]
  refine ⟨hw, ?_, ?_⟩
  · rw [hw]
    exact lt_of_lt_of_le (Nat.mod_lt _ (by positivity)) hbig
  · intro env pindexPrev stake nTimeTx h hval hh hle
    rw [checkStakeKernelHash_of_hash env pindexPrev nBits stake nTimeTx h hh, hval]
    simp [Nat.not_lt.mpr hle]

/-- Instance of C3 (amended) at `bits = 0x207fffff` and a stake of 300 satoshis. -/
theorem weightedTarget_wraps_witness :
    (0 : Int) ≤ 300 ∧ (300 : Int) < 2 ^ 63 ∧
    2 ^ 256 ≤ SetCompact 0x207fffff * ((300 : Int).toNat / 100) ∧
    weightedTarget 0x207fffff 300
      = (SetCompact 0x207fffff * ((300 : Int).toNat / 100)) % 2 ^ 256 :=
  ⟨by decide, by decide, by decide,
   (weightedTarget_wraps 0x207fffff 300 (by decide) (by decide) (by decide)).1⟩

/-! ## Kernel check in block validation (C4) -/

/-- C4 (counterexample): a block with `nTime = 1505247602` whose kernel check
fails (a stake of 50 satoshis has weighted target 0) is accepted by
`CheckProofOfStake`. -/
theorem checkProofOfStake_old_block_counterexample :
    initStakeInput (validationEnv 50) (exampleBlock 1505247602) = .ret (some (stakeOfValue 50)) ∧
    (∃ h, CheckStakeKernelHash (validationEnv 50) (some examplePrevV2) 0x1d00ffff
      (stakeOfValue 50) 1505247602 = .ret (false, some h)) ∧
    ProofOfStakeResult.retOf (CheckProofOfStake (validationEnv 50) (exampleBlock 1505247602) 1500)
      = .ret true := by
  refine ⟨rfl, ⟨_, rfl⟩, rfl⟩

/-- C4 (amended): for every block with `nTime > 1505247602`, `CheckProofOfStake`
returns success only if `CheckStakeKernelHash` succeeded for attempt time
`block.nTime`, and it returns failure whenever the kernel hash of the block's
stake input is not below the weighted target or cannot be computed. -/
theorem checkProofOfStake_kernel_checked (env : Env) (block : CBlock)
    (nPreviousBlockHeight : Int) (hlate : block.nTime > 1505247602) :
    (∀ r, CheckProofOfStake env block nPreviousBlockHeight = .ret r → r.ret = true →
      ∃ stake h, initStakeInput env block = .ret (some stake) ∧
        CheckStakeKernelHash env (env.mapBlockIndex.subscript block.hashPrevBlock)
          block.nBits stake block.nTime = .ret (true, some h) ∧
        r.hashProofOfStake = some h) ∧
    (∀ stake hp, initStakeInput env block = .ret (some stake) →
      CheckStakeKernelHash env (env.mapBlockIndex.subscript block.hashPrevBlock)
        block.nBits stake block.nTime = .ret (false, hp) →
      ProofOfStakeResult.retOf (CheckProofOfStake env block nPreviousBlockHeight)
        = .ret false) := by
  have hgate : decide (block.nTime > kernelCheckStartTime) = true := by
    simpa [kernelCheckStartTime] using hlate
  constructor
  · intro r hr hret
    unfold CheckProofOfStake at hr
    cases hinit : initStakeInput env block with
    | fault => simp [hinit] at hr
    | ret o =>
      cases o with
      | none =>
        simp only [hinit] at hr
        cases hr; simp at hret
      | some stake =>
        simp only [hinit] at hr
        cases hfrom : stake.GetIndexFrom with
        | none => simp only [hfrom] at hr; cases hr; simp at hret
        | some pindexfrom =>
          simp only [hfrom] at hr
          split at hr
          · cases hr; simp at hret
          · cases hk : CheckStakeKernelHash env (env.mapBlockIndex.subscript block.hashPrevBlock)
                block.nBits stake block.nTime with
            | fault => simp [hk] at hr
            | ret p =>
              obtain ⟨res, hp⟩ := p
              simp only [hk, hgate, Bool.and_true] at hr
              cases res with
              | false => simp at hr; cases hr; simp at hret
              | true =>
                simp at hr
                cases hr
                have hk2 := hk
                unfold CheckStakeKernelHash at hk2
                cases hg : GetHashProofOfStake env (env.mapBlockIndex.subscript block.hashPrevBlock)
                    stake block.nTime with
                | fault => simp [hg] at hk2
                | ret o2 =>
                  cases o2 with
                  | none => simp [hg] at hk2
                  | some h =>
                    simp [hg] at hk2
                    refine ⟨stake, h, rfl, ?_, ?_⟩
                    · rw [hk2.2]; exact hk
                    · simp [hk2.2]
  · intro stake hp hinit hk
    unfold CheckProofOfStake
    simp only [hinit]
    cases hfrom : stake.GetIndexFrom with
    | none => simp [ProofOfStakeResult.retOf]
    | some pindexfrom =>
      simp only []
      split
      · simp [ProofOfStakeResult.retOf]
      · simp [hk, hgate, ProofOfStakeResult.retOf]

/-- Instance of C4 (amended) at a block of time 1600000000 whose kernel check fails. -/
theorem checkProofOfStake_kernel_checked_witness :
    (exampleBlock 1600000000).nTime > 1505247602 ∧
    ProofOfStakeResult.retOf (CheckProofOfStake (validationEnv 50) (exampleBlock 1600000000) 1500)
      = .ret false :=
  ⟨by decide,
   (checkProofOfStake_kernel_checked (validationEnv 50) (exampleBlock 1600000000) 1500
      (by decide)).2 (stakeOfValue 50) _ rfl rfl⟩

/-! ## Kernel stake modifier walk (C5, C6) -/

theorem emptyWhile_true (fuel : Nat) : emptyWhile true fuel = none := by
  induction fuel with
  | zero => rfl
  | succ n ih => simpa [emptyWhile] using ih

/-- For an indexed origin block the condition of the `while (...);` statement of
`GetKernelStakeModifier` is true and stays true, so no amount of fuel lets the
call return. -/
theorem getKernelStakeModifier_no_return (env : Env) (hashBlockFrom : Nat)
    (pindexFrom : CBlockIndex) (hidx : env.mapBlockIndex hashBlockFrom = some (some pindexFrom))
    (fuel : Nat) : GetKernelStakeModifier env hashBlockFrom fuel = none := by
  have hcond : decide (pindexFrom.GetBlockTime
      < pindexFrom.GetBlockTime + OLD_MODIFIER_INTERVAL) = true := by
    simp [OLD_MODIFIER_INTERVAL]
  unfold GetKernelStakeModifier
  simp only [hidx, hcond, emptyWhile_true]

/-- C5 (the code at the failing input): on `walkChain` with origin block 100 (time
1000) the first later block that generated a modifier and is at least 2087 s
later is the block of height 2 (modifier 12); `GetKernelStakeModifier` does not
leave its empty loop, and with the loop removed it returns the modifier 11 of the
block of height 1, with that block's height and time. -/
theorem getKernelStakeModifier_walk_failing_input :
    walkEnv.mapBlockIndex 100
      = some (some { hashBlock := 100, nHeight := 0, nTime := 1000,
                     fGeneratedStakeModifier := true, nStakeModifier := 10 }) ∧
    specKernelStakeModifier walkEnv
        { hashBlock := 100, nHeight := 0, nTime := 1000,
          fGeneratedStakeModifier := true, nStakeModifier := 10 }
      = some { hashBlock := 102, nHeight := 2, nTime := 4000,
               fGeneratedStakeModifier := true, nStakeModifier := 12 } ∧
    (∀ fuel, GetKernelStakeModifier walkEnv 100 fuel = none) ∧
    GetKernelStakeModifierLoopRemoved walkEnv 100
      = .ret { ret := true, nStakeModifier := 11, nStakeModifierHeight := some 1,
               nStakeModifierTime := some 1060 } := by
  refine ⟨rfl, by decide, fun fuel => ?_, by decide⟩
  exact getKernelStakeModifier_no_return walkEnv 100 _ rfl fuel

/-- C6 (the code at the failing input): on the first two blocks of `walkChain` the
chain ends before a generated modifier 2087 s after origin block 100 is found, so
the walk of the specification fails; `GetKernelStakeModifier` does not return for
any amount of fuel, and with the loop removed it returns success with modifier 11.
For a hash that is not indexed it returns failure with `nStakeModifier = 0`. -/
theorem getKernelStakeModifier_termination_failing_input :
    specKernelStakeModifier shortWalkEnv
        { hashBlock := 100, nHeight := 0, nTime := 1000,
          fGeneratedStakeModifier := true, nStakeModifier := 10 } = none ∧
    (∀ fuel, GetKernelStakeModifier shortWalkEnv 100 fuel = none) ∧
    GetKernelStakeModifierLoopRemoved shortWalkEnv 100
      = .ret { ret := true, nStakeModifier := 11, nStakeModifierHeight := some 1,
               nStakeModifierTime := some 1060 } ∧
    (∀ fuel, GetKernelStakeModifier shortWalkEnv 999 fuel
      = some (.ret { ret := false, nStakeModifier := 0, nStakeModifierHeight := none,
                     nStakeModifierTime := none })) := by
  refine ⟨by decide, fun fuel => ?_, by decide, fun fuel => rfl⟩
  exact getKernelStakeModifier_no_return shortWalkEnv 100 _ rfl fuel

/-! ## Next stake modifier: genesis and first block (C7, C8) -/

/-- C7: with a null previous block `ComputeNextStakeModifier` succeeds and returns
modifier 0 with `fGeneratedStakeModifier = true`. -/
theorem computeNextStakeModifier_null (env : Env) :
    ComputeNextStakeModifier env []
      = .ret { ret := true, nStakeModifier := 0, fGeneratedStakeModifier := true } := rfl

theorem computeNextStakeModifier_height_zero (env : Env) (prev : CBlockIndex)
    (pprev : List CBlockIndex) (h0 : prev.nHeight = 0) :
    ComputeNextStakeModifier env (prev :: pprev)
      = .ret { ret := true, nStakeModifier := env.pszStakeModifier % 2 ^ 64,
               fGeneratedStakeModifier := true } := by
  simp [ComputeNextStakeModifier, h0]

/-- C8 (the code at the failing input): for a previous block of height 0 the
returned modifier is the address of the string literal: `0x555555558004` when the
literal is stored there, `0x4a2f10` when it is stored there, and in neither case
`0x646f6d656b617473`. -/
theorem computeNextStakeModifier_height_zero_failing_input :
    ComputeNextStakeModifier exampleEnv [{ hashBlock := 100, nHeight := 0, nTime := 1000 }]
      = .ret { ret := true, nStakeModifier := 0x555555558004,
               fGeneratedStakeModifier := true } ∧
    ComputeNextStakeModifier { exampleEnv with pszStakeModifier := 0x4a2f10 }
        [{ hashBlock := 100, nHeight := 0, nTime := 1000 }]
      = .ret { ret := true, nStakeModifier := 0x4a2f10, fGeneratedStakeModifier := true } ∧
    (0x555555558004 : Nat) ≠ 0x646f6d656b617473 ∧ (0x4a2f10 : Nat) ≠ 0x646f6d656b617473 := by
  refine ⟨by decide, by decide, by decide, by decide⟩

/-! ## Block selection -/

theorem SelectState.firstRun_fSelected (env : Env) (p : CBlockIndex) (s : SelectState) :
    (s.firstRun env p).fSelected = s.fSelected := by
  unfold SelectState.firstRun; split <;> rfl

theorem SelectState.firstRun_pindexSelected (env : Env) (p : CBlockIndex) (s : SelectState) :
    (s.firstRun env p).pindexSelected = s.pindexSelected := by
  unfold SelectState.firstRun; split <;> rfl

theorem SelectState.consider_fSelected (env : Env) (md : Nat) (p : CBlockIndex)
    (s : SelectState) : (s.consider env md p).fSelected = true := by
  unfold SelectState.consider
  cases hs : s.fSelected <;> simp [hs]
  split <;> simp [hs]

theorem SelectState.consider_pindexSelected (env : Env) (md : Nat) (p : CBlockIndex)
    (s : SelectState) :
    (s.consider env md p).pindexSelected = some p ∨
      (s.fSelected = true ∧ (s.consider env md p).pindexSelected = s.pindexSelected) := by
  unfold SelectState.consider
  cases hs : s.fSelected <;> simp [hs]
  split <;> simp

theorem selectLoop_fresh (env : Env) (m : SelectedMap) (stop : Int) (md : Nat) :
    ∀ (l : List (Int × Nat)) (s s' : SelectState) (flag : Bool),
      selectLoop env m stop md l s = .ret (flag, s') → s.Fresh m → s'.Fresh m := by
  intro l
  induction l with
  | nil =>
    intro s s' flag h hs
    simp [selectLoop] at h
    rw [← h.2]; exact hs
  | cons item rest ih =>
    intro s s' flag h hs
    rw [selectLoop] at h
    split at h
    · simp at h; rw [← h.2]; exact hs
    · simp at h
    · rename_i pindex hidx
      have hs1 : SelectState.Fresh m (s.firstRun env pindex) := by
        intro b hb; rw [SelectState.firstRun_pindexSelected] at hb; exact hs b hb
      split at h
      · simp at h; rw [← h.2]; exact hs
      · split at h
        · exact ih _ _ _ h hs1
        · rename_i hcount
          refine ih _ _ _ h ?_
          intro b hb
          rcases SelectState.consider_pindexSelected env md pindex (s.firstRun env pindex) with h1 | h1
          · rw [h1] at hb; cases hb; simpa using hcount
          · rw [h1.2] at hb; exact hs1 b hb

theorem selectLoop_selected (env : Env) (m : SelectedMap) (stop : Int) (md : Nat) :
    ∀ (l : List (Int × Nat)) (s : SelectState), CandidatesIndexed env l →
      (s.fSelected = true → ∃ b, s.pindexSelected = some b) →
      ∃ s', selectLoop env m stop md l s = .ret (true, s') ∧
        (s'.fSelected = true → ∃ b, s'.pindexSelected = some b) ∧
        (s.fSelected = true → s'.fSelected = true) ∧
        ((∃ item ∈ l, m.count item.2 = false) → s'.fSelected = true) := by
  intro l
  induction l with
  | nil =>
    intro s _ hs
    exact ⟨s, by simp [selectLoop], hs, id, by simp⟩
  | cons item rest ih =>
    intro s hidx hs
    obtain ⟨p, hp, hph⟩ := hidx item (List.mem_cons_self _ _)
    have hrest : CandidatesIndexed env rest := fun it hit => hidx it (List.mem_cons_of_mem _ hit)
    rw [selectLoop]
    simp only [hp]
    split
    · rename_i hbrk
      simp only [Bool.and_eq_true] at hbrk
      exact ⟨s, rfl, hs, id, fun _ => hbrk.1⟩
    · split
      · rename_i hcount
        obtain ⟨s', h1, h2, h3, h4⟩ := ih (s.firstRun env p) hrest (by
          rw [SelectState.firstRun_fSelected, SelectState.firstRun_pindexSelected]; exact hs)
        refine ⟨s', h1, h2, ?_, ?_⟩
        · intro hsel; exact h3 (by rw [SelectState.firstRun_fSelected]; exact hsel)
        · rintro ⟨it, hit, hitc⟩
          rcases List.mem_cons.mp hit with rfl | hmem
          · rw [← hph, hcount] at hitc; cases hitc
          · exact h4 ⟨it, hmem, hitc⟩
      · obtain ⟨s', h1, h2, h3, _⟩ := ih ((s.firstRun env p).consider env md p) hrest (by
          intro _
          rcases SelectState.consider_pindexSelected env md p (s.firstRun env p) with h | h
          · exact ⟨p, h⟩
          · rw [h.2, SelectState.firstRun_pindexSelected]
            exact hs (by rw [← SelectState.firstRun_fSelected env p]; exact h.1))
        have hsel := h3 (SelectState.consider_fSelected env md p _)
        exact ⟨s', h1, h2, fun _ => hsel, fun _ => hsel⟩

theorem SelectState.init_fresh (m : SelectedMap) : SelectState.init.Fresh m := by
  intro b hb; simp [SelectState.init] at hb

theorem selectBlockFromCandidates_fresh (env : Env) (l : List (Int × Nat)) (m : SelectedMap)
    (stop : Int) (md : Nat) (b : CBlockIndex)
    (h : SelectBlockFromCandidates env l m stop md = .ret (true, some b)) :
    m.count b.hashBlock = false := by
  unfold SelectBlockFromCandidates at h
  split at h
  · simp at h
  · simp at h
  · rename_i s hloop
    simp at h
    exact selectLoop_fresh env m stop md l _ s true hloop (SelectState.init_fresh m) b h.2

theorem selectBlockFromCandidates_selects (env : Env) (l : List (Int × Nat)) (m : SelectedMap)
    (stop : Int) (md : Nat) (hidx : CandidatesIndexed env l)
    (hfree : ∃ item ∈ l, m.count item.2 = false) :
    ∃ b, SelectBlockFromCandidates env l m stop md = .ret (true, some b) := by
  obtain ⟨s', h1, h2, _, h4⟩ := selectLoop_selected env m stop md l SelectState.init hidx
    (by simp [SelectState.init])
  have hsel := h4 hfree
  obtain ⟨b, hb⟩ := h2 hsel
  refine ⟨b, ?_⟩
  unfold SelectBlockFromCandidates
  simp [h1, hsel, hb]

theorem SelectedMap.insert_of_count_false (m : SelectedMap) (hash : Nat) (b : CBlockIndex)
    (h : m.count hash = false) : m.insert hash b = m ++ [(hash, b)] := by
  simp [SelectedMap.insert, h]

theorem SelectedMap.length_insert_le (m : SelectedMap) (hash : Nat) (b : CBlockIndex) :
    (m.insert hash b).length ≤ m.length + 1 := by
  unfold SelectedMap.insert
  split <;> simp

theorem SelectedMap.count_eq_false_iff (m : SelectedMap) (hash : Nat) :
    m.count hash = false ↔ hash ∉ m.map Prod.fst := by
  unfold SelectedMap.count
  rw [List.any_eq_false]
  constructor
  · intro h hmem
    obtain ⟨e, he, rfl⟩ := List.mem_map.mp hmem
    exact absurd (h e he) (by simp)
  · intro h e he
    simp only [beq_iff_eq]
    intro heq
    exact h (List.mem_map.mpr ⟨e, he, heq⟩)

/-- With fewer excluded entries than candidates of pairwise distinct hashes, some
candidate is not excluded. -/
theorem exists_candidate_not_excluded (l : List (Int × Nat)) (m : SelectedMap)
    (hnodup : (l.map Prod.snd).Nodup) (hlen : m.length < l.length) :
    ∃ item ∈ l, m.count item.2 = false := by
  by_contra hcon
  push_neg at hcon
  have hsub : l.map Prod.snd ⊆ m.map Prod.fst := by
    intro h hh
    obtain ⟨item, hitem, rfl⟩ := List.mem_map.mp hh
    have := hcon item hitem
    by_contra hnot
    exact this ((SelectedMap.count_eq_false_iff m item.2).mpr hnot)
  have hle := (List.subperm_of_subset hnodup hsub).length_le
  simp at hle
  omega

theorem sectionDivisor_pos (env : Env) (hR : 1 ≤ Env.MODIFIER_INTERVAL_RATIO env)
    (n : Nat) (hn : n < 64) : 0 < sectionDivisor env n := by
  unfold sectionDivisor
  have h1 : (0 : Int) ≤ (63 - (n : Int)) := by omega
  have h2 : (0 : Int) ≤ Env.MODIFIER_INTERVAL_RATIO env - 1 := by omega
  have := mul_nonneg h1 h2
  omega

theorem getSection_eq (env : Env) (hR : 1 ≤ Env.MODIFIER_INTERVAL_RATIO env)
    (n : Nat) (hn : n < 64) :
    GetStakeModifierSelectionIntervalSection env n = .ret (sectionLength env n) := by
  have hpos := sectionDivisor_pos env hR n hn
  unfold GetStakeModifierSelectionIntervalSection
  have h1 : ((n : Int) ≥ 0 ∧ (n : Int) < 64) := by omega
  simp [h1, ne_of_gt hpos]

theorem getSection_ret (env : Env) (n : Int) (v : Int)
    (h : GetStakeModifierSelectionIntervalSection env n = .ret v) : v = sectionLength env n := by
  unfold GetStakeModifierSelectionIntervalSection at h
  split at h
  · simp at h
  · split at h
    · simp at h
    · simp at h; exact h.symm

theorem selectionRounds_succ (env : Env) (l : List (Int × Nat)) (md : Nat) (k nRound new : Nat) (stop : Int) (m : SelectedMap) :
  selectionRounds env l md (k+1) nRound new stop m =
    match GetStakeModifierSelectionIntervalSection env nRound with
    | .fault => .fault
    | .ret nSection =>
      let nStop := stop + nSection
      match SelectBlockFromCandidates env l m nStop md with
      | .fault => .fault
      | .ret (false, _) => .ret none
      | .ret (true, none) => .fault
      | .ret (true, some pindex) =>
        selectionRounds env l md k (nRound + 1)
          (new ||| ((pindex.GetStakeEntropyBit <<< nRound) % 2 ^ 64))
          nStop (m.insert pindex.hashBlock pindex) := by
  rfl

/-- With indexed candidates of pairwise distinct hashes and room for the remaining
rounds, every round selects a block and the loop runs to its end. -/
theorem selectionRounds_succeeds (env : Env) (l : List (Int × Nat)) (md : Nat)
    (hR : 1 ≤ Env.MODIFIER_INTERVAL_RATIO env)
    (hidx : CandidatesIndexed env l) (hnodup : (l.map Prod.snd).Nodup) :
    ∀ (k nRound new : Nat) (stop : Int) (m : SelectedMap),
      nRound + k ≤ 64 → m.length + k ≤ l.length →
      ∃ r, selectionRounds env l md k nRound new stop m = .ret (some r) := by
  intro k
  induction k with
  | zero => intro nRound new stop m _ _; exact ⟨_, rfl⟩
  | succ k ih =>
    intro nRound new stop m h64 hlen
    have hsec := getSection_eq env hR nRound (by omega)
    rw [selectionRounds_succ, hsec]
    obtain ⟨b, hb⟩ := selectBlockFromCandidates_selects env l m
      (stop + sectionLength env nRound) md hidx
      (exists_candidate_not_excluded l m hnodup (by omega))
    simp only [hb]
    have hl := SelectedMap.length_insert_le m b.hashBlock b
    exact ih (nRound + 1) _ _ _ (by omega) (by omega)

theorem roundStop_shift (env : Env) (stop : Int) (nRound : Nat) (i : Nat) :
    roundStop env (stop + sectionLength env nRound) (nRound + 1) i
      = roundStop env stop nRound (i + 1) := by
  induction i with
  | zero => simp [roundStop]
  | succ i ih =>
    rw [roundStop, ih, roundStop, roundStop, roundStop]
    have : nRound + 1 + i + 1 = nRound + (i + 1) + 1 := by omega
    rw [this]

theorem testBit_entropy_shift (b : CBlockIndex) (nRound j : Nat) (hn : nRound < 64) :
    ((b.GetStakeEntropyBit <<< nRound) % 2 ^ 64).testBit j
      = (decide (j = nRound) && b.fStakeEntropyBit) := by
  rw [Nat.testBit_mod_two_pow, Nat.testBit_shiftLeft]
  unfold CBlockIndex.GetStakeEntropyBit
  by_cases hj : j = nRound
  · subst hj
    cases b.fStakeEntropyBit <;> simp [hn]
  · cases b.fStakeEntropyBit
    · simp
    · simp only [if_true, hj, decide_False, Bool.false_and]
      by_cases hge : j ≥ nRound
      · obtain ⟨d, hd⟩ : ∃ d, j - nRound = d + 1 := ⟨j - nRound - 1, by omega⟩
        rw [hd, Nat.testBit_succ]
        simp
      · simp [hge]

theorem selectionRounds_zero (env : Env) (l : List (Int × Nat)) (md : Nat)
    (nRound new : Nat) (stop : Int) (m : SelectedMap) :
    selectionRounds env l md 0 nRound new stop m = .ret (some (new, m)) := rfl

theorem selectionRounds_trace (env : Env) (l : List (Int × Nat)) (md : Nat) :
    ∀ (k nRound new : Nat) (stop : Int) (m : SelectedMap) (new' : Nat) (m' : SelectedMap),
      selectionRounds env l md k nRound new stop m = .ret (some (new', m')) →
      nRound + k ≤ 64 →
      ∃ picked : List CBlockIndex, picked.length = k ∧
        m' = m ++ picked.map selectedEntry ∧
        (∀ i (hi : i < picked.length),
          SelectBlockFromCandidates env l (m ++ (picked.take i).map selectedEntry)
            (roundStop env stop nRound i) md = .ret (true, some picked[i])) ∧
        (∀ i (hi : i < picked.length),
          new'.testBit (nRound + i)
            = (new.testBit (nRound + i) || picked[i].fStakeEntropyBit)) ∧
        (∀ j, (j < nRound ∨ nRound + k ≤ j) → new'.testBit j = new.testBit j) := by
  intro k
  induction k with
  | zero =>
    intro nRound new stop m new' m' h _
    rw [selectionRounds_zero] at h
    simp at h
    refine ⟨[], rfl, by simp [h.2], by simp, by simp, ?_⟩
    intro j _; rw [h.1]
  | succ k ih =>
    intro nRound new stop m new' m' h h64
    rw [selectionRounds_succ] at h
    cases hsec : GetStakeModifierSelectionIntervalSection env nRound with
    | fault => simp [hsec] at h
    | ret v =>
      have hv := getSection_ret env nRound v hsec
      subst hv
      simp only [hsec] at h
      cases hsel : SelectBlockFromCandidates env l m (stop + sectionLength env nRound) md with
      | fault => simp [hsel] at h
      | ret r =>
        obtain ⟨flag, o⟩ := r
        cases flag with
        | false => simp [hsel] at h
        | true =>
          cases o with
          | none => simp [hsel] at h
          | some p =>
            simp only [hsel] at h
            have hfresh := selectBlockFromCandidates_fresh env l m _ md p hsel
            rw [SelectedMap.insert_of_count_false m _ p hfresh] at h
            obtain ⟨picked, hlen, hm', hselAll, hbits, hout⟩ :=
              ih (nRound + 1) _ _ _ new' m' h (by omega)
            refine ⟨p :: picked, by simp [hlen], ?_, ?_, ?_, ?_⟩
            · rw [hm']; simp [selectedEntry]
            · intro i hi
              cases i with
              | zero => simpa [roundStop] using hsel
              | succ i =>
                have hi' : i < picked.length := by simpa using hi
                have := hselAll i hi'
                rw [roundStop_shift] at this
                simpa [selectedEntry] using this
            · intro i hi
              cases i with
              | zero =>
                have := hout nRound (Or.inl (by omega))
                simp only [Nat.add_zero, List.getElem_cons_zero]
                rw [this, Nat.testBit_or, testBit_entropy_shift p nRound nRound (by omega)]
                simp
              | succ i =>
                have hi' : i < picked.length := by simpa using hi
                have := hbits i hi'
                have hidx : nRound + (i + 1) = nRound + 1 + i := by omega
                simp only [List.getElem_cons_succ]
                rw [hidx, this, Nat.testBit_or,
                  testBit_entropy_shift p nRound (nRound + 1 + i) (by omega)]
                have hne : ¬ (nRound + 1 + i = nRound) := by omega
                simp [hne]
            · intro j hj
              have := hout j (by omega)
              rw [this, Nat.testBit_or, testBit_entropy_shift p nRound j (by omega)]
              have hne : ¬ (j = nRound) := by omega
              simp [hne]

/-! ## Candidates and the selection branch -/

theorem getLastStakeModifier_nearest (pre post : List CBlockIndex) (g : CBlockIndex)
    (hpre : ∀ b ∈ pre, b.fGeneratedStakeModifier = false)
    (hg : g.fGeneratedStakeModifier = true) :
    GetLastStakeModifier (pre ++ g :: post) = some (g.nStakeModifier, g.GetBlockTime) := by
  induction pre with
  | nil =>
    cases post with
    | nil => simp [GetLastStakeModifier, hg]
    | cons c rest => simp [GetLastStakeModifier, hg]
  | cons b pre ih =>
    have hb : b.fGeneratedStakeModifier = false := hpre b (List.mem_cons_self _ _)
    have ih' := ih (fun x hx => hpre x (List.mem_cons_of_mem _ hx))
    cases pre with
    | nil => simpa [GetLastStakeModifier, hb] using ih'
    | cons c rest => simpa [GetLastStakeModifier, hb] using ih'

theorem collectCandidates_snd_sublist (start : Int) (chain : List CBlockIndex) :
    ((collectCandidates start chain).map Prod.snd).Sublist (chain.map (fun b => b.hashBlock)) := by
  induction chain with
  | nil => simp [collectCandidates]
  | cons b rest ih =>
    unfold collectCandidates
    split
    · simpa using ih
    · simp

theorem collectCandidates_mem (start : Int) (chain : List CBlockIndex) (item : Int × Nat)
    (h : item ∈ collectCandidates start chain) :
    ∃ b ∈ chain, item = (b.GetBlockTime, b.hashBlock) := by
  induction chain with
  | nil => simp [collectCandidates] at h
  | cons b rest ih =>
    unfold collectCandidates at h
    split at h
    · rcases List.mem_cons.mp h with h1 | h1
      · exact ⟨b, List.mem_cons_self _ _, h1⟩
      · obtain ⟨c, hc, hi⟩ := ih h1
        exact ⟨c, List.mem_cons_of_mem _ hc, hi⟩
    · simp at h

theorem sortedCandidates_perm (env : Env) (prev : CBlockIndex) (pprev : List CBlockIndex) :
    (sortedCandidates env prev pprev).Perm
      (collectCandidates (selectionIntervalStart env prev) (prev :: pprev)) := by
  unfold sortedCandidates sortPairs
  exact (List.perm_insertionSort _ _).trans (List.reverse_perm _)

theorem sortedCandidates_indexed (env : Env) (prev : CBlockIndex) (pprev : List CBlockIndex)
    (hidx : ∀ b ∈ prev :: pprev, env.mapBlockIndex b.hashBlock = some (some b)) :
    CandidatesIndexed env (sortedCandidates env prev pprev) := by
  intro item hitem
  have hmem := (sortedCandidates_perm env prev pprev).mem_iff.mp hitem
  obtain ⟨b, hb, rfl⟩ := collectCandidates_mem _ _ _ hmem
  exact ⟨b, hidx b hb, rfl⟩

theorem sortedCandidates_nodup (env : Env) (prev : CBlockIndex) (pprev : List CBlockIndex)
    (hnodup : ((prev :: pprev).map (fun b => b.hashBlock)).Nodup) :
    ((sortedCandidates env prev pprev).map Prod.snd).Nodup := by
  have h1 := (collectCandidates_snd_sublist (selectionIntervalStart env prev) (prev :: pprev)).nodup hnodup
  exact ((sortedCandidates_perm env prev pprev).map Prod.snd).nodup_iff.mpr h1

/-- In the branch of `ComputeNextStakeModifier` that runs the selection rounds, with
indexed blocks of pairwise distinct hashes, the rounds run to their end and the
call returns a generated modifier. -/
theorem computeNextStakeModifier_selects (env : Env) (prev : CBlockIndex)
    (pprev : List CBlockIndex) (nStakeModifier : Nat) (nModifierTime : Int)
    (hMI : env.MODIFIER_INTERVAL ≠ 0) (hR : 1 ≤ Env.MODIFIER_INTERVAL_RATIO env)
    (hheight : prev.nHeight ≠ 0)
    (hlast : GetLastStakeModifier (prev :: pprev) = some (nStakeModifier, nModifierTime))
    (hlt : ¬ nModifierTime.tdiv env.MODIFIER_INTERVAL
        ≥ prev.GetBlockTime.tdiv env.MODIFIER_INTERVAL)
    (hidx : ∀ b ∈ prev :: pprev, env.mapBlockIndex b.hashBlock = some (some b))
    (hnodup : ((prev :: pprev).map (fun b => b.hashBlock)).Nodup) :
    ∃ m, ComputeNextStakeModifier env (prev :: pprev)
      = .ret { ret := true, nStakeModifier := m, fGeneratedStakeModifier := true } := by
  obtain ⟨r, hr⟩ := selectionRounds_succeeds env (sortedCandidates env prev pprev) nStakeModifier
    hR (sortedCandidates_indexed env prev pprev hidx) (sortedCandidates_nodup env prev pprev hnodup)
    (min 64 (sortedCandidates env prev pprev).length) 0 0 (selectionIntervalStart env prev) []
    (by simp) (by simp)
  refine ⟨r.1, ?_⟩
  unfold ComputeNextStakeModifier
  simp only [hheight, if_false, hlast, hMI, hlt, hr]

/-! ## Interval rule and entropy folding (C9, C10) -/

/-- C9 (counterexample): in `laterModifierChain` the last generated modifier (77)
belongs to a block whose interval index (200 / 60 = 3) differs from that of the
previous block (100 / 60 = 1), yet `ComputeNextStakeModifier` runs no selection
round and returns modifier 77 with `fGeneratedStakeModifier = false`. -/
theorem computeNextStakeModifier_later_modifier_counterexample :
    GetLastStakeModifier laterModifierChain = some (77, 200) ∧
    (200 : Int) / laterModifierEnv.MODIFIER_INTERVAL
      ≠ (100 : Int) / laterModifierEnv.MODIFIER_INTERVAL ∧
    ComputeNextStakeModifier laterModifierEnv laterModifierChain
      = .ret { ret := true, nStakeModifier := 77, fGeneratedStakeModifier := false } := by
  refine ⟨by decide, by decide, by decide⟩

/-- C9 (amended): for a previous block of height at least 1 whose nearest
modifier-generating ancestor-or-self is `g`, in a parameter set with
`MODIFIER_INTERVAL > 0` and `MODIFIER_INTERVAL_RATIO ≥ 1` and a chain whose blocks
are indexed under pairwise distinct hashes, `ComputeNextStakeModifier` returns
`(g.nStakeModifier, generated = false)` if and only if
`g.time / MODIFIER_INTERVAL ≥ prev.time / MODIFIER_INTERVAL`; in every other case
it runs the selection rounds and returns `generated = true`. -/
theorem computeNextStakeModifier_interval_rule (env : Env) (prev g : CBlockIndex)
    (pprev pre post : List CBlockIndex)
    (hMI : 0 < env.MODIFIER_INTERVAL) (hR : 1 ≤ Env.MODIFIER_INTERVAL_RATIO env)
    (hheight : 1 ≤ prev.nHeight)
    (hchain : prev :: pprev = pre ++ g :: post)
    (hpre : ∀ b ∈ pre, b.fGeneratedStakeModifier = false)
    (hg : g.fGeneratedStakeModifier = true)
    (hidx : ∀ b ∈ prev :: pprev, env.mapBlockIndex b.hashBlock = some (some b))
    (hnodup : ((prev :: pprev).map (fun b => b.hashBlock)).Nodup) :
    (ComputeNextStakeModifier env (prev :: pprev)
        = .ret { ret := true, nStakeModifier := g.nStakeModifier,
                 fGeneratedStakeModifier := false }
      ↔ g.GetBlockTime / env.MODIFIER_INTERVAL ≥ prev.GetBlockTime / env.MODIFIER_INTERVAL) ∧
    (¬ g.GetBlockTime / env.MODIFIER_INTERVAL ≥ prev.GetBlockTime / env.MODIFIER_INTERVAL →
      ∃ m, ComputeNextStakeModifier env (prev :: pprev)
        = .ret { ret := true, nStakeModifier := m, fGeneratedStakeModifier := true }) := by
  have hlast : GetLastStakeModifier (prev :: pprev)
      = some (g.nStakeModifier, g.GetBlockTime) := by
    rw [hchain]; exact getLastStakeModifier_nearest pre post g hpre hg
  have hh : prev.nHeight ≠ 0 := by omega
  have hMI0 : env.MODIFIER_INTERVAL ≠ 0 := by omega
  have hgt : g.GetBlockTime.tdiv env.MODIFIER_INTERVAL
      = g.GetBlockTime / env.MODIFIER_INTERVAL :=
    Int.tdiv_eq_ediv (by simp [CBlockIndex.GetBlockTime]) (le_of_lt hMI)
  have hpt : prev.GetBlockTime.tdiv env.MODIFIER_INTERVAL
      = prev.GetBlockTime / env.MODIFIER_INTERVAL :=
    Int.tdiv_eq_ediv (by simp [CBlockIndex.GetBlockTime]) (le_of_lt hMI)
  have hsel : ¬ g.GetBlockTime / env.MODIFIER_INTERVAL
        ≥ prev.GetBlockTime / env.MODIFIER_INTERVAL →
      ∃ m, ComputeNextStakeModifier env (prev :: pprev)
        = .ret { ret := true, nStakeModifier := m, fGeneratedStakeModifier := true } := by
    intro hlt
    exact computeNextStakeModifier_selects env prev pprev g.nStakeModifier g.GetBlockTime
      hMI0 hR hh hlast (by rw [hgt, hpt]; exact hlt) hidx hnodup
  refine ⟨⟨?_, ?_⟩, hsel⟩
  · intro hres
    by_contra hlt
    obtain ⟨m, hm⟩ := hsel hlt
    rw [hm] at hres
    simp at hres
  · intro hge
    unfold ComputeNextStakeModifier
    simp only [hh, if_false, hlast, hMI0, hgt, hpt, hge, if_true]

/-- Instance of C9 (amended) at `selectionChain`, where the last modifier is from an earlier interval. -/
theorem computeNextStakeModifier_interval_rule_witness :
    (¬ (3000 : Int) / selectionEnv.MODIFIER_INTERVAL ≥ (4000 : Int) / selectionEnv.MODIFIER_INTERVAL) ∧
    ∃ m, ComputeNextStakeModifier selectionEnv selectionChain
      = .ret { ret := true, nStakeModifier := m, fGeneratedStakeModifier := true } :=
  ⟨by decide,
   (computeNextStakeModifier_interval_rule selectionEnv
      { hashBlock := 203, nHeight := 3, nTime := 4000, fStakeEntropyBit := true }
      { hashBlock := 201, nHeight := 1, nTime := 3000, fGeneratedStakeModifier := true,
        fStakeEntropyBit := true, nStakeModifier := 77 }
      selectionChain.tail (selectionChain.take 2) (selectionChain.drop 3)
      (by decide) (by decide) (by decide) rfl (by decide) rfl (by decide) (by decide)).2
     (by decide)⟩

/-- C10: whenever `ComputeNextStakeModifier` returns `generated = true` from the
selection rounds (previous block of height other than 0) over `n` sorted
candidates, there are `min 64 n` selected blocks, the block of round `i` being the
one `SelectBlockFromCandidates` returns given the blocks of the earlier rounds as
excluded; bit `i` of the returned modifier is the entropy bit of the block of
round `i`, and every bit from index `min 64 n` on is 0. -/
theorem computeNextStakeModifier_entropy_bits (env : Env) (prev : CBlockIndex)
    (pprev : List CBlockIndex) (m : Nat) (hheight : prev.nHeight ≠ 0)
    (hres : ComputeNextStakeModifier env (prev :: pprev)
      = .ret { ret := true, nStakeModifier := m, fGeneratedStakeModifier := true }) :
    ∃ (nStakeModifier : Nat) (nModifierTime : Int) (selected : List CBlockIndex),
      GetLastStakeModifier (prev :: pprev) = some (nStakeModifier, nModifierTime) ∧
      selected.length = min 64 (sortedCandidates env prev pprev).length ∧
      (∀ i (hi : i < selected.length),
        SelectBlockFromCandidates env (sortedCandidates env prev pprev)
            ((selected.take i).map selectedEntry)
            (roundStop env (selectionIntervalStart env prev) 0 i) nStakeModifier
          = .ret (true, some selected[i]) ∧
        m / 2 ^ i % 2 = selected[i].GetStakeEntropyBit) ∧
      (∀ i, min 64 (sortedCandidates env prev pprev).length ≤ i → m / 2 ^ i % 2 = 0) := by
  unfold ComputeNextStakeModifier at hres
  simp only [hheight, if_false] at hres
  cases hlast : GetLastStakeModifier (prev :: pprev) with
  | none => simp [hlast] at hres
  | some r =>
    obtain ⟨md, t⟩ := r
    simp only [hlast] at hres
    split at hres
    · simp at hres
    · split at hres
      · simp at hres
      · cases hrounds : selectionRounds env (sortedCandidates env prev pprev) md
            (min 64 (sortedCandidates env prev pprev).length) 0 0
            (selectionIntervalStart env prev) [] with
        | fault => simp [hrounds] at hres
        | ret o =>
          cases o with
          | none => simp [hrounds] at hres
          | some r2 =>
            obtain ⟨new', m'⟩ := r2
            simp [hrounds] at hres
            subst hres
            obtain ⟨picked, hlen, _, hselAll, hbits, hout⟩ :=
              selectionRounds_trace env _ md _ 0 0 _ [] new' m' hrounds (by omega)
            refine ⟨md, t, picked, rfl, hlen, ?_, ?_⟩
            · intro i hi
              refine ⟨by simpa using hselAll i hi, ?_⟩
              have hb := hbits i hi
              simp only [Nat.zero_add, Nat.zero_testBit, Bool.false_or] at hb
              rw [← Nat.toNat_testBit, hb]
              unfold CBlockIndex.GetStakeEntropyBit
              cases picked[i].fStakeEntropyBit <;> rfl
            · intro i hi
              have hb := hout i (Or.inr (by omega))
              rw [← Nat.toNat_testBit, hb]
              simp

/-- Instance of C10 at `selectionChain`, whose new modifier is 5. -/
theorem computeNextStakeModifier_entropy_bits_witness :
    ComputeNextStakeModifier selectionEnv selectionChain
      = .ret { ret := true, nStakeModifier := 5, fGeneratedStakeModifier := true } ∧
    ∃ (nStakeModifier : Nat) (nModifierTime : Int) (selected : List CBlockIndex),
      GetLastStakeModifier selectionChain = some (nStakeModifier, nModifierTime) ∧
      selected.length = min 64 (sortedCandidates selectionEnv
        { hashBlock := 203, nHeight := 3, nTime := 4000, fStakeEntropyBit := true }
        selectionChain.tail).length ∧
      (∀ i (hi : i < selected.length),
        SelectBlockFromCandidates selectionEnv (sortedCandidates selectionEnv
            { hashBlock := 203, nHeight := 3, nTime := 4000, fStakeEntropyBit := true }
            selectionChain.tail)
            ((selected.take i).map selectedEntry)
            (roundStop selectionEnv (selectionIntervalStart selectionEnv
              { hashBlock := 203, nHeight := 3, nTime := 4000, fStakeEntropyBit := true }) 0 i)
            nStakeModifier
          = .ret (true, some selected[i]) ∧
        5 / 2 ^ i % 2 = selected[i].GetStakeEntropyBit) ∧
      (∀ i, min 64 (sortedCandidates selectionEnv
        { hashBlock := 203, nHeight := 3, nTime := 4000, fStakeEntropyBit := true }
        selectionChain.tail).length ≤ i → 5 / 2 ^ i % 2 = 0) :=
  ⟨by decide,
   computeNextStakeModifier_entropy_bits selectionEnv
     { hashBlock := 203, nHeight := 3, nTime := 4000, fStakeEntropyBit := true }
     selectionChain.tail 5 (by decide) (by decide)⟩

/-! ## The selection loop as a comparison of the examined candidates -/

theorem SelectState.firstRun_of_not_first (env : Env) (b : CBlockIndex) (s : SelectState)
    (h : s.fFirstRun = false) : s.firstRun env b = s := by
  simp [SelectState.firstRun, h]

theorem SelectState.consider_fFirstRun (env : Env) (md : Nat) (b : CBlockIndex)
    (s : SelectState) : (s.consider env md b).fFirstRun = s.fFirstRun := by
  unfold SelectState.consider
  cases hs : s.fSelected <;> simp [hs]
  split <;> simp

theorem SelectState.consider_fModifierV2 (env : Env) (md : Nat) (b : CBlockIndex)
    (s : SelectState) : (s.consider env md b).fModifierV2 = s.fModifierV2 := by
  unfold SelectState.consider
  cases hs : s.fSelected <;> simp [hs]
  split <;> simp

theorem selectLoop_nil (env : Env) (m : SelectedMap) (stop : Int) (md : Nat) (s : SelectState) :
    selectLoop env m stop md [] s = .ret (true, s) := rfl

theorem selectLoop_cons (env : Env) (m : SelectedMap) (stop : Int) (md : Nat)
    (item : Int × Nat) (rest : List (Int × Nat)) (s : SelectState) (b : CBlockIndex)
    (hb : env.mapBlockIndex item.2 = some (some b)) :
    selectLoop env m stop md (item :: rest) s =
      if s.fSelected && decide (b.GetBlockTime > stop) then .ret (true, s)
      else if m.count b.hashBlock then selectLoop env m stop md rest (s.firstRun env b)
      else selectLoop env m stop md rest ((s.firstRun env b).consider env md b) := by
  rw [selectLoop]
  simp only [hb]

/-- With every candidate indexed, the loop of `SelectBlockFromCandidates` ends
normally, and after the first iteration its state is the one obtained by comparing
the examined candidates one after the other. -/
theorem selectLoop_eq_foldl (env : Env) (m : SelectedMap) (stop : Int) (md : Nat) :
    ∀ (bs : List CBlockIndex) (l : List (Int × Nat)) (s : SelectState),
      Resolves env l bs → s.fFirstRun = false →
      selectLoop env m stop md l s
        = .ret (true, (examinedCandidates m stop bs s.fSelected).foldl
            (fun st b => st.consider env md b) s) := by
  intro bs
  induction bs with
  | nil =>
    intro l s hres _
    cases l with
    | nil => simp [selectLoop_nil, examinedCandidates]
    | cons item rest => simp [Resolves] at hres
  | cons b bs ih =>
    intro l s hres hfirst
    cases l with
    | nil => simp [Resolves] at hres
    | cons item rest =>
      simp only [Resolves, List.map_cons, List.cons.injEq] at hres
      rw [selectLoop_cons env m stop md item rest s b hres.1,
        SelectState.firstRun_of_not_first env b s hfirst]
      unfold examinedCandidates
      split
      · simp
      · split
        · exact ih rest s hres.2 hfirst
        · rw [ih rest (s.consider env md b) hres.2
            (by rw [SelectState.consider_fFirstRun]; exact hfirst),
            SelectState.consider_fSelected]
          simp

theorem SelectState.consider_of_not_selected (env : Env) (md : Nat) (b : CBlockIndex)
    (s : SelectState) (hs : s.fSelected = false) :
    s.consider env md b
      = { s with fSelected := true, hashBest := selectionHash env s.fModifierV2 md b,
                 pindexSelected := some b } := by
  simp [SelectState.consider, hs]

theorem SelectState.consider_of_selected (env : Env) (md : Nat) (b : CBlockIndex)
    (s : SelectState) (hs : s.fSelected = true) :
    s.consider env md b
      = if selectionHash env s.fModifierV2 md b < s.hashBest then
          { s with hashBest := selectionHash env s.fModifierV2 md b, pindexSelected := some b }
        else s := by
  simp [SelectState.consider, hs]

/-- Comparing a list of candidates from a state that holds a best candidate `a`
ends in the state that holds `keepBest a xs`. -/
theorem foldl_consider_selected (env : Env) (md : Nat) :
    ∀ (xs : List CBlockIndex) (s : SelectState) (a : CBlockIndex),
      s.fSelected = true → s.pindexSelected = some a →
      s.hashBest = selectionHash env s.fModifierV2 md a →
      (xs.foldl (fun st b => st.consider env md b) s).fSelected = true ∧
      (xs.foldl (fun st b => st.consider env md b) s).pindexSelected
        = some (keepBest (selectionHash env s.fModifierV2 md) a xs) := by
  intro xs
  induction xs with
  | nil => intro s a hs ha _; exact ⟨hs, by simpa [keepBest] using ha⟩
  | cons x xs ih =>
    intro s a hs ha hh
    simp only [List.foldl_cons, keepBest]
    rw [SelectState.consider_of_selected env md x s hs, hh]
    by_cases hlt : selectionHash env s.fModifierV2 md x < selectionHash env s.fModifierV2 md a
    · simp only [hlt, if_true]
      exact ih _ x hs rfl rfl
    · simp only [hlt, if_false]
      exact ih s a hs ha hh

/-- Comparing the examined candidates from a state without a best candidate ends
with the earliest candidate of smallest selection hash. -/
theorem foldl_consider_not_selected (env : Env) (md : Nat) (xs : List CBlockIndex)
    (s : SelectState) (hs : s.fSelected = false) (hp : s.pindexSelected = none) :
    (xs.foldl (fun st b => st.consider env md b) s).fSelected
        = (bestOf (selectionHash env s.fModifierV2 md) xs).isSome ∧
    (xs.foldl (fun st b => st.consider env md b) s).pindexSelected
        = bestOf (selectionHash env s.fModifierV2 md) xs := by
  cases xs with
  | nil => simp [bestOf, hs, hp]
  | cons x xs =>
    simp only [List.foldl_cons, bestOf, Option.isSome_some]
    rw [SelectState.consider_of_not_selected env md x s hs]
    exact foldl_consider_selected env md xs _ x rfl rfl rfl

theorem selectLoop_init (env : Env) (m : SelectedMap) (stop : Int) (md : Nat)
    (item : Int × Nat) (rest : List (Int × Nat)) (b : CBlockIndex)
    (hb : env.mapBlockIndex item.2 = some (some b)) :
    selectLoop env m stop md (item :: rest) SelectState.init
      = selectLoop env m stop md (item :: rest) (SelectState.init.firstRun env b) := by
  rw [selectLoop_cons env m stop md item rest _ b hb,
    selectLoop_cons env m stop md item rest _ b hb]
  have h1 : (SelectState.init.firstRun env b).fFirstRun = false := by
    simp [SelectState.firstRun, SelectState.init]
  rw [SelectState.firstRun_of_not_first env b _ h1, SelectState.firstRun_fSelected]
  have h0 : SelectState.init.fSelected = false := rfl
  simp [h0]

/-- With every candidate indexed, `SelectBlockFromCandidates` returns the earliest
examined candidate of smallest selection hash, and fails when no candidate is
examined. -/
theorem selectBlockFromCandidates_eq_bestOf (env : Env) (l : List (Int × Nat))
    (bs : List CBlockIndex) (m : SelectedMap) (stop : Int) (md : Nat)
    (hres : Resolves env l bs) :
    SelectBlockFromCandidates env l m stop md
      = .ret ((bestOf (selectionHash env (selectionRule env bs) md)
                (examinedCandidates m stop bs false)).isSome,
              bestOf (selectionHash env (selectionRule env bs) md)
                (examinedCandidates m stop bs false)) := by
  cases bs with
  | nil =>
    cases l with
    | nil => simp [SelectBlockFromCandidates, selectLoop_nil, SelectState.init,
        examinedCandidates, bestOf]
    | cons item rest => simp [Resolves] at hres
  | cons b bs =>
    cases l with
    | nil => simp [Resolves] at hres
    | cons item rest =>
      have hb : env.mapBlockIndex item.2 = some (some b) := by
        simp only [Resolves, List.map_cons, List.cons.injEq] at hres
        exact hres.1
      have h1 : (SelectState.init.firstRun env b).fFirstRun = false := by
        simp [SelectState.firstRun, SelectState.init]
      have h2 : (SelectState.init.firstRun env b).fSelected = false := by
        rw [SelectState.firstRun_fSelected]; rfl
      have h3 : (SelectState.init.firstRun env b).pindexSelected = none := by
        rw [SelectState.firstRun_pindexSelected]; rfl
      have h4 : (SelectState.init.firstRun env b).fModifierV2 = selectionRule env (b :: bs) := by
        simp [SelectState.firstRun, SelectState.init, selectionRule]
      have hloop := selectLoop_eq_foldl env m stop md (b :: bs) (item :: rest)
        (SelectState.init.firstRun env b) hres h1
      rw [h2] at hloop
      obtain ⟨hf, hp⟩ := foldl_consider_not_selected env md
        (examinedCandidates m stop (b :: bs) false) (SelectState.init.firstRun env b) h2 h3
      rw [h4] at hf hp
      unfold SelectBlockFromCandidates
      rw [selectLoop_init env m stop md item rest b hb, hloop]
      simp only [hf, hp]

/-- The candidate kept by `keepBest` splits the list: everything before it has a
strictly larger value, everything after it a value at least as large. -/
theorem keepBest_split (h : CBlockIndex → Nat) :
    ∀ (rest pre mid : List CBlockIndex) (a : CBlockIndex),
      (∀ c ∈ pre, h a < h c) → (∀ c ∈ mid, h a ≤ h c) →
      ∃ pre' post', pre ++ a :: mid ++ rest = pre' ++ keepBest h a rest :: post' ∧
        (∀ c ∈ pre', h (keepBest h a rest) < h c) ∧
        (∀ c ∈ post', h (keepBest h a rest) ≤ h c) := by
  intro rest
  induction rest with
  | nil =>
    intro pre mid a hpre hmid
    exact ⟨pre, mid, by simp [keepBest], hpre, hmid⟩
  | cons x rest ih =>
    intro pre mid a hpre hmid
    simp only [keepBest]
    by_cases hlt : h x < h a
    · simp only [hlt, if_true]
      obtain ⟨pre', post', heq, h1, h2⟩ := ih (pre ++ a :: mid) [] x (by
        intro c hc
        rcases List.mem_append.mp hc with hc | hc
        · exact lt_trans hlt (hpre c hc)
        · rcases List.mem_cons.mp hc with rfl | hc
          · exact hlt
          · exact lt_of_lt_of_le hlt (hmid c hc)) (by simp)
      exact ⟨pre', post', by simpa using heq, h1, h2⟩
    · simp only [hlt, if_false]
      obtain ⟨pre', post', heq, h1, h2⟩ := ih pre (mid ++ [x]) a hpre (by
        intro c hc
        rcases List.mem_append.mp hc with hc | hc
        · exact hmid c hc
        · simp only [List.mem_singleton] at hc
          subst hc; omega)
      exact ⟨pre', post', by simpa using heq, h1, h2⟩

theorem bestOf_split (h : CBlockIndex → Nat) (xs : List CBlockIndex) (b : CBlockIndex)
    (hb : bestOf h xs = some b) :
    ∃ pre post, xs = pre ++ b :: post ∧ (∀ c ∈ pre, h b < h c) ∧ (∀ c ∈ post, h b ≤ h c) := by
  cases xs with
  | nil => simp [bestOf] at hb
  | cons a rest =>
    simp only [bestOf, Option.some.injEq] at hb
    obtain ⟨pre', post', heq, h1, h2⟩ := keepBest_split h rest [] [] a (by simp) (by simp)
    rw [hb] at heq h1 h2
    exact ⟨pre', post', by simpa using heq, h1, h2⟩

theorem bestOf_isSome (h : CBlockIndex → Nat) (xs : List CBlockIndex) (hne : xs ≠ []) :
    ∃ b, bestOf h xs = some b := by
  cases xs with
  | nil => exact absurd rfl hne
  | cons a rest => exact ⟨_, rfl⟩

theorem bestOf_singleton (h : CBlockIndex → Nat) (a : CBlockIndex) : bestOf h [a] = some a := rfl

/-- Every examined candidate is a block of the vector that is not excluded. -/
theorem examinedCandidates_mem (m : SelectedMap) (stop : Int) :
    ∀ (bs : List CBlockIndex) (f : Bool) (c : CBlockIndex),
      c ∈ examinedCandidates m stop bs f → c ∈ bs ∧ m.count c.hashBlock = false := by
  intro bs
  induction bs with
  | nil => intro f c hc; simp [examinedCandidates] at hc
  | cons b bs ih =>
    intro f c hc
    unfold examinedCandidates at hc
    split at hc
    · simp at hc
    · split at hc
      · obtain ⟨h1, h2⟩ := ih f c hc
        exact ⟨List.mem_cons_of_mem _ h1, h2⟩
      · rename_i hcount
        rcases List.mem_cons.mp hc with rfl | hc
        · exact ⟨List.mem_cons_self _ _, by simpa using hcount⟩
        · obtain ⟨h1, h2⟩ := ih true c hc
          exact ⟨List.mem_cons_of_mem _ h1, h2⟩

/-- Once a block is selected, in a vector sorted by time the examined candidates
are the competing ones. -/
theorem examinedCandidates_selected (m : SelectedMap) (stop : Int) :
    ∀ (bs : List CBlockIndex),
      bs.Pairwise (fun a b => a.GetBlockTime ≤ b.GetBlockTime) →
      examinedCandidates m stop bs true = bs.filter (competes m stop) := by
  intro bs
  induction bs with
  | nil => intro _; simp [examinedCandidates]
  | cons b bs ih =>
    intro hs
    rw [List.pairwise_cons] at hs
    unfold examinedCandidates
    by_cases hlate : b.GetBlockTime > stop
    · have hnone : ∀ c ∈ b :: bs, competes m stop c = false := by
        intro c hc
        have hct : c.GetBlockTime > stop := by
          rcases List.mem_cons.mp hc with rfl | hc
          · exact hlate
          · exact lt_of_lt_of_le hlate (hs.1 c hc)
        simp [competes, not_le.mpr hct]
      simp only [Bool.true_and, hlate, decide_True, if_true]
      exact (List.filter_eq_nil_iff.mpr (fun c hc => by simp [hnone c hc])).symm
    · simp only [Bool.true_and, hlate, decide_False, Bool.false_eq_true, if_false]
      have hle : b.GetBlockTime ≤ stop := not_lt.mp hlate
      by_cases hcount : m.count b.hashBlock = true
      · simp [hcount, competes, ih hs.2]
      · simp only [hcount, Bool.false_eq_true, if_false]
        have : competes m stop b = true := by simp [competes, hcount, hle]
        rw [List.filter_cons_of_pos this, ih hs.2]

/-- When some candidate competes, in a vector sorted by time the examined
candidates are exactly the competing ones. -/
theorem examinedCandidates_of_competitor (m : SelectedMap) (stop : Int) :
    ∀ (bs : List CBlockIndex),
      bs.Pairwise (fun a b => a.GetBlockTime ≤ b.GetBlockTime) →
      (∃ c ∈ bs, competes m stop c = true) →
      examinedCandidates m stop bs false = bs.filter (competes m stop) := by
  intro bs
  induction bs with
  | nil => intro _ h; simp at h
  | cons b bs ih =>
    intro hs hex
    have hs' := hs
    rw [List.pairwise_cons] at hs'
    unfold examinedCandidates
    simp only [Bool.false_and, Bool.false_eq_true, if_false]
    by_cases hcount : m.count b.hashBlock = true
    · have hb : competes m stop b = false := by simp [competes, hcount]
      simp only [hcount, if_true]
      rw [List.filter_cons_of_neg (by simp [hb])]
      refine ih hs'.2 ?_
      obtain ⟨c, hc, hcc⟩ := hex
      rcases List.mem_cons.mp hc with rfl | hc
      · rw [hb] at hcc; cases hcc
      · exact ⟨c, hc, hcc⟩
    · simp only [hcount, Bool.false_eq_true, if_false]
      have hle : b.GetBlockTime ≤ stop := by
        obtain ⟨c, hc, hcc⟩ := hex
        have hct : c.GetBlockTime ≤ stop := by
          simp only [competes, Bool.and_eq_true, decide_eq_true_eq] at hcc
          exact hcc.2
        rcases List.mem_cons.mp hc with rfl | hc
        · exact hct
        · exact le_trans (hs'.1 c hc) hct
      have : competes m stop b = true := by simp [competes, hcount, hle]
      rw [List.filter_cons_of_pos this, examinedCandidates_selected m stop bs hs'.2]

/-- When no candidate competes, the only examined candidate is the first one that
is not excluded. -/
theorem examinedCandidates_of_no_competitor (m : SelectedMap) (stop : Int) :
    ∀ (bs : List CBlockIndex),
      (∀ c ∈ bs, competes m stop c = false) →
      examinedCandidates m stop bs false
        = (bs.find? (fun b => !m.count b.hashBlock)).toList := by
  intro bs
  induction bs with
  | nil => intro _; simp [examinedCandidates]
  | cons b bs ih =>
    intro hno
    unfold examinedCandidates
    simp only [Bool.false_and, Bool.false_eq_true, if_false]
    have hrest : ∀ c ∈ bs, competes m stop c = false :=
      fun c hc => hno c (List.mem_cons_of_mem _ hc)
    by_cases hcount : m.count b.hashBlock = true
    · simp [hcount, ih hrest]
    · simp only [hcount, Bool.false_eq_true, if_false]
      have hfind : (b :: bs).find? (fun b => !m.count b.hashBlock) = some b := by
        simp [List.find?, hcount]
      rw [hfind]
      simp only [Option.toList_some, List.cons.injEq, true_and]
      -- after the first selection every later candidate is excluded or too late
      have : ∀ (cs : List CBlockIndex), (∀ c ∈ cs, competes m stop c = false) →
          examinedCandidates m stop cs true = [] := by
        intro cs
        induction cs with
        | nil => intro _; simp [examinedCandidates]
        | cons c cs ihc =>
          intro hcs
          unfold examinedCandidates
          have hc := hcs c (List.mem_cons_self _ _)
          by_cases hlate : c.GetBlockTime > stop
          · simp [hlate]
          · have hle : c.GetBlockTime ≤ stop := not_lt.mp hlate
            have hcnt : m.count c.hashBlock = true := by
              simp only [competes, hle, decide_True, Bool.and_true, Bool.not_eq_false'] at hc
              exact hc
            simp only [Bool.true_and, hlate, decide_False, Bool.false_eq_true, if_false,
              hcnt, if_true]
            exact ihc (fun d hd => hcs d (List.mem_cons_of_mem _ hd))
      exact this bs hrest

/-! ## Stop rule, minimality and proof-of-stake bias (C11, C12, C13) -/

theorem competes_iff (m : SelectedMap) (stop : Int) (c : CBlockIndex) :
    competes m stop c = true ↔ m.count c.hashBlock = false ∧ c.GetBlockTime ≤ stop := by
  simp [competes]

theorem selectionHash_eq_shift (env : Env) (v : Bool) (md : Nat) (c : CBlockIndex) :
    selectionHash env v md c
      = if c.fProofOfStake then unshiftedSelectionHash env v md c >>> 32
        else unshiftedSelectionHash env v md c := rfl

/-- C11: for a vector of indexed candidates sorted ascending by block time, a map
of excluded blocks and a stop time, if some non-excluded candidate has time at
most the stop time then the examined candidates are exactly the non-excluded
candidates with time at most the stop time and the selected block is the best of
them; otherwise the selected block is the first non-excluded candidate in list
order. -/
theorem selectBlockFromCandidates_stop_rule (env : Env) (l : List (Int × Nat))
    (bs : List CBlockIndex) (m : SelectedMap) (stop : Int) (md : Nat)
    (hres : Resolves env l bs)
    (hsorted : bs.Pairwise (fun a b => a.GetBlockTime ≤ b.GetBlockTime)) :
    ((∃ c ∈ bs, m.count c.hashBlock = false ∧ c.GetBlockTime ≤ stop) →
      examinedCandidates m stop bs false = bs.filter (competes m stop) ∧
      ∃ b, SelectBlockFromCandidates env l m stop md = .ret (true, some b) ∧
        bestOf (selectionHash env (selectionRule env bs) md) (bs.filter (competes m stop))
          = some b ∧
        b ∈ bs ∧ m.count b.hashBlock = false ∧ b.GetBlockTime ≤ stop) ∧
    ((¬ ∃ c ∈ bs, m.count c.hashBlock = false ∧ c.GetBlockTime ≤ stop) →
      SelectBlockFromCandidates env l m stop md
        = .ret ((bs.find? (fun b => !m.count b.hashBlock)).isSome,
                bs.find? (fun b => !m.count b.hashBlock))) := by
  have hsel := selectBlockFromCandidates_eq_bestOf env l bs m stop md hres
  constructor
  · rintro ⟨c, hc, hcc⟩
    have hcomp : competes m stop c = true := (competes_iff m stop c).mpr hcc
    have hex := examinedCandidates_of_competitor m stop bs hsorted ⟨c, hc, hcomp⟩
    refine ⟨hex, ?_⟩
    have hne : bs.filter (competes m stop) ≠ [] := by
      intro h0
      have : c ∈ bs.filter (competes m stop) := List.mem_filter.mpr ⟨hc, hcomp⟩
      rw [h0] at this
      cases this
    obtain ⟨b, hb⟩ := bestOf_isSome (selectionHash env (selectionRule env bs) md) _ hne
    obtain ⟨pre, post, hsplit, _, _⟩ := bestOf_split _ _ b hb
    have hmem : b ∈ bs.filter (competes m stop) := by rw [hsplit]; simp
    obtain ⟨hb1, hb2⟩ := List.mem_filter.mp hmem
    obtain ⟨hb3, hb4⟩ := (competes_iff m stop b).mp hb2
    rw [hex, hb] at hsel
    exact ⟨b, by simpa using hsel, hb, hb1, hb3, hb4⟩
  · intro hno
    have hno' : ∀ c ∈ bs, competes m stop c = false := by
      intro c hc
      by_contra h
      exact hno ⟨c, hc, (competes_iff m stop c).mp (by simpa using h)⟩
    rw [examinedCandidates_of_no_competitor m stop bs hno'] at hsel
    rw [hsel]
    cases bs.find? (fun b => !m.count b.hashBlock) <;> simp [bestOf, keepBest]

/-- Instance of C11 at `selectionVector` with nothing excluded and stop time 3995:
the blocks of times 3000 and 3990 compete and the second one is selected. -/
theorem selectBlockFromCandidates_stop_rule_witness :
    Resolves selectionEnv selectionVector selectionBlocks ∧
    examinedCandidates [] 3995 selectionBlocks false = selectionBlocks.take 2 ∧
    SelectBlockFromCandidates selectionEnv selectionVector [] 3995 77
      = .ret (true, some { hashBlock := 202, nHeight := 2, nTime := 3990,
                           fProofOfStake := true }) :=
  ⟨rfl,
   ((selectBlockFromCandidates_stop_rule selectionEnv selectionVector selectionBlocks [] 3995 77
      rfl (by decide)).1 ⟨_, List.mem_cons_self _ _, by decide⟩).1.trans (by decide),
   by decide⟩

/-- C12: with every candidate indexed, the block selected by
`SelectBlockFromCandidates` is a non-excluded candidate whose selection hash is
smallest among the examined candidates, and strictly smaller than that of every
examined candidate before it; the selection hash is `Hash(proof ‖ modifier)`,
shifted right by 32 bits for a proof-of-stake block, where the proof is the block
hash under the v2 rule and 0 for proof-of-stake, the block hash otherwise, under
the v1 rule. The call fails only when no candidate is examined. -/
theorem selectBlockFromCandidates_minimal (env : Env) (l : List (Int × Nat))
    (bs : List CBlockIndex) (m : SelectedMap) (stop : Int) (md : Nat)
    (hres : Resolves env l bs) :
    ((examinedCandidates m stop bs false = [] ∧
        SelectBlockFromCandidates env l m stop md = .ret (false, none)) ∨
      (∃ b pre post, SelectBlockFromCandidates env l m stop md = .ret (true, some b) ∧
        examinedCandidates m stop bs false = pre ++ b :: post ∧
        b ∈ bs ∧ m.count b.hashBlock = false ∧
        (∀ c ∈ pre, selectionHash env (selectionRule env bs) md b
            < selectionHash env (selectionRule env bs) md c) ∧
        (∀ c ∈ post, selectionHash env (selectionRule env bs) md b
            ≤ selectionHash env (selectionRule env bs) md c))) ∧
    (∀ (v : Bool) (c : CBlockIndex),
      selectionHash env v md c
        = (if c.fProofOfStake then unshiftedSelectionHash env v md c >>> 32
           else unshiftedSelectionHash env v md c) ∧
      unshiftedSelectionHash env true md c = Hash env (ser256 c.hashBlock ++ ser64 md) ∧
      unshiftedSelectionHash env false md c
        = Hash env (ser256 (if c.fProofOfStake then 0 else c.hashBlock) ++ ser64 md)) ∧
    (∀ b0 rest, bs = b0 :: rest →
      (selectionRule env bs = true ↔ b0.nHeight ≥ env.ModifierUpgradeBlock)) := by
  have hsel := selectBlockFromCandidates_eq_bestOf env l bs m stop md hres
  refine ⟨?_, ?_, ?_⟩
  · by_cases hne : examinedCandidates m stop bs false = []
    · left
      refine ⟨hne, ?_⟩
      rw [hsel, hne]; simp [bestOf]
    · right
      obtain ⟨b, hb⟩ := bestOf_isSome (selectionHash env (selectionRule env bs) md) _ hne
      obtain ⟨pre, post, hsplit, h1, h2⟩ := bestOf_split _ _ b hb
      have hmem : b ∈ examinedCandidates m stop bs false := by rw [hsplit]; simp
      obtain ⟨hb1, hb2⟩ := examinedCandidates_mem m stop bs false b hmem
      rw [hb] at hsel
      exact ⟨b, pre, post, by simpa using hsel, hsplit, hb1, hb2, h1, h2⟩
  · intro v c
    exact ⟨rfl, by simp [unshiftedSelectionHash], by simp [unshiftedSelectionHash]⟩
  · intro b0 rest hbs
    subst hbs
    simp [selectionRule]

/-- Instance of C12 at `selectionVector` with stop time 3995. -/
theorem selectBlockFromCandidates_minimal_witness :
    Resolves selectionEnv selectionVector selectionBlocks ∧
    ((examinedCandidates [] 3995 selectionBlocks false = [] ∧
        SelectBlockFromCandidates selectionEnv selectionVector [] 3995 77 = .ret (false, none)) ∨
      (∃ b pre post,
        SelectBlockFromCandidates selectionEnv selectionVector [] 3995 77 = .ret (true, some b) ∧
        examinedCandidates [] 3995 selectionBlocks false = pre ++ b :: post ∧
        b ∈ selectionBlocks ∧ SelectedMap.count [] b.hashBlock = false ∧
        (∀ c ∈ pre, selectionHash selectionEnv (selectionRule selectionEnv selectionBlocks) 77 b
            < selectionHash selectionEnv (selectionRule selectionEnv selectionBlocks) 77 c) ∧
        (∀ c ∈ post, selectionHash selectionEnv (selectionRule selectionEnv selectionBlocks) 77 b
            ≤ selectionHash selectionEnv (selectionRule selectionEnv selectionBlocks) 77 c))) :=
  ⟨rfl, (selectBlockFromCandidates_minimal selectionEnv selectionVector selectionBlocks []
    3995 77 rfl).1⟩

/-- C13 (counterexample): with a hash function that returns 0 the proof-of-work
block 401 and the later proof-of-stake block 402 are both examined and have equal
unshifted selection hashes, yet the proof-of-work block is selected. -/
theorem selection_pos_bias_counterexample :
    examinedCandidates [] 5000 tieBlocks false = tieBlocks ∧
    unshiftedSelectionHash (tieEnv 0) (selectionRule (tieEnv 0) tieBlocks) 77
        { hashBlock := 402, nHeight := 6, nTime := 3010, fProofOfStake := true }
      = unshiftedSelectionHash (tieEnv 0) (selectionRule (tieEnv 0) tieBlocks) 77
        { hashBlock := 401, nHeight := 5, nTime := 3000 } ∧
    SelectBlockFromCandidates (tieEnv 0) tieVector [] 5000 77
      = .ret (true, some { hashBlock := 401, nHeight := 5, nTime := 3000 }) := by
  refine ⟨by decide, by decide, by decide⟩

/-- C13 (amended): with every candidate indexed, for an examined proof-of-stake
candidate `p` and a proof-of-work candidate `w` whose unshifted selection hashes
are equal and not 0, the selection hash of `p` is strictly smaller than that of
`w`, and the selected block is not `w`, whatever their order in the vector. -/
theorem selection_pos_bias (env : Env) (l : List (Int × Nat)) (bs : List CBlockIndex)
    (m : SelectedMap) (stop : Int) (md : Nat) (p w : CBlockIndex)
    (hres : Resolves env l bs)
    (hp : p ∈ examinedCandidates m stop bs false)
    (hpos : p.fProofOfStake = true) (hpow : w.fProofOfStake = false)
    (heq : unshiftedSelectionHash env (selectionRule env bs) md p
      = unshiftedSelectionHash env (selectionRule env bs) md w)
    (hne : unshiftedSelectionHash env (selectionRule env bs) md p ≠ 0) :
    selectionHash env (selectionRule env bs) md p
      < selectionHash env (selectionRule env bs) md w ∧
    ∃ b, SelectBlockFromCandidates env l m stop md = .ret (true, some b) ∧
      selectionHash env (selectionRule env bs) md b
        < selectionHash env (selectionRule env bs) md w ∧
      b ≠ w := by
  have hsel := selectBlockFromCandidates_eq_bestOf env l bs m stop md hres
  have hlt : selectionHash env (selectionRule env bs) md p
      < selectionHash env (selectionRule env bs) md w := by
    rw [selectionHash_eq_shift, selectionHash_eq_shift, hpos, hpow, ← heq]
    simp only [if_true, Bool.false_eq_true, if_false, Nat.shiftRight_eq_div_pow]
    exact Nat.div_lt_self (Nat.pos_of_ne_zero hne) (by norm_num)
  refine ⟨hlt, ?_⟩
  have hne' : examinedCandidates m stop bs false ≠ [] := by
    intro h0; rw [h0] at hp; cases hp
  obtain ⟨b, hb⟩ := bestOf_isSome (selectionHash env (selectionRule env bs) md) _ hne'
  obtain ⟨pre, post, hsplit, h1, h2⟩ := bestOf_split _ _ b hb
  have hle : selectionHash env (selectionRule env bs) md b
      ≤ selectionHash env (selectionRule env bs) md p := by
    rw [hsplit] at hp
    rcases List.mem_append.mp hp with hp | hp
    · exact le_of_lt (h1 p hp)
    · rcases List.mem_cons.mp hp with rfl | hp
      · exact le_refl _
      · exact h2 p hp
  have hbw := lt_of_le_of_lt hle hlt
  rw [hb] at hsel
  refine ⟨b, by simpa using hsel, hbw, ?_⟩
  intro h; rw [h] at hbw; exact lt_irrefl _ hbw

/-- Instance of C13 (amended) with a hash function that returns `2^40`: the later
proof-of-stake block 402 is selected. -/
theorem selection_pos_bias_witness :
    unshiftedSelectionHash (tieEnv (2 ^ 40)) (selectionRule (tieEnv (2 ^ 40)) tieBlocks) 77
        { hashBlock := 402, nHeight := 6, nTime := 3010, fProofOfStake := true } ≠ 0 ∧
    SelectBlockFromCandidates (tieEnv (2 ^ 40)) tieVector [] 5000 77
      = .ret (true, some { hashBlock := 402, nHeight := 6, nTime := 3010,
                           fProofOfStake := true }) ∧
    ∃ b, SelectBlockFromCandidates (tieEnv (2 ^ 40)) tieVector [] 5000 77 = .ret (true, some b) ∧
      selectionHash (tieEnv (2 ^ 40)) (selectionRule (tieEnv (2 ^ 40)) tieBlocks) 77 b
        < selectionHash (tieEnv (2 ^ 40)) (selectionRule (tieEnv (2 ^ 40)) tieBlocks) 77
            { hashBlock := 401, nHeight := 5, nTime := 3000 } ∧
      b ≠ { hashBlock := 401, nHeight := 5, nTime := 3000 } :=
  ⟨by decide, by decide,
   (selection_pos_bias (tieEnv (2 ^ 40)) tieVector tieBlocks [] 5000 77
      { hashBlock := 402, nHeight := 6, nTime := 3010, fProofOfStake := true }
      { hashBlock := 401, nHeight := 5, nTime := 3000 }
      rfl (by decide) rfl rfl (by decide) (by decide)).2⟩

/-! ## Candidate collection (C14) -/

theorem mem_takeWhile_iff_leading (p : CBlockIndex → Bool) :
    ∀ (l : List CBlockIndex) (b : CBlockIndex),
      b ∈ l.takeWhile p ↔
        ∃ i : Nat, l[i]? = some b ∧
          ∀ (j : Nat) (c : CBlockIndex), j ≤ i → l[j]? = some c → p c = true := by
  intro l
  induction l with
  | nil => intro b; simp
  | cons a l ih =>
    intro b
    by_cases hpa : p a = true
    · rw [List.takeWhile_cons_of_pos hpa, List.mem_cons, ih b]
      constructor
      · rintro (rfl | ⟨i, hi, hall⟩)
        · refine ⟨0, by simp, ?_⟩
          intro j c hj hc
          have : j = 0 := by omega
          subst this
          simp at hc; rw [← hc]; exact hpa
        · refine ⟨i + 1, by simpa using hi, ?_⟩
          intro j c hj hc
          cases j with
          | zero => simp at hc; rw [← hc]; exact hpa
          | succ j => exact hall j c (by omega) (by simpa using hc)
      · rintro ⟨i, hi, hall⟩
        cases i with
        | zero => left; simp at hi; exact hi.symm
        | succ i =>
          right
          refine ⟨i, by simpa using hi, ?_⟩
          intro j c hj hc
          exact hall (j + 1) c (by omega) (by simpa using hc)
    · rw [List.takeWhile_cons_of_neg hpa]
      constructor
      · intro h; cases h
      · rintro ⟨i, _, hall⟩
        exact absurd (hall 0 a (Nat.zero_le _) (by simp)) hpa

theorem collectCandidates_eq_takeWhile (start : Int) (chain : List CBlockIndex) :
    collectCandidates start chain
      = (chain.takeWhile (fun b => decide (b.GetBlockTime ≥ start))).map
          (fun b => (b.GetBlockTime, b.hashBlock)) := by
  induction chain with
  | nil => simp [collectCandidates]
  | cons b rest ih =>
    unfold collectCandidates
    by_cases h : b.GetBlockTime ≥ start
    · simp [h, ih]
    · simp [h]

/-- C14 (counterexample): in `gapChain` the selection start is 1873; the ancestor of
hash 501 has block time 3000, yet it is not a candidate, because the block between
it and the tip has block time 1000. -/
theorem candidate_collection_gap_counterexample :
    selectionIntervalStart exampleEnv { hashBlock := 503, nHeight := 3, nTime := 4000 } = 1873 ∧
    gapChain[2]? = some { hashBlock := 501, nHeight := 1, nTime := 3000,
                          fGeneratedStakeModifier := true } ∧
    (3000 : Int) ≥ 1873 ∧
    sortedCandidates exampleEnv { hashBlock := 503, nHeight := 3, nTime := 4000 } gapChain.tail
      = [(4000, 503)] ∧
    ((3000 : Int), 501) ∉
      sortedCandidates exampleEnv { hashBlock := 503, nHeight := 3, nTime := 4000 } gapChain.tail := by
  refine ⟨by decide, by decide, by decide, by decide, by decide⟩

/-- C14 (amended): with `selection_start = floor(prev.time / MODIFIER_INTERVAL) *
MODIFIER_INTERVAL - 2087`, the candidates handed to the selection are a
permutation of the pairs `(time, hash)` of the longest run of blocks, from `prev`
back along `pprev`, whose block times are all at least `selection_start`: a pair is
a candidate if and only if it is that of a block of the chain such that the block
and every block between it and `prev` have block time at least `selection_start`. -/
theorem candidate_collection (env : Env) (prev : CBlockIndex) (pprev : List CBlockIndex)
    (hMI : 0 < env.MODIFIER_INTERVAL) :
    selectionIntervalStart env prev
      = prev.GetBlockTime / env.MODIFIER_INTERVAL * env.MODIFIER_INTERVAL - 2087 ∧
    (sortedCandidates env prev pprev).Perm
      (((prev :: pprev).takeWhile
          (fun b => decide (b.GetBlockTime ≥ selectionIntervalStart env prev))).map
        (fun b => (b.GetBlockTime, b.hashBlock))) ∧
    (∀ item, item ∈ sortedCandidates env prev pprev ↔
      ∃ (i : Nat) (b : CBlockIndex),
        (prev :: pprev)[i]? = some b ∧ item = (b.GetBlockTime, b.hashBlock) ∧
        ∀ (j : Nat) (c : CBlockIndex), j ≤ i → (prev :: pprev)[j]? = some c →
          c.GetBlockTime ≥ selectionIntervalStart env prev) := by
  have hstart : selectionIntervalStart env prev
      = prev.GetBlockTime / env.MODIFIER_INTERVAL * env.MODIFIER_INTERVAL - 2087 := by
    unfold selectionIntervalStart OLD_MODIFIER_INTERVAL
    rw [Int.tdiv_eq_ediv (by simp [CBlockIndex.GetBlockTime]) (le_of_lt hMI)]
  have hperm := sortedCandidates_perm env prev pprev
  rw [collectCandidates_eq_takeWhile] at hperm
  refine ⟨hstart, hperm, ?_⟩
  intro item
  rw [hperm.mem_iff, List.mem_map]
  constructor
  · rintro ⟨b, hb, rfl⟩
    obtain ⟨i, hi, hall⟩ := (mem_takeWhile_iff_leading _ _ b).mp hb
    refine ⟨i, b, hi, rfl, ?_⟩
    intro j c hj hc
    simpa using hall j c hj hc
  · rintro ⟨i, b, hi, rfl, hall⟩
    refine ⟨b, (mem_takeWhile_iff_leading _ _ b).mpr ⟨i, hi, ?_⟩, rfl⟩
    intro j c hj hc
    simpa using hall j c hj hc

/-- Instance of C14 (amended) at `gapChain`: only the tip is a candidate. -/
theorem candidate_collection_witness :
    (0 : Int) < exampleEnv.MODIFIER_INTERVAL ∧
    (sortedCandidates exampleEnv { hashBlock := 503, nHeight := 3, nTime := 4000 }
        gapChain.tail).Perm
      (((({ hashBlock := 503, nHeight := 3, nTime := 4000 } : CBlockIndex) :: gapChain.tail).takeWhile
          (fun b => decide (b.GetBlockTime ≥ selectionIntervalStart exampleEnv
            { hashBlock := 503, nHeight := 3, nTime := 4000 }))).map
        (fun b => (b.GetBlockTime, b.hashBlock))) :=
  ⟨by decide,
   (candidate_collection exampleEnv { hashBlock := 503, nHeight := 3, nTime := 4000 }
      gapChain.tail (by decide)).2.1⟩

/-! ## Chained modifier (C15) -/

/-- C15: `ComputeStakeModifier` returns 0 for a null previous block; for a non-null
one it returns the hash of the kernel followed by the 32 bytes of
`prev.nStakeModifierV2` when `IsStakeModifierV2(prev.nHeight + 1)` holds, and by
the 8 bytes of `prev.nStakeModifier` otherwise. -/
theorem computeStakeModifier_spec (env : Env) (prev : CBlockIndex) (kernel : Nat) :
    ComputeStakeModifier env none kernel = 0 ∧
    ComputeStakeModifier env (some prev) kernel
      = Hash env (ser256 kernel ++
          (if env.IsStakeModifierV2 (prev.nHeight + 1) then ser256 prev.nStakeModifierV2
           else ser64 prev.nStakeModifier)) ∧
    (ser256 kernel).length = 32 ∧ (ser256 prev.nStakeModifierV2).length = 32 ∧
    (ser64 prev.nStakeModifier).length = 8 := by
  refine ⟨rfl, ?_, length_serLE _ _, length_serLE _ _, length_serLE _ _⟩
  unfold ComputeStakeModifier
  cases hv : env.IsStakeModifierV2 (prev.nHeight + 1) <;> simp [hv]

/-! ## Monotonicity of the target in the stake value (C16) -/

theorem getHashProofOfStake_value (env : Env) (pindexPrev : Option CBlockIndex)
    (stake : CStakeInput) (v : Int) (nTimeTx : Nat) :
    GetHashProofOfStake env pindexPrev { stake with GetValue := v } nTimeTx
      = GetHashProofOfStake env pindexPrev stake nTimeTx := rfl

theorem checkStakeKernelHash_pass (env : Env) (pindexPrev : Option CBlockIndex)
    (nBits : Nat) (stake : CStakeInput) (nTimeTx h : Nat)
    (hpass : CheckStakeKernelHash env pindexPrev nBits stake nTimeTx = .ret (true, some h)) :
    GetHashProofOfStake env pindexPrev stake nTimeTx = .ret (some h) ∧
      h < weightedTarget nBits stake.GetValue := by
  unfold CheckStakeKernelHash at hpass
  cases hg : GetHashProofOfStake env pindexPrev stake nTimeTx with
  | fault => simp [hg] at hpass
  | ret o =>
    cases o with
    | none => simp [hg] at hpass
    | some h' =>
      simp [hg] at hpass
      obtain ⟨h1, h2⟩ := hpass
      subst h2
      exact ⟨rfl, h1⟩

/-- C16 (counterexample): with `nBits = 0x207fffff` the kernel hash
`0xfffffd * 2^232` passes for a stake of 200 satoshis and fails for the doubled
stake of 400 satoshis, whose weighted target wraps around to `0xfffffc * 2^232`. -/
theorem checkStakeKernelHash_doubling_counterexample :
    CheckStakeKernelHash (envWithHash (0xfffffd * 2 ^ 232)) (some examplePrevV2) 0x207fffff
      (stakeOfValue 200) 6000 = .ret (true, some (0xfffffd * 2 ^ 232)) ∧
    CheckStakeKernelHash (envWithHash (0xfffffd * 2 ^ 232)) (some examplePrevV2) 0x207fffff
      (stakeOfValue 400) 6000 = .ret (false, some (0xfffffd * 2 ^ 232)) ∧
    weightedTarget 0x207fffff 400 = 0xfffffc * 2 ^ 232 := by
  refine ⟨by decide, by decide, by decide⟩

/-- C16 (amended): for stake values `0 ≤ v ≤ v'` (as `int64_t`) such that
`decompress_compact(bits) * floor(v' / 100)` is below `2^256`, if
`CheckStakeKernelHash` passes with value `v` then it passes, with the same kernel
hash, for the same inputs with value `v'`. -/
theorem checkStakeKernelHash_mono (env : Env) (pindexPrev : Option CBlockIndex)
    (nBits : Nat) (stake : CStakeInput) (nTimeTx h : Nat) (v v' : Int)
    (hv0 : 0 ≤ v) (hle : v ≤ v') (hv1 : v' < 2 ^ 63)
    (hfit : SetCompact nBits * (v'.toNat / 100) < 2 ^ 256)
    (hpass : CheckStakeKernelHash env pindexPrev nBits { stake with GetValue := v } nTimeTx
      = .ret (true, some h)) :
    CheckStakeKernelHash env pindexPrev nBits { stake with GetValue := v' } nTimeTx
      = .ret (true, some h) := by
  obtain ⟨hg, hlt⟩ := checkStakeKernelHash_pass env pindexPrev nBits _ nTimeTx h hpass
  rw [getHashProofOfStake_value] at hg
  have hg' : GetHashProofOfStake env pindexPrev { stake with GetValue := v' } nTimeTx
      = .ret (some h) := by rw [getHashProofOfStake_value]; exact hg
  rw [checkStakeKernelHash_of_hash env pindexPrev nBits _ nTimeTx h hg']
  have hw : weightedTarget nBits v ≤ weightedTarget nBits v' := by
    unfold weightedTarget
    rw [uint256OfAmount_of_nonneg v hv0 (by omega),
      uint256OfAmount_of_nonneg v' (by omega) hv1]
    simp only
    rw [Nat.mod_eq_of_lt hfit]
    refine le_trans (Nat.mod_le _ _) (Nat.mul_le_mul_left _ (Nat.div_le_div_right ?_))
    omega
  have : h < weightedTarget nBits v' := lt_of_lt_of_le hlt hw
  simp [this]

/-- Instance of C16 (amended) at `nBits = 0x1d00ffff` for stakes of 200 and 400
satoshis. -/
theorem checkStakeKernelHash_mono_witness :
    CheckStakeKernelHash (envWithHash (0xffff * 2 ^ 208)) (some examplePrevV2) 0x1d00ffff
      (stakeOfValue 200) 6000 = .ret (true, some (0xffff * 2 ^ 208)) ∧
    CheckStakeKernelHash (envWithHash (0xffff * 2 ^ 208)) (some examplePrevV2) 0x1d00ffff
      { stakeOfValue 200 with GetValue := 400 } 6000 = .ret (true, some (0xffff * 2 ^ 208)) :=
  ⟨by decide,
   checkStakeKernelHash_mono (envWithHash (0xffff * 2 ^ 208)) (some examplePrevV2) 0x1d00ffff
     (stakeOfValue 200) 6000 (0xffff * 2 ^ 208) 200 400 (by decide) (by decide) (by decide)
     (by decide) (by decide)⟩

/-! ## Block validation: timestamp, maturity, coinstake and previous output (C17 - C20) -/

/-- C17 (counterexample): `mistimedBlock` has time 1600000000 and a coinstake of
time 1599999990, so the timestamp rule does not hold for it, yet
`CheckProofOfStake` returns success. -/
theorem checkProofOfStake_timestamp_counterexample :
    mistimedBlock.vtx[1]? = some { exampleCoinStake with nTime := 1599999990 } ∧
    mistimedBlock.nTime ≠ 1599999990 ∧
    CheckCoinStakeTimestamp 1600000000 1599999990 = false ∧
    ProofOfStakeResult.retOf
      (CheckProofOfStake (validationEnv (100 * 10 ^ 8)) mistimedBlock 1500) = .ret true := by
  refine ⟨rfl, by decide, by decide, rfl⟩

/-- C17 (amended): `CheckProofOfStake` compares `block.nTime` with no coinstake time:
it returns success whenever the stake input is built, its origin block is known,
the maturity rule holds for `block.nTime` and the kernel check passes for attempt
time `block.nTime`; the timestamp rule is the separate function
`CheckCoinStakeTimestamp`, which holds exactly when its two arguments are equal. -/
theorem checkProofOfStake_no_timestamp_rule (env : Env) (block : CBlock)
    (nPreviousBlockHeight : Int) (stake : CStakeInput) (pindexfrom : CBlockIndex) (hash : Nat)
    (hinit : initStakeInput env block = .ret (some stake))
    (hfrom : stake.GetIndexFrom = some pindexfrom)
    (hmat : env.HasStakeMinAgeOrDepth (nPreviousBlockHeight + 1) block.nTime
      pindexfrom.nHeight pindexfrom.nTime = true)
    (hkernel : CheckStakeKernelHash env (env.mapBlockIndex.subscript block.hashPrevBlock)
      block.nBits stake block.nTime = .ret (true, some hash)) :
    ProofOfStakeResult.retOf (CheckProofOfStake env block nPreviousBlockHeight) = .ret true ∧
    (∀ nTimeBlock nTimeTx : Int,
      CheckCoinStakeTimestamp nTimeBlock nTimeTx = true ↔ nTimeBlock = nTimeTx) := by
  constructor
  · unfold CheckProofOfStake
    simp [hinit, hfrom, hmat, hkernel, ProofOfStakeResult.retOf]
  · intro a b
    simp [CheckCoinStakeTimestamp]

/-- Instance of C17 (amended) at `mistimedBlock`. -/
theorem checkProofOfStake_no_timestamp_rule_witness :
    initStakeInput (validationEnv (100 * 10 ^ 8)) mistimedBlock
      = .ret (some (stakeOfValue (100 * 10 ^ 8))) ∧
    ProofOfStakeResult.retOf
      (CheckProofOfStake (validationEnv (100 * 10 ^ 8)) mistimedBlock 1500) = .ret true :=
  ⟨rfl,
   (checkProofOfStake_no_timestamp_rule (validationEnv (100 * 10 ^ 8)) mistimedBlock 1500
      (stakeOfValue (100 * 10 ^ 8)) { hashBlock := 11, nHeight := 10, nTime := 1000 } 785321
      rfl rfl rfl (by decide)).1⟩

/-- C18: for a block whose stake input was built and whose origin block is known,
if `HasStakeMinAgeOrDepth(nPreviousBlockHeight + 1, block.nTime, origin height,
origin time)` is false then `CheckProofOfStake` returns failure and
`hashProofOfStake` is not written. -/
theorem checkProofOfStake_immature (env : Env) (block : CBlock)
    (nPreviousBlockHeight : Int) (stake : CStakeInput) (pindexfrom : CBlockIndex)
    (hinit : initStakeInput env block = .ret (some stake))
    (hfrom : stake.GetIndexFrom = some pindexfrom)
    (hmat : env.HasStakeMinAgeOrDepth (nPreviousBlockHeight + 1) block.nTime
      pindexfrom.nHeight pindexfrom.nTime = false) :
    ∃ r, CheckProofOfStake env block nPreviousBlockHeight = .ret r ∧
      r.ret = false ∧ r.hashProofOfStake = none := by
  unfold CheckProofOfStake
  simp [hinit, hfrom, hmat]

/-- Instance of C18 at `exampleBlock` under a maturity rule that no stake meets. -/
theorem checkProofOfStake_immature_witness :
    initStakeInput (immatureEnv (100 * 10 ^ 8)) (exampleBlock 1600000000)
      = .ret (some (stakeOfValue (100 * 10 ^ 8))) ∧
    ∃ r, CheckProofOfStake (immatureEnv (100 * 10 ^ 8)) (exampleBlock 1600000000) 1500 = .ret r ∧
      r.ret = false ∧ r.hashProofOfStake = none :=
  ⟨rfl,
   checkProofOfStake_immature (immatureEnv (100 * 10 ^ 8)) (exampleBlock 1600000000) 1500
     (stakeOfValue (100 * 10 ^ 8)) { hashBlock := 11, nHeight := 10, nTime := 1000 }
     rfl rfl rfl⟩

theorem initStakeInput_not_coinstake (env : Env) (block : CBlock) (tx : CTransaction)
    (htx : block.vtx[1]? = some tx) (hcs : env.IsCoinStake tx = false) :
    initStakeInput env block = .ret none := by
  unfold initStakeInput
  simp [htx, hcs]

theorem initStakeInput_short_block (env : Env) (block : CBlock)
    (hlen : block.vtx.length < 2) : initStakeInput env block = .fault := by
  unfold initStakeInput
  have : block.vtx[1]? = none := List.getElem?_eq_none (by omega)
  simp [this]

theorem checkProofOfStake_of_init_fault (env : Env) (block : CBlock)
    (nPreviousBlockHeight : Int) (h : initStakeInput env block = .fault) :
    CheckProofOfStake env block nPreviousBlockHeight = .fault := by
  unfold CheckProofOfStake
  simp [h]

/-- C19 (the code at the failing input): for `coinbaseOnlyBlock`, which has one
transaction, the access `block.vtx[1]` is out of range, so neither
`initStakeInput` nor `CheckProofOfStake` returns a failure value; for
`noCoinStakeBlock`, which has two transactions, both return failure and no stake
input is built. -/
theorem initStakeInput_short_block_failing_input :
    coinbaseOnlyBlock.vtx.length = 1 ∧
    initStakeInput (validationEnv 50) coinbaseOnlyBlock = .fault ∧
    ProofOfStakeResult.retOf (CheckProofOfStake (validationEnv 50) coinbaseOnlyBlock 1500)
      = .fault ∧
    initStakeInput (validationEnv 50) noCoinStakeBlock = .ret none ∧
    ProofOfStakeResult.retOf (CheckProofOfStake (validationEnv 50) noCoinStakeBlock 1500)
      = .ret false := by
  refine ⟨rfl, rfl, rfl, rfl, rfl⟩

theorem initStakeInput_bad_index (env : Env) (block : CBlock) (tx txPrev : CTransaction)
    (txin : CTxIn) (htx : block.vtx[1]? = some tx) (hcs : env.IsCoinStake tx = true)
    (hin : tx.vin[0]? = some txin) (hprev : env.GetTransaction txin.prevout.hash = some txPrev)
    (hn : txin.prevout.n ≥ txPrev.vout.length) : initStakeInput env block = .fault := by
  unfold initStakeInput
  have : txPrev.vout[txin.prevout.n]? = none := List.getElem?_eq_none hn
  simp [htx, hcs, hin, hprev, this]

theorem initStakeInput_prev_missing (env : Env) (block : CBlock) (tx : CTransaction)
    (txin : CTxIn) (htx : block.vtx[1]? = some tx) (hcs : env.IsCoinStake tx = true)
    (hin : tx.vin[0]? = some txin) (hprev : env.GetTransaction txin.prevout.hash = none) :
    initStakeInput env block = .ret none := by
  unfold initStakeInput
  simp [htx, hcs, hin, hprev]

/-- C20 (the code at the failing input): the coinstake of `badIndexBlock` spends
output 3 of a previous transaction with one output; `initStakeInput` reads
`txPrev.vout[3]` out of range instead of returning failure. For
`unknownPrevBlock`, whose previous transaction is not found, it returns failure. -/
theorem initStakeInput_bad_index_failing_input :
    (validationEnv 50).GetTransaction 5 = some exampleTxPrev ∧
    exampleTxPrev.vout.length = 1 ∧
    initStakeInput (validationEnv 50) badIndexBlock = .fault ∧
    (validationEnv 50).GetTransaction 9 = none ∧
    initStakeInput (validationEnv 50) unknownPrevBlock = .ret none := by
  refine ⟨rfl, rfl, rfl, rfl, rfl⟩

/-! ## Failure paths of block validation (C21, C22, C23) -/

theorem BlockMap.touch_of_present (m : BlockMap) (hash : Nat) (h : m hash ≠ none) :
    m.touch hash = m := by
  funext k
  unfold BlockMap.touch
  by_cases hk : k = hash
  · subst hk
    cases hm : m k with
    | none => exact absurd hm h
    | some p => simp
  · simp [hk]

/-- C21 (counterexample): three calls of `CheckProofOfStake` that return failure
after a write: under a maturity rule that no stake meets `stake` is set to the
stake input that was built; after a failed kernel check `hashProofOfStake` holds
the kernel hash as well; and for a block whose previous block hash 999 is not
indexed `mapBlockIndex` has gained an entry for 999. -/
theorem checkProofOfStake_failure_writes_counterexample :
    (∃ r, CheckProofOfStake (immatureEnv (100 * 10 ^ 8)) (exampleBlock 1600000000) 1500 = .ret r ∧
      r.ret = false ∧ r.stake = some (stakeOfValue (100 * 10 ^ 8))) ∧
    (∃ r, CheckProofOfStake (validationEnv 50) (exampleBlock 1600000000) 1500 = .ret r ∧
      r.ret = false ∧ r.stake = some (stakeOfValue 50) ∧
      r.hashProofOfStake = some 785321) ∧
    (∃ r, CheckProofOfStake (immatureEnv (100 * 10 ^ 8)) orphanBlock 1500 = .ret r ∧
      r.ret = false ∧ (immatureEnv (100 * 10 ^ 8)).mapBlockIndex 999 = none ∧
      r.mapBlockIndex 999 = some none) :=
  ⟨⟨_, rfl, rfl, rfl⟩, ⟨_, rfl, rfl, rfl, rfl⟩, ⟨_, rfl, rfl, rfl, rfl⟩⟩

/-- C21 (amended): when `CheckProofOfStake` returns failure because `initStakeInput`
failed, `stake` and `hashProofOfStake` are not written and `mapBlockIndex` is
unchanged; when it returns failure later, `stake` holds the stake input that was
built, `hashProofOfStake` is either not written or holds the computed kernel hash
of a block later than 1505247602, and `mapBlockIndex` is unchanged if the previous
block hash has an entry. -/
theorem checkProofOfStake_failure_state (env : Env) (block : CBlock)
    (nPreviousBlockHeight : Int) (r : ProofOfStakeResult)
    (hr : CheckProofOfStake env block nPreviousBlockHeight = .ret r)
    (hfail : r.ret = false) :
    (initStakeInput env block = .ret none ∧ r.stake = none ∧ r.hashProofOfStake = none ∧
      r.mapBlockIndex = env.mapBlockIndex) ∨
    (∃ stake, initStakeInput env block = .ret (some stake) ∧ r.stake = some stake ∧
      (env.mapBlockIndex block.hashPrevBlock ≠ none → r.mapBlockIndex = env.mapBlockIndex) ∧
      (r.hashProofOfStake = none ∨
        ∃ h, r.hashProofOfStake = some h ∧ block.nTime > 1505247602 ∧
          GetHashProofOfStake env (env.mapBlockIndex.subscript block.hashPrevBlock) stake
            block.nTime = .ret (some h))) := by
  unfold CheckProofOfStake at hr
  cases hinit : initStakeInput env block with
  | fault => simp [hinit] at hr
  | ret o =>
    cases o with
    | none =>
      simp only [hinit] at hr
      cases hr
      exact Or.inl ⟨rfl, rfl, rfl, rfl⟩
    | some stake =>
      right
      simp only [hinit] at hr
      refine ⟨stake, rfl, ?_⟩
      cases hfrom : stake.GetIndexFrom with
      | none =>
        simp only [hfrom] at hr
        cases hr
        exact ⟨rfl, fun h => BlockMap.touch_of_present _ _ h, Or.inl rfl⟩
      | some pindexfrom =>
        simp only [hfrom] at hr
        split at hr
        · cases hr
          exact ⟨rfl, fun h => BlockMap.touch_of_present _ _ h, Or.inl rfl⟩
        · cases hk : CheckStakeKernelHash env (env.mapBlockIndex.subscript block.hashPrevBlock)
              block.nBits stake block.nTime with
          | fault => simp [hk] at hr
          | ret p =>
            obtain ⟨res, hp⟩ := p
            simp only [hk] at hr
            split at hr
            · rename_i hcond
              cases hr
              refine ⟨rfl, fun h => BlockMap.touch_of_present _ _ h, ?_⟩
              simp only [Bool.and_eq_true, Bool.not_eq_true', decide_eq_true_eq,
                kernelCheckStartTime] at hcond
              cases hp with
              | none => exact Or.inl rfl
              | some h =>
                right
                refine ⟨h, rfl, hcond.2, ?_⟩
                unfold CheckStakeKernelHash at hk
                cases hg : GetHashProofOfStake env
                    (env.mapBlockIndex.subscript block.hashPrevBlock) stake block.nTime with
                | fault => simp [hg] at hk
                | ret o2 =>
                  cases o2 with
                  | none => simp [hg] at hk
                  | some h2 =>
                    simp [hg] at hk
                    rw [hk.2]
            · cases hr
              simp at hfail

/-- Instance of C21 (amended) at a block that fails the maturity rule. -/
theorem checkProofOfStake_failure_state_witness :
    ∃ r, CheckProofOfStake (immatureEnv (100 * 10 ^ 8)) (exampleBlock 1600000000) 1500 = .ret r ∧
      r.ret = false ∧
      ((initStakeInput (immatureEnv (100 * 10 ^ 8)) (exampleBlock 1600000000) = .ret none ∧
          r.stake = none ∧ r.hashProofOfStake = none ∧
          r.mapBlockIndex = (immatureEnv (100 * 10 ^ 8)).mapBlockIndex) ∨
        (∃ stake, initStakeInput (immatureEnv (100 * 10 ^ 8)) (exampleBlock 1600000000)
            = .ret (some stake) ∧ r.stake = some stake ∧
          ((immatureEnv (100 * 10 ^ 8)).mapBlockIndex (exampleBlock 1600000000).hashPrevBlock
              ≠ none → r.mapBlockIndex = (immatureEnv (100 * 10 ^ 8)).mapBlockIndex) ∧
          (r.hashProofOfStake = none ∨
            ∃ h, r.hashProofOfStake = some h ∧ (exampleBlock 1600000000).nTime > 1505247602 ∧
              GetHashProofOfStake (immatureEnv (100 * 10 ^ 8))
                ((immatureEnv (100 * 10 ^ 8)).mapBlockIndex.subscript
                  (exampleBlock 1600000000).hashPrevBlock) stake
                (exampleBlock 1600000000).nTime = .ret (some h)))) :=
  ⟨_, rfl, rfl,
   checkProofOfStake_failure_state (immatureEnv (100 * 10 ^ 8)) (exampleBlock 1600000000) 1500 _
     rfl rfl⟩

theorem checkProofOfStake_unknown_parent (env : Env) (block : CBlock)
    (nPreviousBlockHeight : Int) (stake : CStakeInput) (pindexfrom : CBlockIndex)
    (hprev : env.mapBlockIndex block.hashPrevBlock = none)
    (hinit : initStakeInput env block = .ret (some stake))
    (hfrom : stake.GetIndexFrom = some pindexfrom)
    (hmat : env.HasStakeMinAgeOrDepth (nPreviousBlockHeight + 1) block.nTime
      pindexfrom.nHeight pindexfrom.nTime = true) :
    CheckProofOfStake env block nPreviousBlockHeight = .fault := by
  unfold CheckProofOfStake
  simp [hinit, hfrom, hmat, BlockMap.subscript, hprev, CheckStakeKernelHash,
    GetHashProofOfStake]

/-- C22 (the code at the failing input): the previous block hash 999 of
`orphanBlock` is not indexed; its stake input is built, the origin block is known
and the maturity rule holds, so `CheckProofOfStake` goes on to compute the kernel
hash and reads `pindexPrev->nHeight` through the null pointer that
`mapBlockIndex[999]` returned: no failure value is returned. -/
theorem checkProofOfStake_unknown_parent_failing_input :
    (validationEnv (100 * 10 ^ 8)).mapBlockIndex orphanBlock.hashPrevBlock = none ∧
    initStakeInput (validationEnv (100 * 10 ^ 8)) orphanBlock
      = .ret (some (stakeOfValue (100 * 10 ^ 8))) ∧
    GetHashProofOfStake (validationEnv (100 * 10 ^ 8)) none (stakeOfValue (100 * 10 ^ 8))
      orphanBlock.nTime = .fault ∧
    ProofOfStakeResult.retOf (CheckProofOfStake (validationEnv (100 * 10 ^ 8)) orphanBlock 1500)
      = .fault := by
  refine ⟨rfl, rfl, rfl, rfl⟩

/-- C23: for a non-null previous block `GetHashProofOfStake` returns failure exactly
when the origin block of the stake input is unknown, or `IsStakeModifierV2
(prev.nHeight + 1)` is false and `GetModifier` fails, and otherwise returns a hash;
under the v2 rule a known origin suffices, whatever `GetModifier` gives; and
`CheckStakeKernelHash` returns false whenever `GetHashProofOfStake` fails. -/
theorem getHashProofOfStake_failure_cases (env : Env) (prev : CBlockIndex)
    (stake : CStakeInput) (nTimeTx : Nat) :
    (GetHashProofOfStake env (some prev) stake nTimeTx = .ret none ↔
      (stake.GetIndexFrom = none ∨
        (env.IsStakeModifierV2 (prev.nHeight + 1) = false ∧ stake.GetModifier = none))) ∧
    (GetHashProofOfStake env (some prev) stake nTimeTx = .ret none ∨
      ∃ h, GetHashProofOfStake env (some prev) stake nTimeTx = .ret (some h)) ∧
    (env.IsStakeModifierV2 (prev.nHeight + 1) = true → stake.GetIndexFrom ≠ none →
      ∀ modifier, ∃ h,
        GetHashProofOfStake env (some prev) { stake with GetModifier := modifier } nTimeTx
          = .ret (some h) ∧
        GetHashProofOfStake env (some prev) stake nTimeTx = .ret (some h)) ∧
    (∀ (pindexPrev : Option CBlockIndex) (nBits : Nat),
      GetHashProofOfStake env pindexPrev stake nTimeTx = .ret none →
      CheckStakeKernelHash env pindexPrev nBits stake nTimeTx = .ret (false, none)) := by
  refine ⟨?_, ?_, ?_, ?_⟩
  · cases hfrom : stake.GetIndexFrom with
    | none => simp [GetHashProofOfStake, hfrom]
    | some pindexfrom =>
      cases hv : env.IsStakeModifierV2 (prev.nHeight + 1) with
      | true => simp [GetHashProofOfStake, hfrom, hv]
      | false =>
        cases hm : stake.GetModifier with
        | none => simp [GetHashProofOfStake, hfrom, hv, hm]
        | some md => simp [GetHashProofOfStake, hfrom, hv, hm]
  · cases hfrom : stake.GetIndexFrom with
    | none => simp [GetHashProofOfStake, hfrom]
    | some pindexfrom =>
      cases hv : env.IsStakeModifierV2 (prev.nHeight + 1) with
      | true => simp [GetHashProofOfStake, hfrom, hv]
      | false =>
        cases hm : stake.GetModifier with
        | none => simp [GetHashProofOfStake, hfrom, hv, hm]
        | some md => simp [GetHashProofOfStake, hfrom, hv, hm]
  · intro hv hfrom modifier
    cases hf : stake.GetIndexFrom with
    | none => exact absurd hf hfrom
    | some pindexfrom => simp [GetHashProofOfStake, hf, hv]
  · intro pindexPrev nBits hnone
    unfold CheckStakeKernelHash
    simp [hnone]

/-! ## Modifier checksum and checkpoints (C24, C25) -/

theorem hash_lt (env : Env) (bytes : List Nat) : Hash env bytes < 2 ^ 256 := by
  unfold Hash
  exact Nat.mod_lt _ (by positivity)

/-- C24: for a block `b` with predecessor `p`, `GetStakeModifierChecksum` returns
the top 32 bits (`hash >> 224`) of the hash of `p.nStakeModifierChecksum`,
`b.nFlags`, `b.hashProofOfStake` and `b.nStakeModifier`, a value below `2^32`; two
blocks that agree on these four values have the same checksum. -/
theorem getStakeModifierChecksum_spec (env : Env) (b p : CBlockIndex)
    (rest : List CBlockIndex) :
    GetStakeModifierChecksum env (b :: p :: rest)
      = .ret (Hash env (ser32 p.nStakeModifierChecksum ++ ser32 b.nFlags
          ++ ser256 b.hashProofOfStake ++ ser64 b.nStakeModifier) >>> 224) ∧
    Hash env (ser32 p.nStakeModifierChecksum ++ ser32 b.nFlags
        ++ ser256 b.hashProofOfStake ++ ser64 b.nStakeModifier) >>> 224 < 2 ^ 32 ∧
    (∀ (b' p' : CBlockIndex) (rest' : List CBlockIndex),
      p'.nStakeModifierChecksum = p.nStakeModifierChecksum → b'.nFlags = b.nFlags →
      b'.hashProofOfStake = b.hashProofOfStake → b'.nStakeModifier = b.nStakeModifier →
      GetStakeModifierChecksum env (b' :: p' :: rest')
        = GetStakeModifierChecksum env (b :: p :: rest)) := by
  have hlt : Hash env (ser32 p.nStakeModifierChecksum ++ ser32 b.nFlags
      ++ ser256 b.hashProofOfStake ++ ser64 b.nStakeModifier) >>> 224 < 2 ^ 32 := by
    rw [Nat.shiftRight_eq_div_pow]
    have h := hash_lt env (ser32 p.nStakeModifierChecksum ++ ser32 b.nFlags
      ++ ser256 b.hashProofOfStake ++ ser64 b.nStakeModifier)
    exact Nat.div_lt_of_lt_mul (by
      calc _ < 2 ^ 256 := h
        _ = 2 ^ 224 * 2 ^ 32 := by norm_num)
  have hval : ∀ (b p : CBlockIndex) (rest : List CBlockIndex),
      GetStakeModifierChecksum env (b :: p :: rest)
        = .ret ((Hash env (ser32 p.nStakeModifierChecksum ++ ser32 b.nFlags
            ++ ser256 b.hashProofOfStake ++ ser64 b.nStakeModifier) >>> 224)
              % 2 ^ 64 % 2 ^ 32) := by
    intro b p rest
    simp [GetStakeModifierChecksum]
  refine ⟨?_, hlt, ?_⟩
  · rw [hval, Nat.mod_eq_of_lt (lt_trans hlt (by norm_num)), Nat.mod_eq_of_lt hlt]
  · intro b' p' rest' h1 h2 h3 h4
    rw [hval, hval, h1, h2, h3, h4]

/-- C25: with the checkpoint table `{0 ↦ 0xfd11f4e7}`,
`CheckStakeModifierCheckpoints` returns false if and only if the network is the
main network, the height is 0 and the checksum differs from `0xfd11f4e7`; it
returns true on every other network and at every other height, and leaves the
table as it was. -/
theorem checkStakeModifierCheckpoints_spec (env : Env) (nHeight : Int)
    (nStakeModifierChecksum : Nat) :
    ((CheckStakeModifierCheckpoints env mapStakeModifierCheckpoints nHeight
        nStakeModifierChecksum).1 = false ↔
      (env.fMainNetwork = true ∧ nHeight = 0 ∧ nStakeModifierChecksum ≠ 0xfd11f4e7)) ∧
    (env.fMainNetwork = false →
      (CheckStakeModifierCheckpoints env mapStakeModifierCheckpoints nHeight
        nStakeModifierChecksum).1 = true) ∧
    (nHeight ≠ 0 →
      (CheckStakeModifierCheckpoints env mapStakeModifierCheckpoints nHeight
        nStakeModifierChecksum).1 = true) ∧
    (CheckStakeModifierCheckpoints env mapStakeModifierCheckpoints nHeight
        nStakeModifierChecksum).2 = mapStakeModifierCheckpoints ∧
    mapStakeModifierCheckpoints = [(0, 0xfd11f4e7)] := by
  unfold CheckStakeModifierCheckpoints mapStakeModifierCheckpoints
  cases hmain : env.fMainNetwork with
  | false => simp
  | true =>
    by_cases hh : nHeight = 0
    · subst hh
      simp
    · have hh' : ¬ (0 : Int) = nHeight := fun h => hh h.symm
      simp [hh, hh']

/-! ## Failure of a selection round, order of the candidates, choice of the rule (C27 - C30) -/

theorem examinedCandidates_eq_nil_iff (m : SelectedMap) (stop : Int) :
    ∀ (bs : List CBlockIndex),
      examinedCandidates m stop bs false = [] ↔ ∀ b ∈ bs, m.count b.hashBlock = true := by
  intro bs
  induction bs with
  | nil => simp [examinedCandidates]
  | cons b bs ih =>
    unfold examinedCandidates
    simp only [Bool.false_and, Bool.false_eq_true, if_false]
    by_cases hcount : m.count b.hashBlock = true
    · simp [hcount, ih]
    · simp [hcount]

theorem bestOf_mem (h : CBlockIndex → Nat) (xs : List CBlockIndex) (b : CBlockIndex)
    (hb : bestOf h xs = some b) : b ∈ xs := by
  obtain ⟨pre, post, hxs, _, _⟩ := bestOf_split h xs b hb
  rw [hxs]
  simp

/-- C27: when every candidate hash is in the block index, `SelectBlockFromCandidates`
returns; it returns failure if and only if the candidate list is empty or every
candidate is in the excluded set; on failure the selected block is null, on success
it is a candidate that is not in the excluded set. -/
theorem selectBlockFromCandidates_failure_iff (env : Env) (l : List (Int × Nat))
    (bs : List CBlockIndex) (m : SelectedMap) (stop : Int) (md : Nat)
    (hres : Resolves env l bs) :
    ∃ r, SelectBlockFromCandidates env l m stop md = .ret r ∧
      (r.1 = false ↔ (bs = [] ∨ ∀ b ∈ bs, m.count b.hashBlock = true)) ∧
      (r.1 = false → r.2 = none) ∧
      (r.1 = true → ∃ b, r.2 = some b ∧ b ∈ bs ∧ m.count b.hashBlock = false) := by
  refine ⟨_, selectBlockFromCandidates_eq_bestOf env l bs m stop md hres, ?_, ?_, ?_⟩
  · have hnil := examinedCandidates_eq_nil_iff m stop bs
    constructor
    · intro hr
      right
      apply hnil.mp
      cases hex : examinedCandidates m stop bs false with
      | nil => rfl
      | cons a rest => simp [hex, bestOf] at hr
    · intro hall
      have hex : examinedCandidates m stop bs false = [] := by
        apply hnil.mpr
        rcases hall with rfl | hall
        · simp
        · exact hall
      simp [hex, bestOf]
  · intro hr
    cases hex : examinedCandidates m stop bs false with
    | nil => simp [bestOf]
    | cons a rest => simp [hex, bestOf] at hr
  · intro hr
    cases hbest : bestOf (selectionHash env (selectionRule env bs) md)
        (examinedCandidates m stop bs false) with
    | none => simp [hbest] at hr
    | some b =>
      have hmem := examinedCandidates_mem m stop bs false b (bestOf_mem _ _ b hbest)
      exact ⟨b, rfl, hmem.1, hmem.2⟩

theorem selectBlockFromCandidates_failure_iff_witness :
    Resolves selectionEnv selectionVector selectionBlocks ∧
    ∃ r, SelectBlockFromCandidates selectionEnv selectionVector [] 3500 7 = .ret r ∧
      (r.1 = false ↔ (selectionBlocks = [] ∨ ∀ b ∈ selectionBlocks,
        SelectedMap.count [] b.hashBlock = true)) ∧
      (r.1 = false → r.2 = none) ∧
      (r.1 = true → ∃ b, r.2 = some b ∧ b ∈ selectionBlocks
        ∧ SelectedMap.count [] b.hashBlock = false) :=
  ⟨rfl, selectBlockFromCandidates_failure_iff selectionEnv selectionVector selectionBlocks []
    3500 7 rfl⟩

theorem pairLE_iff (a b : Int × Nat) :
    pairLE a b = true ↔ (a.1 < b.1 ∨ (a.1 = b.1 ∧ a.2 ≤ b.2)) := by
  simp [pairLE]

/-- C28: the vector handed to the selection rounds is a permutation of the collected
`(time, hash)` pairs and is sorted in non-decreasing lexicographic order: of two
entries the earlier one has the smaller time, or the same time and a hash that is
not larger. -/
theorem sortedCandidates_sorted (env : Env) (prev : CBlockIndex) (pprev : List CBlockIndex) :
    (sortedCandidates env prev pprev).Perm
        (collectCandidates (selectionIntervalStart env prev) (prev :: pprev)) ∧
    (sortedCandidates env prev pprev).Pairwise
        (fun a b => a.1 < b.1 ∨ (a.1 = b.1 ∧ a.2 ≤ b.2)) := by
  refine ⟨sortedCandidates_perm env prev pprev, ?_⟩
  unfold sortedCandidates sortPairs
  haveI : IsTotal (Int × Nat) (fun a b => pairLE a b = true) := ⟨by
    intro a b
    simp only [pairLE_iff]
    omega⟩
  haveI : IsTrans (Int × Nat) (fun a b => pairLE a b = true) := ⟨by
    intro a b c hab hbc
    simp only [pairLE_iff] at hab hbc ⊢
    omega⟩
  have hs := List.sorted_insertionSort (fun a b : Int × Nat => pairLE a b = true)
    (collectCandidates (selectionIntervalStart env prev) (prev :: pprev)).reverse
  exact List.Pairwise.imp (fun {a b} h => (pairLE_iff a b).mp h) hs

theorem foldl_consider_fModifierV2 (env : Env) (md : Nat) :
    ∀ (xs : List CBlockIndex) (s : SelectState),
      (xs.foldl (fun st b => st.consider env md b) s).fModifierV2 = s.fModifierV2 := by
  intro xs
  induction xs with
  | nil => intro s; rfl
  | cons x xs ih =>
    intro s
    simp only [List.foldl_cons]
    rw [ih, SelectState.consider_fModifierV2]

/-- The loop of `SelectBlockFromCandidates` over an indexed vector ends with
`fModifierV2` fixed by the first block of the vector. -/
theorem selectLoop_rule (env : Env) (l : List (Int × Nat)) (b0 : CBlockIndex)
    (bs : List CBlockIndex) (m : SelectedMap) (stop : Int) (md : Nat)
    (hres : Resolves env l (b0 :: bs)) :
    ∃ s, selectLoop env m stop md l SelectState.init = .ret (true, s) ∧
      s.fModifierV2 = decide (b0.nHeight ≥ env.ModifierUpgradeBlock) := by
  cases l with
  | nil => simp [Resolves] at hres
  | cons item rest =>
    have hb : env.mapBlockIndex item.2 = some (some b0) := by
      simp only [Resolves, List.map_cons, List.cons.injEq] at hres
      exact hres.1
    have h1 : (SelectState.init.firstRun env b0).fFirstRun = false := by
      simp [SelectState.firstRun, SelectState.init]
    have h4 : (SelectState.init.firstRun env b0).fModifierV2
        = decide (b0.nHeight ≥ env.ModifierUpgradeBlock) := by
      simp [SelectState.firstRun, SelectState.init]
    have hloop := selectLoop_eq_foldl env m stop md (b0 :: bs) (item :: rest)
      (SelectState.init.firstRun env b0) hres h1
    rw [← selectLoop_init env m stop md item rest b0 hb] at hloop
    exact ⟨_, hloop, by rw [foldl_consider_fModifierV2, h4]⟩

/-- C29: in one call of `ComputeNextStakeModifier`, whose rounds all run
`SelectBlockFromCandidates` on the sorted vector, the loop of every round ends with
`fModifierV2` equal to "the height of the first block of the vector is at least
`ModifierUpgradeBlock`", whatever the excluded set and the stop time are, and the
round selects by the selection hash of that rule; so the block picked in each round
of a completed selection is the best one under this one rule. -/
theorem selection_rule_fixed (env : Env) (prev : CBlockIndex) (pprev : List CBlockIndex)
    (b0 : CBlockIndex) (bs : List CBlockIndex) (md : Nat)
    (hres : Resolves env (sortedCandidates env prev pprev) (b0 :: bs)) :
    (∀ (m : SelectedMap) (stop : Int),
      (∃ s, selectLoop env m stop md (sortedCandidates env prev pprev) SelectState.init
            = .ret (true, s) ∧
          s.fModifierV2 = decide (b0.nHeight ≥ env.ModifierUpgradeBlock)) ∧
      SelectBlockFromCandidates env (sortedCandidates env prev pprev) m stop md
        = .ret ((bestOf (selectionHash env
                    (decide (b0.nHeight ≥ env.ModifierUpgradeBlock)) md)
                  (examinedCandidates m stop (b0 :: bs) false)).isSome,
                bestOf (selectionHash env
                    (decide (b0.nHeight ≥ env.ModifierUpgradeBlock)) md)
                  (examinedCandidates m stop (b0 :: bs) false))) ∧
    (∀ (k : Nat) (stop : Int) (new' : Nat) (m' : SelectedMap),
      selectionRounds env (sortedCandidates env prev pprev) md k 0 0 stop []
        = .ret (some (new', m')) →
      k ≤ 64 →
      ∃ picked : List CBlockIndex, picked.length = k ∧
        ∀ (i : Nat) (hi : i < picked.length),
          bestOf (selectionHash env (decide (b0.nHeight ≥ env.ModifierUpgradeBlock)) md)
            (examinedCandidates ((picked.take i).map selectedEntry)
              (roundStop env stop 0 i) (b0 :: bs) false) = some picked[i]) := by
  have hsel : ∀ (m : SelectedMap) (stop : Int),
      SelectBlockFromCandidates env (sortedCandidates env prev pprev) m stop md
        = .ret ((bestOf (selectionHash env
                    (decide (b0.nHeight ≥ env.ModifierUpgradeBlock)) md)
                  (examinedCandidates m stop (b0 :: bs) false)).isSome,
                bestOf (selectionHash env
                    (decide (b0.nHeight ≥ env.ModifierUpgradeBlock)) md)
                  (examinedCandidates m stop (b0 :: bs) false)) := by
    intro m stop
    exact selectBlockFromCandidates_eq_bestOf env _ (b0 :: bs) m stop md hres
  refine ⟨fun m stop => ⟨selectLoop_rule env _ b0 bs m stop md hres, hsel m stop⟩, ?_⟩
  intro k stop new' m' hrun hk
  obtain ⟨picked, hlen, _, hpick, _, _⟩ :=
    selectionRounds_trace env _ md k 0 0 stop [] new' m' hrun (by omega)
  refine ⟨picked, hlen, ?_⟩
  intro i hi
  have h := hpick i hi
  rw [hsel] at h
  simp only [List.nil_append, Exec.ret.injEq, Prod.mk.injEq] at h
  exact h.2

theorem selection_rule_fixed_witness :
    Resolves selectionEnv
      (sortedCandidates selectionEnv
        { hashBlock := 203, nHeight := 3, nTime := 4000, fStakeEntropyBit := true }
        selectionChain.tail)
      selectionBlocks ∧
    (∀ (m : SelectedMap) (stop : Int),
      (∃ s, selectLoop selectionEnv m stop 77
            (sortedCandidates selectionEnv
              { hashBlock := 203, nHeight := 3, nTime := 4000, fStakeEntropyBit := true }
              selectionChain.tail)
            SelectState.init = .ret (true, s) ∧
          s.fModifierV2 = false) ∧
      SelectBlockFromCandidates selectionEnv
          (sortedCandidates selectionEnv
            { hashBlock := 203, nHeight := 3, nTime := 4000, fStakeEntropyBit := true }
            selectionChain.tail) m stop 77
        = .ret ((bestOf (selectionHash selectionEnv false 77)
                  (examinedCandidates m stop selectionBlocks false)).isSome,
                bestOf (selectionHash selectionEnv false 77)
                  (examinedCandidates m stop selectionBlocks false))) :=
  ⟨rfl, (selection_rule_fixed selectionEnv
    { hashBlock := 203, nHeight := 3, nTime := 4000, fStakeEntropyBit := true }
    selectionChain.tail
    { hashBlock := 201, nHeight := 1, nTime := 3000, fGeneratedStakeModifier := true,
      fStakeEntropyBit := true, nStakeModifier := 77 }
    [{ hashBlock := 202, nHeight := 2, nTime := 3990, fProofOfStake := true },
     { hashBlock := 203, nHeight := 3, nTime := 4000, fStakeEntropyBit := true }] 77 rfl).1⟩

/-- C30: on `skewChain` the sorted vector starts with the block of height 3 while
the candidate of lowest height is the block of height 2, so
`SelectBlockFromCandidates` takes the v2 rule although the lowest candidate is below
`ModifierUpgradeBlock`; the first round then picks block 10, where the v1 rule picks
block 20, and the modifier computed is 2. -/
theorem selection_rule_lowest_height_failing_input :
    sortedCandidates skewEnv { hashBlock := 30, nHeight := 4, nTime := 3000 } skewChain.tail
      = [(920, 20), (925, 10), (3000, 30)] ∧
    Resolves skewEnv [(920, 20), (925, 10), (3000, 30)] skewBlocks ∧
    skewBlocks.map (fun b => b.nHeight) = [3, 2, 4] ∧
    skewEnv.ModifierUpgradeBlock = 3 ∧
    selectionRule skewEnv skewBlocks = true ∧
    SelectBlockFromCandidates skewEnv [(920, 20), (925, 10), (3000, 30)] [] 933 7
      = .ret (true, some { hashBlock := 10, nHeight := 2, nTime := 925, fProofOfStake := true }) ∧
    bestOf (selectionHash skewEnv false 7) (examinedCandidates [] 933 skewBlocks false)
      = some { hashBlock := 20, nHeight := 3, nTime := 920, fProofOfStake := true,
               fStakeEntropyBit := true } ∧
    ComputeNextStakeModifier skewEnv skewChain
      = .ret { ret := true, nStakeModifier := 2, fGeneratedStakeModifier := true } := by
  refine ⟨by decide, rfl, by decide, by decide, by decide, by decide, by decide, by decide⟩

/-! ## Staking loop (C26) -/

theorem getHashProofOfStake_is_hash (env : Env) (prev : CBlockIndex) (stake : CStakeInput)
    (t : Nat) :
    GetHashProofOfStake env (some prev) stake t = .ret none ∨
    ∃ bytes, GetHashProofOfStake env (some prev) stake t = .ret (some (Hash env bytes)) := by
  unfold GetHashProofOfStake
  cases hfrom : stake.GetIndexFrom with
  | none => left; rfl
  | some from_ =>
    cases hv : env.IsStakeModifierV2 (prev.nHeight + 1) with
    | true =>
      right
      refine ⟨ser256 prev.nStakeModifierV2 ++ ser32 from_.nTime ++ stake.GetUniqueness
        ++ ser32 t, ?_⟩
      simp [hv]
    | false =>
      cases hm : stake.GetModifier with
      | none => left; simp [hv, hm]
      | some md =>
        right
        refine ⟨ser64 md ++ ser32 from_.nTime ++ stake.GetUniqueness ++ ser32 t, ?_⟩
        simp [hv, hm]

theorem checkStakeKernelHash_cases (env : Env) (prev : CBlockIndex) (nBits : Nat)
    (stake : CStakeInput) (t : Nat) :
    CheckStakeKernelHash env (some prev) nBits stake t = .ret (false, none) ∨
    ∃ bytes, CheckStakeKernelHash env (some prev) nBits stake t
      = .ret (decide (Hash env bytes < weightedTarget nBits stake.GetValue),
          some (Hash env bytes)) := by
  rcases getHashProofOfStake_is_hash env prev stake t with h | ⟨bytes, h⟩
  · left; simp [CheckStakeKernelHash, h]
  · right; exact ⟨bytes, checkStakeKernelHash_of_hash env _ nBits stake t _ h⟩

theorem checkStakeKernelHash_returns (env : Env) (prev : CBlockIndex) (nBits : Nat)
    (stake : CStakeInput) (t : Nat) :
    ∃ b w, CheckStakeKernelHash env (some prev) nBits stake t = .ret (b, w) := by
  rcases checkStakeKernelHash_cases env prev nBits stake t with h | ⟨bytes, h⟩
  · exact ⟨_, _, h⟩
  · exact ⟨_, _, h⟩

theorem stakeLoop_zero (env : Env) (world : StakeWorld) (pindexPrev : Option CBlockIndex)
    (nBits : Nat) (stake : CStakeInput) (i : Nat) (s : StakeState) :
    stakeLoop env world pindexPrev nBits stake 0 i s = .ret s := rfl

theorem stakeLoop_moved (env : Env) (world : StakeWorld) (pindexPrev : Option CBlockIndex)
    (nBits : Nat) (stake : CStakeInput) (n i : Nat) (s : StakeState)
    (hH : world.Height i ≠ world.nHeightStart) :
    stakeLoop env world pindexPrev nBits stake (n + 1) i s = .ret s := by
  simp [stakeLoop, hH]

theorem stakeLoop_fail (env : Env) (world : StakeWorld) (pindexPrev : Option CBlockIndex)
    (nBits : Nat) (stake : CStakeInput) (n i : Nat) (s : StakeState) (w : Option Nat)
    (hH : world.Height i = world.nHeightStart)
    (hc : CheckStakeKernelHash env pindexPrev nBits stake
      ((s.nTimeTx + GrindWindow - i) % 2 ^ 32) = .ret (false, w)) :
    stakeLoop env world pindexPrev nBits stake (n + 1) i s
      = if i = GrindWindow - 1 ∧ s.fSuccess = false then
          stakeLoop env world pindexPrev nBits stake n (i + 1)
            { s with hashProofOfStake := w.orElse (fun _ => s.hashProofOfStake),
                     effects := s.effects ++ grindStaleInput world stake }
        else
          stakeLoop env world pindexPrev nBits stake n (i + 1)
            { s with hashProofOfStake := w.orElse (fun _ => s.hashProofOfStake) } := by
  rw [stakeLoop]
  simp only [hH, ne_eq, not_true_eq_false, if_false, hc]

theorem stakeLoop_pass (env : Env) (world : StakeWorld) (pindexPrev : Option CBlockIndex)
    (nBits : Nat) (stake : CStakeInput) (n i : Nat) (s : StakeState) (w : Option Nat)
    (hH : world.Height i = world.nHeightStart)
    (hc : CheckStakeKernelHash env pindexPrev nBits stake
      ((s.nTimeTx + GrindWindow - i) % 2 ^ 32) = .ret (true, w)) :
    stakeLoop env world pindexPrev nBits stake (n + 1) i s
      = stakeLoop env world pindexPrev nBits stake n (i + 1)
          { s with hashProofOfStake := w.orElse (fun _ => s.hashProofOfStake),
                   fSuccess := true, nTimeTx := (s.nTimeTx + GrindWindow - i) % 2 ^ 32 } := by
  rw [stakeLoop]
  simp only [hH, ne_eq, not_true_eq_false, if_false, hc]

theorem roundStop_eq_sum (env : Env) (stop : Int) (r : Nat) :
    roundStop env stop 0 r
      = stop + Finset.sum (Finset.range (r + 1)) (fun k => sectionLength env (k : Int)) := by
  induction r with
  | zero => simp [roundStop]
  | succ r ih =>
    rw [roundStop, ih, Finset.sum_range_succ _ (r + 1)]
    simp only [Nat.zero_add]
    ring

/-- A run of `k + j` rounds is a run of `k` rounds followed by `j` rounds from the
state reached, the stop time having advanced by the sections of the `k` rounds. -/
theorem selectionRounds_add (env : Env) (l : List (Int × Nat)) (md : Nat) :
    ∀ (k j nRound new : Nat) (stop : Int) (m : SelectedMap),
      selectionRounds env l md (k + j) nRound new stop m =
        match selectionRounds env l md k nRound new stop m with
        | .fault => .fault
        | .ret none => .ret none
        | .ret (some (new', m')) =>
          selectionRounds env l md j (nRound + k) new'
            (stop + Finset.sum (Finset.range k)
              (fun i => sectionLength env ((nRound + i : Nat) : Int))) m' := by
  intro k
  induction k with
  | zero =>
    intro j nRound new stop m
    simp [selectionRounds_zero]
  | succ k ih =>
    intro j nRound new stop m
    have hkj : k + 1 + j = (k + j) + 1 := by omega
    rw [hkj, selectionRounds_succ, selectionRounds_succ]
    cases hsec : GetStakeModifierSelectionIntervalSection env nRound with
    | fault => rfl
    | ret v =>
      have hv := getSection_ret env nRound v hsec
      subst hv
      simp only []
      cases hsel : SelectBlockFromCandidates env l m (stop + sectionLength env nRound) md with
      | fault => rfl
      | ret p =>
        obtain ⟨flag, o⟩ := p
        cases flag with
        | false => rfl
        | true =>
          cases o with
          | none => rfl
          | some pindex =>
            simp only []
            rw [ih]
            have hsum : stop + sectionLength env nRound
                + Finset.sum (Finset.range k)
                    (fun i => sectionLength env ((nRound + 1 + i : Nat) : Int))
                = stop + Finset.sum (Finset.range (k + 1))
                    (fun i => sectionLength env ((nRound + i : Nat) : Int)) := by
              rw [Finset.sum_range_succ' _ k]
              simp only [Nat.add_zero]
              have : ∀ i : Nat, nRound + 1 + i = nRound + (i + 1) := by intro i; omega
              simp only [this]
              ring
            rw [hsum]
            have hn : nRound + 1 + k = nRound + (k + 1) := by omega
            rw [hn]

theorem computeNextStakeModifier_selection_branch (env : Env) (prev : CBlockIndex)
    (pprev : List CBlockIndex) (nStakeModifier : Nat) (nModifierTime : Int)
    (hheight : prev.nHeight ≠ 0)
    (hlast : GetLastStakeModifier (prev :: pprev) = some (nStakeModifier, nModifierTime))
    (hMI : env.MODIFIER_INTERVAL ≠ 0)
    (hlt : ¬ nModifierTime.tdiv env.MODIFIER_INTERVAL
        ≥ prev.GetBlockTime.tdiv env.MODIFIER_INTERVAL) :
    ComputeNextStakeModifier env (prev :: pprev) =
      match selectionRounds env (sortedCandidates env prev pprev) nStakeModifier
          (min 64 (sortedCandidates env prev pprev).length) 0 0
          (selectionIntervalStart env prev) [] with
      | .fault => .fault
      | .ret none =>
        .ret { ret := false, nStakeModifier := nStakeModifier, fGeneratedStakeModifier := false }
      | .ret (some (nStakeModifierNew, _)) =>
        .ret { ret := true, nStakeModifier := nStakeModifierNew,
               fGeneratedStakeModifier := true } := by
  unfold ComputeNextStakeModifier
  simp only [hheight, if_false, hlast, hMI, hlt]

/-- C31: in the selection branch of `ComputeNextStakeModifier` the rounds are run
with the modifier returned by `GetLastStakeModifier`; and when the rounds before
round `r` (`r < min 64 n`) have selected their blocks, round `r` calls
`SelectBlockFromCandidates` with that modifier and the stop time
`selection start + Σ_{k=0..r} section(k)`, where `section(k)` is
`MODIFIER_INTERVAL * 63 / (63 + (63 - k) * (MODIFIER_INTERVAL_RATIO - 1))` in the
truncating division of the language. -/
theorem computeNextStakeModifier_round_stop (env : Env) (prev : CBlockIndex)
    (pprev : List CBlockIndex) (nStakeModifier : Nat) (nModifierTime : Int)
    (hheight : prev.nHeight ≠ 0)
    (hlast : GetLastStakeModifier (prev :: pprev) = some (nStakeModifier, nModifierTime))
    (hMI : env.MODIFIER_INTERVAL ≠ 0)
    (hlt : ¬ nModifierTime.tdiv env.MODIFIER_INTERVAL
        ≥ prev.GetBlockTime.tdiv env.MODIFIER_INTERVAL) :
    (ComputeNextStakeModifier env (prev :: pprev) =
      match selectionRounds env (sortedCandidates env prev pprev) nStakeModifier
          (min 64 (sortedCandidates env prev pprev).length) 0 0
          (selectionIntervalStart env prev) [] with
      | .fault => .fault
      | .ret none =>
        .ret { ret := false, nStakeModifier := nStakeModifier, fGeneratedStakeModifier := false }
      | .ret (some (nStakeModifierNew, _)) =>
        .ret { ret := true, nStakeModifier := nStakeModifierNew,
               fGeneratedStakeModifier := true }) ∧
    ∀ (r : Nat) (new' : Nat) (m' : SelectedMap),
      r < min 64 (sortedCandidates env prev pprev).length →
      selectionRounds env (sortedCandidates env prev pprev) nStakeModifier r 0 0
        (selectionIntervalStart env prev) [] = .ret (some (new', m')) →
      selectionRounds env (sortedCandidates env prev pprev) nStakeModifier
          (min 64 (sortedCandidates env prev pprev).length) 0 0
          (selectionIntervalStart env prev) [] =
        match GetStakeModifierSelectionIntervalSection env r with
        | .fault => .fault
        | .ret _ =>
          match SelectBlockFromCandidates env (sortedCandidates env prev pprev) m'
              (selectionIntervalStart env prev
                + Finset.sum (Finset.range (r + 1)) (fun k =>
                    (env.MODIFIER_INTERVAL * 63).tdiv
                      (63 + (63 - (k : Int)) * ( Env.MODIFIER_INTERVAL_RATIO env - 1))))
              nStakeModifier with
          | .fault => .fault
          | .ret (false, _) => .ret none
          | .ret (true, none) => .fault
          | .ret (true, some pindex) =>
            selectionRounds env (sortedCandidates env prev pprev) nStakeModifier
              (min 64 (sortedCandidates env prev pprev).length - (r + 1)) (r + 1)
              (new' ||| ((pindex.GetStakeEntropyBit <<< r) % 2 ^ 64))
              (selectionIntervalStart env prev
                + Finset.sum (Finset.range (r + 1)) (fun k =>
                    (env.MODIFIER_INTERVAL * 63).tdiv
                      (63 + (63 - (k : Int)) * ( Env.MODIFIER_INTERVAL_RATIO env - 1))))
              (m'.insert pindex.hashBlock pindex) := by
  refine ⟨computeNextStakeModifier_selection_branch env prev pprev nStakeModifier nModifierTime
    hheight hlast hMI hlt, ?_⟩
  intro r new' m' hr hdone
  have hK : min 64 (sortedCandidates env prev pprev).length
      = r + ((min 64 (sortedCandidates env prev pprev).length - (r + 1)) + 1) := by omega
  have hsum : Finset.sum (Finset.range (r + 1)) (fun k =>
        (env.MODIFIER_INTERVAL * 63).tdiv
          (63 + (63 - (k : Int)) * ( Env.MODIFIER_INTERVAL_RATIO env - 1)))
      = Finset.sum (Finset.range r) (fun i => sectionLength env ((0 + i : Nat) : Int))
        + sectionLength env r := by
    rw [Finset.sum_range_succ]
    simp [sectionLength, sectionDivisor]
  generalize min 64 (sortedCandidates env prev pprev).length - (r + 1) = j at hK ⊢
  rw [hK, selectionRounds_add, hdone]
  simp only [Nat.zero_add]
  rw [selectionRounds_succ]
  cases hsec : GetStakeModifierSelectionIntervalSection env r with
  | fault => rfl
  | ret v =>
    have hv := getSection_ret env r v hsec
    subst hv
    simp only [Nat.zero_add] at hsum
    rw [hsum, ← add_assoc]

theorem computeNextStakeModifier_round_stop_witness :
    (3 : Int) ≠ 0 ∧
    GetLastStakeModifier selectionChain = some (77, 3000) ∧
    selectionEnv.MODIFIER_INTERVAL ≠ 0 ∧
    ¬ ((3000 : Int).tdiv selectionEnv.MODIFIER_INTERVAL
        ≥ (4000 : Int).tdiv selectionEnv.MODIFIER_INTERVAL) ∧
    selectionRounds selectionEnv selectionVector 77 1 0 0 1873 []
      = .ret (some (1, [(201, { hashBlock := 201, nHeight := 1, nTime := 3000,
                                fGeneratedStakeModifier := true, fStakeEntropyBit := true,
                                nStakeModifier := 77 })])) ∧
    selectionRounds selectionEnv selectionVector 77 3 0 0 1873 []
      = selectionRounds selectionEnv selectionVector 77 1 2 1 (1873 + (20 + 20))
          [(201, { hashBlock := 201, nHeight := 1, nTime := 3000,
                   fGeneratedStakeModifier := true, fStakeEntropyBit := true,
                   nStakeModifier := 77 }),
           (202, { hashBlock := 202, nHeight := 2, nTime := 3990, fProofOfStake := true })] :=
  ⟨by decide, by decide, by decide, by decide, by decide,
   (computeNextStakeModifier_round_stop selectionEnv
      { hashBlock := 203, nHeight := 3, nTime := 4000, fStakeEntropyBit := true }
      selectionChain.tail 77 3000 (by decide) (by decide) (by decide) (by decide)).2 1 1
      [(201, { hashBlock := 201, nHeight := 1, nTime := 3000,
               fGeneratedStakeModifier := true, fStakeEntropyBit := true,
               nStakeModifier := 77 })]
      (by decide) (by decide)⟩

theorem getLastStakeModifier_eq_none_iff (chain : List CBlockIndex) :
    GetLastStakeModifier chain = none ↔
      ∀ b ∈ chain, b.fGeneratedStakeModifier = false := by
  induction chain with
  | nil => simp [GetLastStakeModifier]
  | cons b rest ih =>
    cases rest with
    | nil =>
      cases hb : b.fGeneratedStakeModifier <;> simp [GetLastStakeModifier, hb]
    | cons c rest =>
      cases hb : b.fGeneratedStakeModifier with
      | false =>
        simp only [GetLastStakeModifier, hb, Bool.not_false, if_true]
        rw [ih]
        simp [hb]
      | true => simp [GetLastStakeModifier, hb]

theorem getLastStakeModifier_some (chain : List CBlockIndex) (r : Nat × Int)
    (h : GetLastStakeModifier chain = some r) :
    ∃ pre g post, chain = pre ++ g :: post ∧
      (∀ b ∈ pre, b.fGeneratedStakeModifier = false) ∧
      g.fGeneratedStakeModifier = true ∧ r = (g.nStakeModifier, g.GetBlockTime) := by
  induction chain with
  | nil => simp [GetLastStakeModifier] at h
  | cons b rest ih =>
    cases hb : b.fGeneratedStakeModifier with
    | true =>
      refine ⟨[], b, rest, rfl, by simp, hb, ?_⟩
      have := getLastStakeModifier_nearest [] rest b (by simp) hb
      simp only [List.nil_append] at this
      rw [this] at h
      exact (Option.some.inj h).symm
    | false =>
      cases rest with
      | nil => simp [GetLastStakeModifier, hb] at h
      | cons c rest =>
        simp only [GetLastStakeModifier, hb, Bool.not_false, if_true] at h
        obtain ⟨pre, g, post, hc, hpre, hg, hr⟩ := ih h
        refine ⟨b :: pre, g, post, by simp [hc], ?_, hg, hr⟩
        intro x hx
        rcases List.mem_cons.mp hx with rfl | hx
        · exact hb
        · exact hpre x hx

/-- C32: `GetLastStakeModifier` is defined on every chain (the list of a block and
its ancestors). It fails exactly on the null pointer and on a chain without a block
that has the generated-modifier flag. On a chain `pre ++ g :: post` where `g` has the
flag and no block of `pre` has it, it returns the modifier and the block time of
`g`; and every value it returns is the one of such a nearest flagged block. -/
theorem getLastStakeModifier_spec (chain : List CBlockIndex) :
    (GetLastStakeModifier chain = none ↔
      (chain = [] ∨ ∀ b ∈ chain, b.fGeneratedStakeModifier = false)) ∧
    (∀ pre g post, chain = pre ++ g :: post →
      (∀ b ∈ pre, b.fGeneratedStakeModifier = false) → g.fGeneratedStakeModifier = true →
      GetLastStakeModifier chain = some (g.nStakeModifier, g.GetBlockTime)) ∧
    (∀ r, GetLastStakeModifier chain = some r →
      ∃ pre g post, chain = pre ++ g :: post ∧
        (∀ b ∈ pre, b.fGeneratedStakeModifier = false) ∧
        g.fGeneratedStakeModifier = true ∧ r = (g.nStakeModifier, g.GetBlockTime)) := by
  refine ⟨?_, ?_, getLastStakeModifier_some chain⟩
  · rw [getLastStakeModifier_eq_none_iff]
    constructor
    · intro h; exact Or.inr h
    · rintro (rfl | h)
      · simp
      · exact h
  · intro pre g post hc hpre hg
    rw [hc]
    exact getLastStakeModifier_nearest pre post g hpre hg

/-! ## Selection never fails; the selected blocks are distinct candidates (C33, C34) -/

/-- With indexed candidates of pairwise distinct hashes and room for the remaining
rounds, the loop of rounds is never left by the return of an error. -/
theorem selectionRounds_ne_none (env : Env) (l : List (Int × Nat)) (md : Nat)
    (hidx : CandidatesIndexed env l) (hnodup : (l.map Prod.snd).Nodup) :
    ∀ (k nRound new : Nat) (stop : Int) (m : SelectedMap),
      m.length + k ≤ l.length →
      selectionRounds env l md k nRound new stop m ≠ .ret none := by
  intro k
  induction k with
  | zero => intro nRound new stop m _; simp [selectionRounds_zero]
  | succ k ih =>
    intro nRound new stop m hlen
    rw [selectionRounds_succ]
    cases hsec : GetStakeModifierSelectionIntervalSection env nRound with
    | fault => simp
    | ret v =>
      obtain ⟨b, hb⟩ := selectBlockFromCandidates_selects env l m (stop + v) md hidx
        (exists_candidate_not_excluded l m hnodup (by omega))
      simp only [hb]
      have hl := SelectedMap.length_insert_le m b.hashBlock b
      exact ih (nRound + 1) _ _ _ (by omega)

theorem selectionIntervalStart_le (env : Env) (prev : CBlockIndex)
    (hMI : 0 < env.MODIFIER_INTERVAL) :
    selectionIntervalStart env prev ≤ prev.GetBlockTime := by
  unfold selectionIntervalStart OLD_MODIFIER_INTERVAL
  have ht : (0 : Int) ≤ prev.GetBlockTime := by
    unfold CBlockIndex.GetBlockTime
    exact Int.ofNat_nonneg _
  rw [Int.tdiv_eq_ediv ht (le_of_lt hMI)]
  have := Int.ediv_mul_le prev.GetBlockTime (ne_of_gt hMI)
  omega

theorem prev_mem_sortedCandidates (env : Env) (prev : CBlockIndex) (pprev : List CBlockIndex)
    (hstart : selectionIntervalStart env prev ≤ prev.GetBlockTime) :
    (prev.GetBlockTime, prev.hashBlock) ∈ sortedCandidates env prev pprev := by
  rw [(sortedCandidates_perm env prev pprev).mem_iff]
  unfold collectCandidates
  simp [hstart]

/-- C33: for a previous block of height at least 1 (its time is an unsigned field,
so it is not negative), with `MODIFIER_INTERVAL > 0`, the previous block is at or
after the selection start and is a candidate, so at least one round runs. If the candidates are indexed and have
pairwise distinct hashes, `SelectBlockFromCandidates` succeeds whenever fewer blocks
are excluded than there are candidates, the rounds never end in the error return,
and a failure return of `ComputeNextStakeModifier` comes from
`GetLastStakeModifier`; with `MODIFIER_INTERVAL_RATIO ≥ 1` and a last modifier the
call returns success. -/
theorem computeNextStakeModifier_selection_never_fails (env : Env) (prev : CBlockIndex)
    (pprev : List CBlockIndex) (hheight : 1 ≤ prev.nHeight)
    (hMI : 0 < env.MODIFIER_INTERVAL)
    (hidx : CandidatesIndexed env (sortedCandidates env prev pprev))
    (hnodup : ((sortedCandidates env prev pprev).map Prod.snd).Nodup) :
    selectionIntervalStart env prev ≤ prev.GetBlockTime ∧
    (prev.GetBlockTime, prev.hashBlock) ∈ sortedCandidates env prev pprev ∧
    1 ≤ min 64 (sortedCandidates env prev pprev).length ∧
    (∀ (m : SelectedMap) (stop : Int) (md : Nat),
      m.length < (sortedCandidates env prev pprev).length →
      ∃ b, SelectBlockFromCandidates env (sortedCandidates env prev pprev) m stop md
        = .ret (true, some b)) ∧
    (∀ md, selectionRounds env (sortedCandidates env prev pprev) md
        (min 64 (sortedCandidates env prev pprev).length) 0 0
        (selectionIntervalStart env prev) [] ≠ .ret none) ∧
    (∀ r, ComputeNextStakeModifier env (prev :: pprev) = .ret r → r.ret = false →
      GetLastStakeModifier (prev :: pprev) = none) ∧
    (1 ≤ Env.MODIFIER_INTERVAL_RATIO env → GetLastStakeModifier (prev :: pprev) ≠ none →
      ∃ r, ComputeNextStakeModifier env (prev :: pprev) = .ret r ∧ r.ret = true) := by
  have hstart := selectionIntervalStart_le env prev hMI
  have hmem := prev_mem_sortedCandidates env prev pprev hstart
  have hlen : 1 ≤ (sortedCandidates env prev pprev).length := List.length_pos_of_mem hmem
  have hh : prev.nHeight ≠ 0 := by omega
  have hMI' : env.MODIFIER_INTERVAL ≠ 0 := ne_of_gt hMI
  have hnone := fun md => selectionRounds_ne_none env (sortedCandidates env prev pprev) md
    hidx hnodup (min 64 (sortedCandidates env prev pprev).length) 0 0
    (selectionIntervalStart env prev) [] (by simp)
  refine ⟨hstart, hmem, by omega, ?_, hnone, ?_, ?_⟩
  · intro m stop md hm
    exact selectBlockFromCandidates_selects env _ m stop md hidx
      (exists_candidate_not_excluded _ m hnodup hm)
  · intro r hr hfalse
    cases hlast : GetLastStakeModifier (prev :: pprev) with
    | none => rfl
    | some p =>
      exfalso
      obtain ⟨md, t⟩ := p
      by_cases hlt : t.tdiv env.MODIFIER_INTERVAL ≥ prev.GetBlockTime.tdiv env.MODIFIER_INTERVAL
      · have hval : ComputeNextStakeModifier env (prev :: pprev)
            = .ret { ret := true, nStakeModifier := md, fGeneratedStakeModifier := false } := by
          unfold ComputeNextStakeModifier
          simp only [hh, if_false, hlast, hMI', hlt, if_true]
        rw [hval] at hr
        cases hr
        simp at hfalse
      · rw [computeNextStakeModifier_selection_branch env prev pprev md t hh hlast hMI' hlt]
          at hr
        cases hrounds : selectionRounds env (sortedCandidates env prev pprev) md
            (min 64 (sortedCandidates env prev pprev).length) 0 0
            (selectionIntervalStart env prev) [] with
        | fault => simp [hrounds] at hr
        | ret o =>
          cases o with
          | none => exact hnone md hrounds
          | some q =>
            obtain ⟨new', m'⟩ := q
            simp only [hrounds] at hr
            cases hr
            simp at hfalse
  · intro hR hlast
    cases hl : GetLastStakeModifier (prev :: pprev) with
    | none => exact absurd hl hlast
    | some p =>
      obtain ⟨md, t⟩ := p
      by_cases hlt : t.tdiv env.MODIFIER_INTERVAL ≥ prev.GetBlockTime.tdiv env.MODIFIER_INTERVAL
      · refine ⟨{ ret := true, nStakeModifier := md, fGeneratedStakeModifier := false }, ?_, rfl⟩
        unfold ComputeNextStakeModifier
        simp only [hh, if_false, hl, hMI', hlt, if_true]
      · obtain ⟨q, hq⟩ := selectionRounds_succeeds env (sortedCandidates env prev pprev) md hR
          hidx hnodup (min 64 (sortedCandidates env prev pprev).length) 0 0
          (selectionIntervalStart env prev) [] (by simp) (by simp)
        refine ⟨{ ret := true, nStakeModifier := q.1, fGeneratedStakeModifier := true }, ?_, rfl⟩
        rw [computeNextStakeModifier_selection_branch env prev pprev md t hh hl hMI' hlt, hq]

theorem computeNextStakeModifier_selection_never_fails_witness :
    (1 : Int) ≤ 3 ∧ (0 : Int) < selectionEnv.MODIFIER_INTERVAL ∧
    ((sortedCandidates selectionEnv
      { hashBlock := 203, nHeight := 3, nTime := 4000, fStakeEntropyBit := true }
      selectionChain.tail).map Prod.snd).Nodup ∧
    ∃ r, ComputeNextStakeModifier selectionEnv selectionChain = .ret r ∧ r.ret = true :=
  ⟨by decide, by decide, by decide,
   (computeNextStakeModifier_selection_never_fails selectionEnv
      { hashBlock := 203, nHeight := 3, nTime := 4000, fStakeEntropyBit := true }
      selectionChain.tail (by decide) (by decide)
      (sortedCandidates_indexed selectionEnv _ selectionChain.tail (by decide))
      (by decide)).2.2.2.2.2.2 (by decide) (by decide)⟩

theorem resolves_of_indexed (env : Env) :
    ∀ (l : List (Int × Nat)), CandidatesIndexed env l →
      ∃ bs, Resolves env l bs ∧
        ∀ b ∈ bs, ∃ item ∈ l, env.mapBlockIndex item.2 = some (some b) := by
  intro l
  induction l with
  | nil => intro _; exact ⟨[], rfl, by simp⟩
  | cons item rest ih =>
    intro hidx
    obtain ⟨b, hb, _⟩ := hidx item (List.mem_cons_self _ _)
    obtain ⟨bs, hres, hmem⟩ := ih (fun it hit => hidx it (List.mem_cons_of_mem _ hit))
    refine ⟨b :: bs, ?_, ?_⟩
    · unfold Resolves at hres ⊢
      simp only [List.map_cons, hb, hres]
    · intro c hc
      rcases List.mem_cons.mp hc with rfl | hc
      · exact ⟨item, List.mem_cons_self _ _, hb⟩
      · obtain ⟨it, hit, hmap⟩ := hmem c hc
        exact ⟨it, List.mem_cons_of_mem _ hit, hmap⟩

/-- A block selected from indexed candidates carries the hash of a candidate. -/
theorem selectBlockFromCandidates_hash_mem (env : Env) (l : List (Int × Nat))
    (m : SelectedMap) (stop : Int) (md : Nat) (p : CBlockIndex)
    (hidx : CandidatesIndexed env l)
    (hsel : SelectBlockFromCandidates env l m stop md = .ret (true, some p)) :
    p.hashBlock ∈ l.map Prod.snd := by
  obtain ⟨bs, hres, hmem⟩ := resolves_of_indexed env l hidx
  rw [selectBlockFromCandidates_eq_bestOf env l bs m stop md hres] at hsel
  simp only [Exec.ret.injEq, Prod.mk.injEq] at hsel
  have hp := (examinedCandidates_mem m stop bs false p (bestOf_mem _ _ p hsel.2)).1
  obtain ⟨item, hitem, hmap⟩ := hmem p hp
  obtain ⟨b, hb, hhash⟩ := hidx item hitem
  rw [hmap] at hb
  simp only [Option.some.injEq] at hb
  subst hb
  exact List.mem_map.mpr ⟨item, hitem, hhash.symm⟩

theorem nodup_of_not_mem_take {α : Type} :
    ∀ (xs : List α), (∀ (i : Nat) (hi : i < xs.length), xs[i] ∉ xs.take i) → xs.Nodup := by
  intro xs
  induction xs with
  | nil => intro _; exact List.nodup_nil
  | cons a rest ih =>
    intro h
    rw [List.nodup_cons]
    constructor
    · intro ha
      obtain ⟨j, hj, hget⟩ := List.getElem_of_mem ha
      have := h (j + 1) (by simp; omega)
      apply this
      simp only [List.getElem_cons_succ, List.take_succ_cons, hget]
      exact List.mem_cons_self _ _
    · apply ih
      intro i hi hmem
      have := h (i + 1) (by simp; omega)
      apply this
      simp only [List.getElem_cons_succ, List.take_succ_cons]
      exact List.mem_cons_of_mem _ hmem

/-- C34: with indexed candidates of pairwise distinct hashes and
`MODIFIER_INTERVAL_RATIO ≥ 1`, the selection of `ComputeNextStakeModifier` over `n`
candidates runs `min 64 n` rounds and selects `min 64 n` blocks; each carries the
hash of a candidate, their hashes are pairwise distinct, and round `r` is run with
an excluded set of exactly `r` entries, those of the blocks selected before it. -/
theorem selected_blocks_distinct (env : Env) (prev : CBlockIndex) (pprev : List CBlockIndex)
    (md : Nat) (hR : 1 ≤ Env.MODIFIER_INTERVAL_RATIO env)
    (hidx : CandidatesIndexed env (sortedCandidates env prev pprev))
    (hnodup : ((sortedCandidates env prev pprev).map Prod.snd).Nodup) :
    ∃ (picked : List CBlockIndex) (new' : Nat),
      selectionRounds env (sortedCandidates env prev pprev) md
          (min 64 (sortedCandidates env prev pprev).length) 0 0
          (selectionIntervalStart env prev) []
        = .ret (some (new', picked.map selectedEntry)) ∧
      picked.length = min 64 (sortedCandidates env prev pprev).length ∧
      (∀ b ∈ picked, b.hashBlock ∈ (sortedCandidates env prev pprev).map Prod.snd) ∧
      (picked.map (fun b => b.hashBlock)).Nodup ∧
      picked.Nodup ∧
      ∀ (r : Nat) (hr : r < picked.length),
        ((picked.take r).map selectedEntry).length = r ∧
        SelectBlockFromCandidates env (sortedCandidates env prev pprev)
            ((picked.take r).map selectedEntry)
            (roundStop env (selectionIntervalStart env prev) 0 r) md
          = .ret (true, some picked[r]) := by
  obtain ⟨q, hq⟩ := selectionRounds_succeeds env (sortedCandidates env prev pprev) md hR
    hidx hnodup (min 64 (sortedCandidates env prev pprev).length) 0 0
    (selectionIntervalStart env prev) [] (by simp) (by simp)
  obtain ⟨new', m'⟩ := q
  obtain ⟨picked, hlen, hm', hpick, _, _⟩ :=
    selectionRounds_trace env _ md _ 0 0 _ [] new' m' hq (by omega)
  simp only [List.nil_append] at hm' hpick
  subst hm'
  have hhash : (picked.map (fun b => b.hashBlock)).Nodup := by
    apply nodup_of_not_mem_take
    intro i hi
    have hi' : i < picked.length := by simpa using hi
    have hfresh := selectBlockFromCandidates_fresh env _ _ _ md _ (hpick i hi')
    rw [SelectedMap.count_eq_false_iff] at hfresh
    simp only [List.getElem_map, ← List.map_take]
    simpa [selectedEntry, Function.comp] using hfresh
  refine ⟨picked, new', hq, hlen, ?_, hhash, List.Nodup.of_map _ hhash, ?_⟩
  · intro b hb
    obtain ⟨i, hi, rfl⟩ := List.getElem_of_mem hb
    exact selectBlockFromCandidates_hash_mem env _ _ _ md _ hidx (hpick i hi)
  · intro r hr
    refine ⟨?_, hpick r hr⟩
    simp only [List.length_map, List.length_take]
    omega

theorem selected_blocks_distinct_witness :
    (1 : Int) ≤ Env.MODIFIER_INTERVAL_RATIO selectionEnv ∧
    ((sortedCandidates selectionEnv
      { hashBlock := 203, nHeight := 3, nTime := 4000, fStakeEntropyBit := true }
      selectionChain.tail).map Prod.snd).Nodup ∧
    ∃ (picked : List CBlockIndex) (new' : Nat),
      selectionRounds selectionEnv selectionVector 77 3 0 0 1873 []
        = .ret (some (new', picked.map selectedEntry)) ∧
      picked.length = 3 ∧
      (∀ b ∈ picked, b.hashBlock ∈ selectionVector.map Prod.snd) ∧
      (picked.map (fun b => b.hashBlock)).Nodup ∧
      picked.Nodup ∧
      ∀ (r : Nat) (hr : r < picked.length),
        ((picked.take r).map selectedEntry).length = r ∧
        SelectBlockFromCandidates selectionEnv selectionVector
            ((picked.take r).map selectedEntry) (roundStop selectionEnv 1873 0 r) 77
          = .ret (true, some picked[r]) :=
  ⟨by decide, by decide,
   selected_blocks_distinct selectionEnv
      { hashBlock := 203, nHeight := 3, nTime := 4000, fStakeEntropyBit := true }
      selectionChain.tail 77 (by decide)
      (sortedCandidates_indexed selectionEnv _ selectionChain.tail (by decide))
      (by decide)⟩

/-! ## Bounds and safety of the interval sections (C35, C36) -/

theorem sectionDivisor_ge (env : Env) (hR : 1 ≤ Env.MODIFIER_INTERVAL_RATIO env)
    (n : Int) (hn : n < 64) : 63 ≤ sectionDivisor env n := by
  unfold sectionDivisor
  have h1 : (0 : Int) ≤ 63 - n := by omega
  have h2 : (0 : Int) ≤ Env.MODIFIER_INTERVAL_RATIO env - 1 := by omega
  have := mul_nonneg h1 h2
  omega

theorem sectionDivisor_anti (env : Env) (hR : 1 ≤ Env.MODIFIER_INTERVAL_RATIO env)
    (a b : Int) (hab : a ≤ b) : sectionDivisor env b ≤ sectionDivisor env a := by
  unfold sectionDivisor
  have h2 : (0 : Int) ≤ Env.MODIFIER_INTERVAL_RATIO env - 1 := by omega
  have : (63 - b) * ( Env.MODIFIER_INTERVAL_RATIO env - 1)
      ≤ (63 - a) * ( Env.MODIFIER_INTERVAL_RATIO env - 1) :=
    mul_le_mul_of_nonneg_right (by omega) h2
  omega

theorem sectionLength_eq_ediv (env : Env) (hMI : 0 ≤ env.MODIFIER_INTERVAL)
    (hR : 1 ≤ Env.MODIFIER_INTERVAL_RATIO env) (n : Int) (hn : n < 64) :
    sectionLength env n = env.MODIFIER_INTERVAL * 63 / sectionDivisor env n := by
  unfold sectionLength
  have hd := sectionDivisor_ge env hR n hn
  exact Int.tdiv_eq_ediv (by omega) (by omega)

theorem sectionLength_mono (env : Env) (hMI : 0 ≤ env.MODIFIER_INTERVAL)
    (hR : 1 ≤ Env.MODIFIER_INTERVAL_RATIO env) (a b : Int) (hab : a ≤ b) (hb : b < 64) :
    sectionLength env a ≤ sectionLength env b := by
  rw [sectionLength_eq_ediv env hMI hR a (by omega), sectionLength_eq_ediv env hMI hR b hb]
  have hda := sectionDivisor_ge env hR a (by omega)
  have hdb := sectionDivisor_ge env hR b hb
  have hanti := sectionDivisor_anti env hR a b hab
  apply Int.le_ediv_of_mul_le (by omega)
  have hq : 0 ≤ env.MODIFIER_INTERVAL * 63 / sectionDivisor env a :=
    Int.ediv_nonneg (by omega) (by omega)
  have h1 := Int.ediv_mul_le (env.MODIFIER_INTERVAL * 63) (b := sectionDivisor env a) (by omega)
  have h2 := mul_le_mul_of_nonneg_left hanti hq
  omega

theorem sectionLength_zero (env : Env) (hMI : 0 ≤ env.MODIFIER_INTERVAL)
    (hR : 1 ≤ Env.MODIFIER_INTERVAL_RATIO env) :
    sectionLength env 0 = env.MODIFIER_INTERVAL / Env.MODIFIER_INTERVAL_RATIO env := by
  rw [sectionLength_eq_ediv env hMI hR 0 (by omega)]
  have hd : sectionDivisor env 0 = Env.MODIFIER_INTERVAL_RATIO env * 63 := by
    unfold sectionDivisor
    ring
  rw [hd]
  exact Int.mul_ediv_mul_of_pos_left _ _ (by omega)

theorem sectionLength_last (env : Env) (hMI : 0 ≤ env.MODIFIER_INTERVAL)
    (hR : 1 ≤ Env.MODIFIER_INTERVAL_RATIO env) :
    sectionLength env 63 = env.MODIFIER_INTERVAL := by
  rw [sectionLength_eq_ediv env hMI hR 63 (by omega)]
  have hd : sectionDivisor env 63 = 63 := by
    unfold sectionDivisor
    ring
  rw [hd]
  exact Int.mul_ediv_cancel _ (by omega)

/-- C35: for `MODIFIER_INTERVAL ≥ 0`, `MODIFIER_INTERVAL_RATIO ≥ 1` and every section
index `0 ≤ n < 64`, `GetStakeModifierSelectionIntervalSection` returns a value that
lies between `MODIFIER_INTERVAL / MODIFIER_INTERVAL_RATIO` (rounded down), its value
at `n = 0`, and `MODIFIER_INTERVAL`, its value at `n = 63`, and that does not
decrease when `n` grows; so the stop time of a round is not before the stop time of
the round before it. -/
theorem section_bounds (env : Env) (hMI : 0 ≤ env.MODIFIER_INTERVAL)
    (hR : 1 ≤ Env.MODIFIER_INTERVAL_RATIO env) :
    (∀ n : Int, 0 ≤ n → n < 64 →
      ∃ v, GetStakeModifierSelectionIntervalSection env n = .ret v ∧
        env.MODIFIER_INTERVAL / Env.MODIFIER_INTERVAL_RATIO env ≤ v ∧
        v ≤ env.MODIFIER_INTERVAL) ∧
    GetStakeModifierSelectionIntervalSection env 0
      = .ret (env.MODIFIER_INTERVAL / Env.MODIFIER_INTERVAL_RATIO env) ∧
    GetStakeModifierSelectionIntervalSection env 63 = .ret env.MODIFIER_INTERVAL ∧
    (∀ a b : Int, 0 ≤ a → a ≤ b → b < 64 →
      ∃ va vb, GetStakeModifierSelectionIntervalSection env a = .ret va ∧
        GetStakeModifierSelectionIntervalSection env b = .ret vb ∧ va ≤ vb) ∧
    (∀ (stop : Int) (r : Nat), r + 1 < 64 →
      roundStop env stop 0 r ≤ roundStop env stop 0 (r + 1)) := by
  have hget : ∀ n : Int, 0 ≤ n → n < 64 →
      GetStakeModifierSelectionIntervalSection env n = .ret (sectionLength env n) := by
    intro n h0 h64
    have hd := sectionDivisor_ge env hR n h64
    unfold GetStakeModifierSelectionIntervalSection
    have h1 : (n ≥ 0 ∧ n < 64) := ⟨h0, h64⟩
    have h2 : sectionDivisor env n ≠ 0 := by omega
    simp [h1, h2]
  have hlow : ∀ n : Int, 0 ≤ n → n < 64 →
      env.MODIFIER_INTERVAL / Env.MODIFIER_INTERVAL_RATIO env ≤ sectionLength env n := by
    intro n h0 h64
    rw [← sectionLength_zero env hMI hR]
    exact sectionLength_mono env hMI hR 0 n h0 h64
  have hhigh : ∀ n : Int, n < 64 → sectionLength env n ≤ env.MODIFIER_INTERVAL := by
    intro n h64
    have := sectionLength_mono env hMI hR n 63 (by omega) (by omega)
    rwa [sectionLength_last env hMI hR] at this
  refine ⟨?_, ?_, ?_, ?_, ?_⟩
  · intro n h0 h64
    exact ⟨_, hget n h0 h64, hlow n h0 h64, hhigh n h64⟩
  · rw [hget 0 (by omega) (by omega), sectionLength_zero env hMI hR]
  · rw [hget 63 (by omega) (by omega), sectionLength_last env hMI hR]
  · intro a b h0 hab h64
    exact ⟨_, _, hget a h0 (by omega), hget b (by omega) h64,
      sectionLength_mono env hMI hR a b hab h64⟩
  · intro stop r hr
    rw [roundStop]
    have h1 := hlow ((0 + r + 1 : Nat) : Int) (by omega) (by omega)
    have h2 : (0 : Int) ≤ env.MODIFIER_INTERVAL / Env.MODIFIER_INTERVAL_RATIO env :=
      Int.ediv_nonneg hMI (by omega)
    omega

theorem section_bounds_witness :
    (0 : Int) ≤ exampleEnv.MODIFIER_INTERVAL ∧
    (1 : Int) ≤ Env.MODIFIER_INTERVAL_RATIO exampleEnv ∧
    GetStakeModifierSelectionIntervalSection exampleEnv 0 = .ret 20 ∧
    GetStakeModifierSelectionIntervalSection exampleEnv 63 = .ret 60 :=
  ⟨by decide, by decide,
   (section_bounds exampleEnv (by decide) (by decide)).2.1,
   (section_bounds exampleEnv (by decide) (by decide)).2.2.1⟩

/-- The loop of `SelectBlockFromCandidates` keeps a selected block whenever
`fSelected` is set. -/
theorem selectLoop_selected_some (env : Env) (m : SelectedMap) (stop : Int) (md : Nat) :
    ∀ (l : List (Int × Nat)) (s s' : SelectState) (flag : Bool),
      selectLoop env m stop md l s = .ret (flag, s') →
      (s.fSelected = true → ∃ b, s.pindexSelected = some b) →
      (s'.fSelected = true → ∃ b, s'.pindexSelected = some b) := by
  intro l
  induction l with
  | nil =>
    intro s s' flag h hs
    simp [selectLoop] at h
    rw [← h.2]; exact hs
  | cons item rest ih =>
    intro s s' flag h hs
    rw [selectLoop] at h
    split at h
    · simp at h; rw [← h.2]; exact hs
    · simp at h
    · rename_i pindex hidx
      have hs1 : (s.firstRun env pindex).fSelected = true →
          ∃ b, (s.firstRun env pindex).pindexSelected = some b := by
        rw [SelectState.firstRun_fSelected, SelectState.firstRun_pindexSelected]; exact hs
      split at h
      · simp at h; rw [← h.2]; exact hs
      · split at h
        · exact ih _ _ _ h hs1
        · refine ih _ _ _ h ?_
          intro _
          rcases SelectState.consider_pindexSelected env md pindex (s.firstRun env pindex)
            with h1 | h1
          · exact ⟨pindex, h1⟩
          · rw [h1.2]; exact hs1 h1.1

theorem selectBlockFromCandidates_ne_true_none (env : Env) (l : List (Int × Nat))
    (m : SelectedMap) (stop : Int) (md : Nat) :
    SelectBlockFromCandidates env l m stop md ≠ .ret (true, none) := by
  intro h
  unfold SelectBlockFromCandidates at h
  split at h
  · simp at h
  · simp at h
  · rename_i s hloop
    simp only [Exec.ret.injEq, Prod.mk.injEq] at h
    obtain ⟨b, hb⟩ := selectLoop_selected_some env m stop md l _ s true hloop
      (by simp [SelectState.init]) h.1
    rw [hb] at h
    simp at h

/-- With section indices below 64 and `MODIFIER_INTERVAL_RATIO ≥ 1`, a fault of the
loop of rounds is the fault of a call of `SelectBlockFromCandidates`. -/
theorem selectionRounds_fault (env : Env) (l : List (Int × Nat)) (md : Nat)
    (hR : 1 ≤ Env.MODIFIER_INTERVAL_RATIO env) :
    ∀ (k nRound new : Nat) (stop : Int) (m : SelectedMap), nRound + k ≤ 64 →
      selectionRounds env l md k nRound new stop m = .fault →
      ∃ m' stop', SelectBlockFromCandidates env l m' stop' md = .fault := by
  intro k
  induction k with
  | zero => intro nRound new stop m _ h; simp [selectionRounds_zero] at h
  | succ k ih =>
    intro nRound new stop m h64 h
    rw [selectionRounds_succ, getSection_eq env hR nRound (by omega)] at h
    simp only [] at h
    cases hsel : SelectBlockFromCandidates env l m (stop + sectionLength env nRound) md with
    | fault => exact ⟨_, _, hsel⟩
    | ret p =>
      obtain ⟨flag, o⟩ := p
      rw [hsel] at h
      cases flag with
      | false => simp at h
      | true =>
        cases o with
        | none => exact absurd hsel (selectBlockFromCandidates_ne_true_none env l m _ md)
        | some pindex => exact ih _ _ _ _ (by omega) h

/-- C36: for a section index `0 ≤ n < 64` and `MODIFIER_INTERVAL_RATIO ≥ 1` the divisor
`63 + (63 - n) * (MODIFIER_INTERVAL_RATIO - 1)` is at least 63 and
`GetStakeModifierSelectionIntervalSection` returns its quotient: the assertion holds
and there is no division by zero. The rounds of `ComputeNextStakeModifier` pass the
indices `0 .. min 64 n - 1`, so a fault of the call is not one of the section: it
is the division by `MODIFIER_INTERVAL = 0` or the fault of a call of
`SelectBlockFromCandidates`. Outside `0 ≤ n < 64` the assertion fails. -/
theorem section_call_safe (env : Env) (hR : 1 ≤ Env.MODIFIER_INTERVAL_RATIO env) :
    (∀ n : Int, 0 ≤ n → n < 64 →
      63 ≤ 63 + (63 - n) * ( Env.MODIFIER_INTERVAL_RATIO env - 1) ∧
      GetStakeModifierSelectionIntervalSection env n
        = .ret ((env.MODIFIER_INTERVAL * 63).tdiv
            (63 + (63 - n) * ( Env.MODIFIER_INTERVAL_RATIO env - 1)))) ∧
    (∀ n : Int, (n < 0 ∨ 64 ≤ n) → GetStakeModifierSelectionIntervalSection env n = .fault) ∧
    (∀ (l : List (Int × Nat)) (md k : Nat) (stop : Int), k ≤ 64 →
      selectionRounds env l md k 0 0 stop [] = .fault →
      ∃ m' stop', SelectBlockFromCandidates env l m' stop' md = .fault) ∧
    (∀ (prev : CBlockIndex) (pprev : List CBlockIndex),
      ComputeNextStakeModifier env (prev :: pprev) = .fault →
      env.MODIFIER_INTERVAL = 0 ∨
      ∃ m' stop' md, SelectBlockFromCandidates env (sortedCandidates env prev pprev) m' stop' md
        = .fault) := by
  refine ⟨?_, ?_, ?_, ?_⟩
  · intro n h0 h64
    have hd := sectionDivisor_ge env hR n h64
    unfold sectionDivisor at hd
    refine ⟨hd, ?_⟩
    unfold GetStakeModifierSelectionIntervalSection sectionLength sectionDivisor
    have h1 : (n ≥ 0 ∧ n < 64) := ⟨h0, h64⟩
    have h2 : 63 + (63 - n) * ( Env.MODIFIER_INTERVAL_RATIO env - 1) ≠ 0 := by omega
    simp [h1, h2]
  · intro n hn
    unfold GetStakeModifierSelectionIntervalSection
    have h1 : ¬ (n ≥ 0 ∧ n < 64) := by omega
    simp [h1]
  · intro l md k stop hk h
    exact selectionRounds_fault env l md hR k 0 0 stop [] (by omega) h
  · intro prev pprev h
    by_cases hMI : env.MODIFIER_INTERVAL = 0
    · exact Or.inl hMI
    · right
      by_cases hh : prev.nHeight = 0
      · simp [ComputeNextStakeModifier, hh] at h
      · cases hlast : GetLastStakeModifier (prev :: pprev) with
        | none => simp [ComputeNextStakeModifier, hh, hlast] at h
        | some p =>
          obtain ⟨md, t⟩ := p
          by_cases hlt : t.tdiv env.MODIFIER_INTERVAL
              ≥ prev.GetBlockTime.tdiv env.MODIFIER_INTERVAL
          · simp [ComputeNextStakeModifier, hh, hlast, hMI, hlt] at h
          · rw [computeNextStakeModifier_selection_branch env prev pprev md t hh hlast hMI hlt]
              at h
            cases hrounds : selectionRounds env (sortedCandidates env prev pprev) md
                (min 64 (sortedCandidates env prev pprev).length) 0 0
                (selectionIntervalStart env prev) [] with
            | fault =>
              obtain ⟨m', stop', hf⟩ := selectionRounds_fault env _ md hR _ 0 0 _ []
                (by omega) hrounds
              exact ⟨m', stop', md, hf⟩
            | ret o =>
              rw [hrounds] at h
              cases o with
              | none => simp at h
              | some q => simp at h

theorem section_call_safe_witness :
    (1 : Int) ≤ Env.MODIFIER_INTERVAL_RATIO exampleEnv ∧
    GetStakeModifierSelectionIntervalSection exampleEnv 10 = .ret 22 ∧
    GetStakeModifierSelectionIntervalSection exampleEnv 64 = .fault :=
  ⟨by decide,
   ((section_call_safe exampleEnv (by decide)).1 10 (by decide) (by decide)).2,
   (section_call_safe exampleEnv (by decide)).2.1 64 (by decide)⟩

/-! ## Dust stakes and the return value of `Stake` (C37, C38) -/

/-- A passing kernel check has computed a hash below the weighted target. -/
theorem checkStakeKernelHash_true (env : Env) (pindexPrev : Option CBlockIndex) (nBits : Nat)
    (stake : CStakeInput) (t : Nat) (w : Option Nat)
    (h : CheckStakeKernelHash env pindexPrev nBits stake t = .ret (true, w)) :
    ∃ hash, w = some hash ∧ hash < weightedTarget nBits stake.GetValue := by
  unfold CheckStakeKernelHash at h
  cases hh : GetHashProofOfStake env pindexPrev stake t with
  | fault => simp [hh] at h
  | ret o =>
    cases o with
    | none => simp [hh] at h
    | some hash =>
      simp only [hh, Exec.ret.injEq, Prod.mk.injEq, decide_eq_true_eq] at h
      exact ⟨hash, h.2.symm, h.1⟩

theorem weightedTarget_dust (nBits : Nat) (v : Int) (hv0 : 0 ≤ v) (hv1 : v < 100) :
    uint256OfAmount v / 100 = 0 ∧ weightedTarget nBits v = 0 := by
  have hu : uint256OfAmount v = v.toNat := uint256OfAmount_of_nonneg v hv0 (by omega)
  have hd : uint256OfAmount v / 100 = 0 := by
    rw [hu]
    exact Nat.div_eq_of_lt (by omega)
  refine ⟨hd, ?_⟩
  unfold weightedTarget
  simp [hd]

/-- C37: for a stake input of value `0 ≤ v < 100` the weight `v / 100` is 0 and the
weighted target is 0 for every `nBits`; `CheckStakeKernelHash` returns false for
every previous block, `nBits` and attempt time, and for no `pindexPrev`, null
included, does it return true. -/
theorem dust_stake_never_mints (env : Env) (stake : CStakeInput)
    (hv0 : 0 ≤ stake.GetValue) (hv1 : stake.GetValue < 100) :
    uint256OfAmount stake.GetValue / 100 = 0 ∧
    (∀ nBits, weightedTarget nBits stake.GetValue = 0) ∧
    (∀ (prev : CBlockIndex) (nBits t : Nat),
      ∃ w, CheckStakeKernelHash env (some prev) nBits stake t = .ret (false, w)) ∧
    (∀ (pindexPrev : Option CBlockIndex) (nBits t : Nat) (w : Option Nat),
      CheckStakeKernelHash env pindexPrev nBits stake t ≠ .ret (true, w)) := by
  have hnever : ∀ (pindexPrev : Option CBlockIndex) (nBits t : Nat) (w : Option Nat),
      CheckStakeKernelHash env pindexPrev nBits stake t ≠ .ret (true, w) := by
    intro pindexPrev nBits t w h
    obtain ⟨hash, _, hlt⟩ := checkStakeKernelHash_true env pindexPrev nBits stake t w h
    rw [(weightedTarget_dust nBits stake.GetValue hv0 hv1).2] at hlt
    omega
  refine ⟨(weightedTarget_dust 0 stake.GetValue hv0 hv1).1,
    fun nBits => (weightedTarget_dust nBits stake.GetValue hv0 hv1).2, ?_, hnever⟩
  intro prev nBits t
  obtain ⟨b, w, hc⟩ := checkStakeKernelHash_returns env prev nBits stake t
  cases b with
  | false => exact ⟨w, hc⟩
  | true => exact absurd hc (hnever _ _ _ _)

theorem dust_stake_never_mints_witness :
    (0 : Int) ≤ (stakeOfValue 99).GetValue ∧ (stakeOfValue 99).GetValue < 100 ∧
    weightedTarget 0x1d00ffff 99 = 0 ∧
    ∃ w, CheckStakeKernelHash exampleEnv (some examplePrevV1) 0x1d00ffff (stakeOfValue 99) 5000
      = .ret (false, w) :=
  ⟨by decide, by decide,
   (dust_stake_never_mints exampleEnv (stakeOfValue 99) (by decide) (by decide)).2.1 0x1d00ffff,
   (dust_stake_never_mints exampleEnv (stakeOfValue 99) (by decide) (by decide)).2.2.1
     examplePrevV1 0x1d00ffff 5000⟩

/-- The loop of `Stake` returns for a non-null previous block. At its end `nTimeTx`
is the value `nTimeTx0` or an attempt time that passes the kernel check, and once
`fSuccess` is set it stays set, `nTimeTx` is a passing attempt time and
`hashProofOfStake` is written. -/
theorem stakeLoop_invariant (env : Env) (world : StakeWorld) (prev : CBlockIndex) (nBits : Nat)
    (stake : CStakeInput) (nTimeTx0 : Nat) :
    ∀ (n i : Nat) (s : StakeState),
      (s.nTimeTx = nTimeTx0 ∨ ∃ t h,
        CheckStakeKernelHash env (some prev) nBits stake t = .ret (true, some h) ∧
        s.nTimeTx = t) →
      (s.fSuccess = true → (∃ t h,
        CheckStakeKernelHash env (some prev) nBits stake t = .ret (true, some h) ∧
        s.nTimeTx = t) ∧ s.hashProofOfStake ≠ none) →
      ∃ s', stakeLoop env world (some prev) nBits stake n i s = .ret s' ∧
        (s'.nTimeTx = nTimeTx0 ∨ ∃ t h,
          CheckStakeKernelHash env (some prev) nBits stake t = .ret (true, some h) ∧
          s'.nTimeTx = t) ∧
        (s'.fSuccess = true → (∃ t h,
          CheckStakeKernelHash env (some prev) nBits stake t = .ret (true, some h) ∧
          s'.nTimeTx = t) ∧ s'.hashProofOfStake ≠ none) ∧
        (s.fSuccess = true → s'.fSuccess = true) := by
  intro n
  induction n with
  | zero => intro i s hI hJ; exact ⟨s, rfl, hI, hJ, id⟩
  | succ n ih =>
    intro i s hI hJ
    by_cases hH : world.Height i = world.nHeightStart
    · obtain ⟨b, w, hc⟩ := checkStakeKernelHash_returns env prev nBits stake
        ((s.nTimeTx + GrindWindow - i) % 2 ^ 32)
      cases b with
      | false =>
        have hJ1 : ∀ e : List StakeEffect,
            (({ s with hashProofOfStake := w.orElse (fun _ => s.hashProofOfStake),
                       effects := e } : StakeState).fSuccess = true →
              (∃ t h, CheckStakeKernelHash env (some prev) nBits stake t = .ret (true, some h) ∧
                s.nTimeTx = t) ∧ w.orElse (fun _ => s.hashProofOfStake) ≠ none) := by
          intro e hs
          obtain ⟨h1, h2⟩ := hJ hs
          refine ⟨h1, ?_⟩
          cases w with
          | none => simpa using h2
          | some x => simp
        rw [stakeLoop_fail env world _ nBits stake n i s w hH hc]
        split
        · obtain ⟨s', h1, h2, h3, h4⟩ := ih (i + 1)
            { s with hashProofOfStake := w.orElse (fun _ => s.hashProofOfStake),
                     effects := s.effects ++ grindStaleInput world stake } hI (hJ1 _)
          exact ⟨s', h1, h2, h3, h4⟩
        · obtain ⟨s', h1, h2, h3, h4⟩ := ih (i + 1)
            { s with hashProofOfStake := w.orElse (fun _ => s.hashProofOfStake) } hI
            (hJ1 s.effects)
          exact ⟨s', h1, h2, h3, h4⟩
      | true =>
        obtain ⟨hash, hw, _⟩ := checkStakeKernelHash_true env _ nBits stake _ w hc
        subst hw
        rw [stakeLoop_pass env world _ nBits stake n i s _ hH hc]
        obtain ⟨s', h1, h2, h3, h4⟩ := ih (i + 1)
          { s with hashProofOfStake := (some hash).orElse (fun _ => s.hashProofOfStake),
                   fSuccess := true, nTimeTx := (s.nTimeTx + GrindWindow - i) % 2 ^ 32 }
          (Or.inr ⟨_, hash, hc, rfl⟩)
          (fun _ => ⟨⟨_, hash, hc, rfl⟩, by simp⟩)
        exact ⟨s', h1, h2, h3, fun _ => h4 rfl⟩
    · exact ⟨s, stakeLoop_moved env world _ nBits stake n i s hH, hI, hJ, id⟩

/-- While the tip stays at the starting height, a run of `k + j` iterations of the
loop of `Stake` is a run of `k` iterations followed by `j` iterations from the state
reached. -/
theorem stakeLoop_add (env : Env) (world : StakeWorld) (prev : CBlockIndex) (nBits : Nat)
    (stake : CStakeInput) :
    ∀ (k j i : Nat) (s : StakeState),
      (∀ x, x < k → world.Height (i + x) = world.nHeightStart) →
      ∃ s', stakeLoop env world (some prev) nBits stake k i s = .ret s' ∧
        stakeLoop env world (some prev) nBits stake (k + j) i s
          = stakeLoop env world (some prev) nBits stake j (i + k) s' := by
  intro k
  induction k with
  | zero =>
    intro j i s _
    exact ⟨s, rfl, by simp⟩
  | succ k ih =>
    intro j i s hreach
    have hH : world.Height i = world.nHeightStart := by
      have := hreach 0 (by omega)
      simpa using this
    have hrest : ∀ x, x < k → world.Height (i + 1 + x) = world.nHeightStart := by
      intro x hx
      have := hreach (x + 1) (by omega)
      have he : i + (x + 1) = i + 1 + x := by omega
      rwa [he] at this
    have hkj : k + 1 + j = (k + j) + 1 := by omega
    have hik : i + (k + 1) = i + 1 + k := by omega
    rw [hkj, hik]
    obtain ⟨b, w, hc⟩ := checkStakeKernelHash_returns env prev nBits stake
      ((s.nTimeTx + GrindWindow - i) % 2 ^ 32)
    cases b with
    | false =>
      rw [stakeLoop_fail env world _ nBits stake k i s w hH hc,
        stakeLoop_fail env world _ nBits stake (k + j) i s w hH hc]
      split
      · exact ih j (i + 1) _ hrest
      · exact ih j (i + 1) _ hrest
    | true =>
      rw [stakeLoop_pass env world _ nBits stake k i s w hH hc,
        stakeLoop_pass env world _ nBits stake (k + j) i s w hH hc]
      exact ih j (i + 1) _ hrest

/-- The early returns of `Stake`. -/
theorem stake_early (env : Env) (world : StakeWorld) (prev : CBlockIndex)
    (stake : CStakeInput) (nBits nTimeTx : Nat)
    (hsearch : stakeSearches env prev stake nTimeTx = false) :
    Stake env world (some prev) stake nBits nTimeTx = .ret ⟨false, nTimeTx, none, []⟩ := by
  unfold stakeSearches at hsearch
  cases hfrom : stake.GetIndexFrom with
  | none => simp [Stake, hfrom]
  | some pindexFrom =>
    rw [hfrom] at hsearch
    by_cases hh : pindexFrom.nHeight < 1
    · simp [Stake, hfrom, hh]
    · have h1 : (1 : Int) ≤ pindexFrom.nHeight := by omega
      cases hage : env.HasStakeMinAgeOrDepth (prev.nHeight + 1) nTimeTx pindexFrom.nHeight
          pindexFrom.nTime with
      | false => simp [Stake, hfrom, hh, hage]
      | true =>
        cases hm : stake.GetModifier with
        | none => simp [Stake, hfrom, hh, hage, hm]
        | some md => simp [h1, hage, hm] at hsearch

/-- When `Stake` reaches its loop, its result is read off the state at the end of the
loop. -/
theorem stake_of_loop (env : Env) (world : StakeWorld) (prev : CBlockIndex)
    (stake : CStakeInput) (nBits nTimeTx : Nat) (s' : StakeState)
    (hsearch : stakeSearches env prev stake nTimeTx = true)
    (hrun : stakeLoop env world (some prev) nBits stake GrindWindow 0
      { nTimeTx := nTimeTx, fSuccess := false, hashProofOfStake := none, effects := [] }
      = .ret s') :
    Stake env world (some prev) stake nBits nTimeTx
      = .ret ⟨false, s'.nTimeTx, s'.hashProofOfStake, s'.effects⟩ := by
  unfold stakeSearches at hsearch
  cases hfrom : stake.GetIndexFrom with
  | none => simp [hfrom] at hsearch
  | some pindexFrom =>
    rw [hfrom] at hsearch
    simp only [Bool.and_eq_true, decide_eq_true_eq, Option.isSome_iff_exists] at hsearch
    obtain ⟨⟨h1, hage⟩, md, hm⟩ := hsearch
    have hh : ¬ pindexFrom.nHeight < 1 := by omega
    simp [Stake, hfrom, hh, hage, hm, hrun]

/-- C38: `Stake` never returns true, whatever `pindexPrev` is. For a non-null
previous block it returns, with the value false. When the origin block is missing
or below height 1, the maturity rule fails or `GetModifier` fails, it returns before
any attempt (`stakeSearches` is false exactly then): `nTimeTx` and
`hashProofOfStake` are untouched and no call is made. Otherwise `nTimeTx` ends as it
was or as an attempt time that passes the kernel check. Whenever an iteration `i`
is run (the chain height is unchanged up to `i`) and its attempt, at the time
`nTimeTx + GrindWindow - i` for the value `nTimeTx` has when the iteration starts,
passes the kernel check, that iteration overwrites `nTimeTx` with the attempt time
and `hashProofOfStake` with its hash and sets `fSuccess`; at the return `nTimeTx` is
a passing attempt time and `hashProofOfStake` is written, and they are the values
of iteration `i` when no later iteration is run; the return value is false. -/
theorem stake_returns_false (env : Env) (world : StakeWorld) (stake : CStakeInput)
    (nBits nTimeTx : Nat) :
    (∀ (pindexPrev : Option CBlockIndex) (r : StakeResult),
      Stake env world pindexPrev stake nBits nTimeTx = .ret r → r.ret = false) ∧
    (∀ prev : CBlockIndex,
      ∃ r, Stake env world (some prev) stake nBits nTimeTx = .ret r ∧ r.ret = false ∧
        (stakeSearches env prev stake nTimeTx = false →
          r.nTimeTx = nTimeTx ∧ r.hashProofOfStake = none ∧ r.effects = []) ∧
        (r.nTimeTx = nTimeTx ∨ ∃ t h,
          CheckStakeKernelHash env (some prev) nBits stake t = .ret (true, some h) ∧
          r.nTimeTx = t) ∧
        (stakeSearches env prev stake nTimeTx = true →
          world.Height 0 = world.nHeightStart →
          (∃ w, CheckStakeKernelHash env (some prev) nBits stake
            ((nTimeTx + GrindWindow) % 2 ^ 32) = .ret (true, w)) →
          (∃ t h, CheckStakeKernelHash env (some prev) nBits stake t = .ret (true, some h) ∧
            r.nTimeTx = t) ∧ r.hashProofOfStake ≠ none) ∧
        (stakeSearches env prev stake nTimeTx = true →
          ∀ (i : Nat) (s : StakeState) (w : Option Nat), i < GrindWindow →
          (∀ j, j ≤ i → world.Height j = world.nHeightStart) →
          stakeLoop env world (some prev) nBits stake i 0
            { nTimeTx := nTimeTx, fSuccess := false, hashProofOfStake := none, effects := [] }
            = .ret s →
          CheckStakeKernelHash env (some prev) nBits stake
            ((s.nTimeTx + GrindWindow - i) % 2 ^ 32) = .ret (true, w) →
          stakeLoop env world (some prev) nBits stake (i + 1) 0
            { nTimeTx := nTimeTx, fSuccess := false, hashProofOfStake := none, effects := [] }
            = .ret { s with hashProofOfStake := w, fSuccess := true,
                            nTimeTx := (s.nTimeTx + GrindWindow - i) % 2 ^ 32 } ∧
          (∃ h, w = some h) ∧
          (∃ t h, CheckStakeKernelHash env (some prev) nBits stake t = .ret (true, some h) ∧
            r.nTimeTx = t) ∧
          r.hashProofOfStake ≠ none ∧
          ((i + 1 = GrindWindow ∨ world.Height (i + 1) ≠ world.nHeightStart) →
            r.nTimeTx = (s.nTimeTx + GrindWindow - i) % 2 ^ 32 ∧ r.hashProofOfStake = w))) ∧
    (∀ prev : CBlockIndex,
      stakeSearches env prev stake nTimeTx = false ↔
        (stake.GetIndexFrom = none ∨
          ∃ pindexFrom, stake.GetIndexFrom = some pindexFrom ∧
            (pindexFrom.nHeight < 1 ∨
              env.HasStakeMinAgeOrDepth (prev.nHeight + 1) nTimeTx pindexFrom.nHeight
                pindexFrom.nTime = false ∨
              stake.GetModifier = none))) := by
  have hsome : ∀ prev : CBlockIndex,
      ∃ r, Stake env world (some prev) stake nBits nTimeTx = .ret r ∧ r.ret = false ∧
        (stakeSearches env prev stake nTimeTx = false →
          r.nTimeTx = nTimeTx ∧ r.hashProofOfStake = none ∧ r.effects = []) ∧
        (r.nTimeTx = nTimeTx ∨ ∃ t h,
          CheckStakeKernelHash env (some prev) nBits stake t = .ret (true, some h) ∧
          r.nTimeTx = t) ∧
        (stakeSearches env prev stake nTimeTx = true →
          world.Height 0 = world.nHeightStart →
          (∃ w, CheckStakeKernelHash env (some prev) nBits stake
            ((nTimeTx + GrindWindow) % 2 ^ 32) = .ret (true, w)) →
          (∃ t h, CheckStakeKernelHash env (some prev) nBits stake t = .ret (true, some h) ∧
            r.nTimeTx = t) ∧ r.hashProofOfStake ≠ none) ∧
        (stakeSearches env prev stake nTimeTx = true →
          ∀ (i : Nat) (s : StakeState) (w : Option Nat), i < GrindWindow →
          (∀ j, j ≤ i → world.Height j = world.nHeightStart) →
          stakeLoop env world (some prev) nBits stake i 0
            { nTimeTx := nTimeTx, fSuccess := false, hashProofOfStake := none, effects := [] }
            = .ret s →
          CheckStakeKernelHash env (some prev) nBits stake
            ((s.nTimeTx + GrindWindow - i) % 2 ^ 32) = .ret (true, w) →
          stakeLoop env world (some prev) nBits stake (i + 1) 0
            { nTimeTx := nTimeTx, fSuccess := false, hashProofOfStake := none, effects := [] }
            = .ret { s with hashProofOfStake := w, fSuccess := true,
                            nTimeTx := (s.nTimeTx + GrindWindow - i) % 2 ^ 32 } ∧
          (∃ h, w = some h) ∧
          (∃ t h, CheckStakeKernelHash env (some prev) nBits stake t = .ret (true, some h) ∧
            r.nTimeTx = t) ∧
          r.hashProofOfStake ≠ none ∧
          ((i + 1 = GrindWindow ∨ world.Height (i + 1) ≠ world.nHeightStart) →
            r.nTimeTx = (s.nTimeTx + GrindWindow - i) % 2 ^ 32 ∧ r.hashProofOfStake = w)) := by
    intro prev
    cases hsearch : stakeSearches env prev stake nTimeTx with
    | false =>
      exact ⟨_, stake_early env world prev stake nBits nTimeTx hsearch, rfl,
        fun _ => ⟨rfl, rfl, rfl⟩, Or.inl rfl, fun h => absurd h (by decide),
        fun h => absurd h (by decide)⟩
    | true =>
      obtain ⟨s', hrun, hI, _, _⟩ := stakeLoop_invariant env world prev nBits stake
        nTimeTx GrindWindow 0
        { nTimeTx := nTimeTx, fSuccess := false, hashProofOfStake := none, effects := [] }
        (Or.inl rfl) (by intro h; cases h)
      have hval := stake_of_loop env world prev stake nBits nTimeTx s' hsearch hrun
      have hnew : ∀ (i : Nat) (s : StakeState) (w : Option Nat), i < GrindWindow →
          (∀ j, j ≤ i → world.Height j = world.nHeightStart) →
          stakeLoop env world (some prev) nBits stake i 0
            { nTimeTx := nTimeTx, fSuccess := false, hashProofOfStake := none, effects := [] }
            = .ret s →
          CheckStakeKernelHash env (some prev) nBits stake
            ((s.nTimeTx + GrindWindow - i) % 2 ^ 32) = .ret (true, w) →
          stakeLoop env world (some prev) nBits stake (i + 1) 0
            { nTimeTx := nTimeTx, fSuccess := false, hashProofOfStake := none, effects := [] }
            = .ret { s with hashProofOfStake := w, fSuccess := true,
                            nTimeTx := (s.nTimeTx + GrindWindow - i) % 2 ^ 32 } ∧
          (∃ h, w = some h) ∧
          (∃ t h, CheckStakeKernelHash env (some prev) nBits stake t = .ret (true, some h) ∧
            s'.nTimeTx = t) ∧
          s'.hashProofOfStake ≠ none ∧
          ((i + 1 = GrindWindow ∨ world.Height (i + 1) ≠ world.nHeightStart) →
            s'.nTimeTx = (s.nTimeTx + GrindWindow - i) % 2 ^ 32 ∧
            s'.hashProofOfStake = w) := by
        intro i s w hi hreach hpre hc
        obtain ⟨hash, hw, _⟩ := checkStakeKernelHash_true env _ nBits stake _ w hc
        subst hw
        obtain ⟨s1, h1, h2⟩ := stakeLoop_add env world prev nBits stake i 1 0
          { nTimeTx := nTimeTx, fSuccess := false, hashProofOfStake := none, effects := [] }
          (by intro x hx; rw [Nat.zero_add]; exact hreach x (by omega))
        rw [hpre] at h1
        cases h1
        have hstep : stakeLoop env world (some prev) nBits stake (i + 1) 0
            { nTimeTx := nTimeTx, fSuccess := false, hashProofOfStake := none, effects := [] }
            = .ret { s with hashProofOfStake := some hash, fSuccess := true,
                            nTimeTx := (s.nTimeTx + GrindWindow - i) % 2 ^ 32 } := by
          rw [h2, Nat.zero_add,
            stakeLoop_pass env world _ nBits stake 0 i s (some hash) (hreach i (le_refl _)) hc,
            stakeLoop_zero]
          simp
        obtain ⟨s2, h3, h4⟩ := stakeLoop_add env world prev nBits stake (i + 1)
          (GrindWindow - (i + 1)) 0
          { nTimeTx := nTimeTx, fSuccess := false, hashProofOfStake := none, effects := [] }
          (by intro x hx; rw [Nat.zero_add]; exact hreach x (by omega))
        have hGW : i + 1 + (GrindWindow - (i + 1)) = GrindWindow := by omega
        rw [hstep] at h3
        cases h3
        rw [hGW, hrun, Nat.zero_add] at h4
        obtain ⟨s3, h5, _, hJ3, hS3⟩ := stakeLoop_invariant env world prev nBits stake
          nTimeTx (GrindWindow - (i + 1)) (i + 1)
          { s with hashProofOfStake := some hash, fSuccess := true,
                   nTimeTx := (s.nTimeTx + GrindWindow - i) % 2 ^ 32 }
          (Or.inr ⟨_, hash, hc, rfl⟩) (fun _ => ⟨⟨_, hash, hc, rfl⟩, by simp⟩)
        rw [h5] at h4
        cases h4
        have hJ := hJ3 (hS3 rfl)
        refine ⟨hstep, ⟨hash, rfl⟩, hJ.1, hJ.2, ?_⟩
        intro hend
        have hsame : stakeLoop env world (some prev) nBits stake (GrindWindow - (i + 1)) (i + 1)
            { s with hashProofOfStake := some hash, fSuccess := true,
                     nTimeTx := (s.nTimeTx + GrindWindow - i) % 2 ^ 32 }
            = .ret { s with hashProofOfStake := some hash, fSuccess := true,
                            nTimeTx := (s.nTimeTx + GrindWindow - i) % 2 ^ 32 } := by
          cases hrem : GrindWindow - (i + 1) with
          | zero => rfl
          | succ n =>
            rcases hend with hend | hend
            · omega
            · exact stakeLoop_moved env world _ nBits stake n (i + 1) _ hend
        rw [hsame] at h5
        cases h5
        exact ⟨rfl, rfl⟩
      refine ⟨_, hval, rfl, fun h => absurd h (by decide), hI, ?_, fun _ => hnew⟩
      rintro _ hH ⟨w, hc⟩
      have hc0 : CheckStakeKernelHash env (some prev) nBits stake
          ((nTimeTx + GrindWindow - 0) % 2 ^ 32) = .ret (true, w) := by
        simpa using hc
      obtain ⟨_, _, h3, h4, _⟩ := hnew 0
        { nTimeTx := nTimeTx, fSuccess := false, hashProofOfStake := none, effects := [] }
        w (by decide) (by intro j hj; have : j = 0 := by omega
                          rw [this]; exact hH) rfl hc0
      exact ⟨h3, h4⟩
  refine ⟨?_, hsome, ?_⟩
  · intro pindexPrev r hr
    cases pindexPrev with
    | none => simp [Stake] at hr
    | some prev =>
      obtain ⟨r', hr', hfalse, _⟩ := hsome prev
      rw [hr'] at hr
      cases hr
      exact hfalse
  · intro prev
    unfold stakeSearches
    cases hfrom : stake.GetIndexFrom with
    | none => simp
    | some pindexFrom =>
      cases hm : stake.GetModifier <;>
        cases hage : env.HasStakeMinAgeOrDepth (prev.nHeight + 1) nTimeTx pindexFrom.nHeight
          pindexFrom.nTime <;>
        simp [hm, hage]

/-- Instance of C38 with a late hit: in `timeByteEnv 135` the first attempt, at the
time 1214600, fails and the second, at 1214599, passes; the tip of `movingWorld`
has moved before the third iteration. `Stake` returns false with `nTimeTx`
overwritten by 1214599 and `hashProofOfStake` by the hash 0. -/
theorem stake_returns_false_witness :
    ∃ r, Stake (timeByteEnv 135) movingWorld (some examplePrevV1) exampleStake 0x1d00ffff 5000
        = .ret r ∧
      r.ret = false ∧ r.nTimeTx = 1214599 ∧ r.hashProofOfStake = some 0 := by
  obtain ⟨r, hr, hfalse, _, _, _, hnew⟩ :=
    (stake_returns_false (timeByteEnv 135) movingWorld exampleStake 0x1d00ffff 5000).2.1
      examplePrevV1
  obtain ⟨_, _, _, _, hlast⟩ := hnew (by decide) 1
    { nTimeTx := 5000, fSuccess := false, hashProofOfStake := some (2 ^ 256 - 1),
      effects := [] }
    (some 0) (by decide) (by intro j hj; interval_cases j <;> decide) (by decide) (by decide)
  have h := hlast (Or.inr (by decide))
  exact ⟨r, hr, hfalse, h.1, h.2⟩

end PoSKernel
